import Mathlib

/-!
# bumpmonitoring: a verification development

Shallow embedding of `experiment/bumpmonitoring/main.go`: the extension filter
(`client.addNewPath`), the collection step (`client.walk`) and the
collect-then-copy sequence of `main`, run against an explicit model of a Unix
filesystem and of the slash-separated path functions of the Go standard library
that the program calls (`path.Ext`, `path.Join`, `filepath.Rel`, `filepath.Walk`,
`os.Stat`, `ioutil.ReadFile`, `ioutil.WriteFile`).

Strings are lists of characters.  The separators the path functions look for
(`/` and `.`) are ASCII, so scanning a UTF-8 string by characters or by bytes
finds them at the same places.
-/

namespace Bump

/-- Go `string`, as the list of its characters. -/
abbrev Str := List Char

/-- File content, a sequence of bytes. -/
abbrev Bytes := List Nat

/-! ## `path.Ext` and the extension filter -/

/-- The loop of Go `path.Ext`: scan from the end of the path towards its start,
stop with no extension at a `/`, stop at the first `.` met and return the text
from there on.  The first argument is the part of the path not scanned yet,
reversed; the second is the text already scanned. -/
def extScan : Str → Str → Str
  | [], _ => []
  | c :: before, scanned =>
    if c = '/' then []
    else if c = '.' then '.' :: scanned
    else extScan before (c :: scanned)

/-- Go `path.Ext`. -/
def Ext (p : Str) : Str := extScan p.reverse []

/-- Source: `wantExtentions = sets.NewString(".jsonnet", ".libsonnet")`. -/
def wantExtentions : List Str := [".jsonnet".toList, ".libsonnet".toList]

/-- Source: `type client struct`. -/
structure Client where
  srcPath : Str
  dstPath : Str
  paths : List Str
deriving DecidableEq, Repr

/-- Source: `func (c *client) addNewPath(p string)`. -/
def Client.addNewPath (c : Client) (p : Str) : Client :=
  if wantExtentions.contains (Ext p) then { c with paths := c.paths ++ [p] } else c

/-! ### The filter in the words of the specification -/

/-- The part of `s` after its last `d`; all of `s` when it has no `d`. -/
def afterLast (d : Char) : Str → Str
  | [] => []
  | c :: cs => if d ∈ cs then afterLast d cs else if c = d then cs else c :: cs

/-- The suffix of `s` that starts at its last `d`; empty when it has no `d`. -/
def suffixFromLast (d : Char) : Str → Str
  | [] => []
  | c :: cs => if d ∈ cs then suffixFromLast d cs else if c = d then c :: cs else []

/-- The final slash-separated segment of a path. -/
def finalSegment (p : Str) : Str := afterLast '/' p

/-- The extension in the words of the specification: the suffix of the final
segment starting at its last dot, empty if the segment has no dot. -/
def specExt (p : Str) : Str := suffixFromLast '.' (finalSegment p)


/-! ## The path functions of the Go standard library (Unix, separator `/`)

`path.Clean` is modelled by what it computes, element by element: the path is
cut at its slashes, empty elements and `.` are dropped, `..` removes the element
before it (or is kept when there is none and the path is not rooted, or dropped
at the root), and the remaining elements are put back together. -/

/-- The elements of a path between its slashes (`"a//b"` gives `a`, empty, `b`). -/
def splitSlash : Str → List Str
  | [] => [[]]
  | c :: cs =>
    if c = '/' then [] :: splitSlash cs
    else match splitSlash cs with
      | [] => [[c]]
      | s :: ss => (c :: s) :: ss

/-- Elements joined with single slashes. -/
def joinSlash : List Str → Str
  | [] => []
  | [s] => s
  | s :: t :: rest => s ++ '/' :: joinSlash (t :: rest)

/-- Whether a path starts with a slash. -/
def isRooted (p : Str) : Bool := p.head? == some '/'

/-- One element processed by `path.Clean`; `stack` holds the elements kept so
far, the last one first. -/
def cleanStep (rooted : Bool) (stack : List Str) (elem : Str) : List Str :=
  if elem = [] ∨ elem = ['.'] then stack
  else if elem = ['.', '.'] then
    match stack with
    | [] => if rooted then [] else [elem]
    | top :: below => if top = ['.', '.'] then elem :: stack else below
  else elem :: stack

/-- The elements `path.Clean` keeps, in path order. -/
def cleanElems (rooted : Bool) (elems : List Str) : List Str :=
  (elems.foldl (cleanStep rooted) []).reverse

/-- A cleaned path written out: a leading slash when rooted, the elements joined
by slashes, and `.` for the empty relative path. -/
def renderPath (rooted : Bool) (elems : List Str) : Str :=
  if rooted then '/' :: joinSlash elems
  else if elems = [] then ['.'] else joinSlash elems

/-- Go `path.Clean` (and `filepath.Clean` on Unix). -/
def Clean (p : Str) : Str := renderPath (isRooted p) (cleanElems (isRooted p) (splitSlash p))

/-- Go `path.Join` (and `filepath.Join` on Unix) of two elements: empty elements
are ignored, the rest is joined by a slash and cleaned; two empty elements give
the empty string. -/
def Join (a b : Str) : Str :=
  if a = [] then (if b = [] then [] else Clean b)
  else Clean (a ++ '/' :: b)

/-- The elements of a cleaned path as the loop of `filepath.Rel` meets them: none
for the empty string, and the slash of a rooted path gives one leading empty
element. -/
def relElems (p : Str) : List Str :=
  if p = [] then [] else if p = ['/'] then [[]] else splitSlash p

/-- The loop of `filepath.Rel`: drop the leading elements that `base` and `targ`
have in common. -/
def dropCommon : List Str → List Str → List Str × List Str
  | b :: bs, t :: ts => if b = t then dropCommon bs ts else (b :: bs, t :: ts)
  | bs, ts => (bs, ts)

/-- Go `filepath.Rel` on Unix; `none` stands for the error "Rel: can't make
targpath relative to basepath".  When elements of `base` are left, the result
goes up by one `..` for each of them, which cannot be done when one of them is
itself `..` (in a cleaned path those come first); the result is a cleaned
path. -/
def Rel (basepath targpath : Str) : Option Str :=
  let base := Clean basepath
  let targ := Clean targpath
  if targ = base then some ['.']
  else
    let base := if base = ['.'] then [] else base
    if isRooted base != isRooted targ then none
    else
      match dropCommon (relElems base) (relElems targ) with
      | ([], ts) => some (joinSlash ts)
      | (b :: bs, []) =>
        if b = ['.', '.'] then none
        else some (joinSlash ((b :: bs).map (fun _ => ['.', '.'])))
      | (b :: bs, t :: ts) =>
        if b = ['.', '.'] then none
        else some (Clean (joinSlash ((b :: bs).map (fun _ => ['.', '.']) ++ t :: ts)))

/-- The names from the root that a path gives once it is made absolute against
the working directory `cwd` (itself a list of names below the root) and cleaned
as `path.Clean` does. -/
def locate (cwd : List Str) (p : Str) : List Str :=
  cleanElems true (if isRooted p then splitSlash p else cwd ++ splitSlash p)

/-! ## The filesystem

A tree of directories seen by the user who runs the program, with the owner's
permission bits.  An entry of a directory is a regular file, a directory, a
hard link (a further name of a regular file that is held elsewhere in the tree)
or a symbolic link (a name that stands for a path).  A directory is held as the
listing of its entries in the order `filepath.Walk` visits them, that is, sorted
by name.  Reading a file needs `r` on it, writing an existing file needs `w` on
it, reading the names of a directory needs `r` on it, passing through a
directory or looking at one of its entries needs `x` on it, and creating a file
in a directory needs `w` and `x` on it.  A new file gets mode 0644 less the bits
of the umask of the process. -/

/-- The permission bits of the running user on a file or directory. -/
structure Perm where
  r : Bool
  w : Bool
  x : Bool
deriving DecidableEq, Repr

/-- The entries of a directory.  A hard link gives the location (the names from
the root) of the regular file it is a further name of; a symbolic link gives
the path it stands for. -/
inductive Listing where
  | nil : Listing
  | file (name : Str) (perm : Perm) (content : Bytes) (rest : Listing) : Listing
  | dir (name : Str) (perm : Perm) (children : Listing) (rest : Listing) : Listing
  | hardlink (name : Str) (target : List Str) (rest : Listing) : Listing
  | symlink (name : Str) (target : Str) (rest : Listing) : Listing
deriving DecidableEq, Repr

/-- An entry of a directory without its name. -/
inductive Node where
  | file (perm : Perm) (content : Bytes) : Node
  | dir (perm : Perm) (children : Listing) : Node
  | hardlink (target : List Str) : Node
  | symlink (target : Str) : Node
deriving DecidableEq, Repr

/-- Go `os.FileInfo.IsDir`. -/
def Node.IsDir : Node → Bool
  | .dir _ _ => true
  | .file _ _ => false
  | .hardlink _ => false
  | .symlink _ => false

/-- The error numbers the modelled system calls fail with. -/
inductive Errno where
  | ENOENT
  | ENOTDIR
  | EACCES
  | EISDIR
  | ELOOP
deriving DecidableEq, Repr

/-- The state of the filesystem and of the process that matters to it: the root
directory, the working directory of the process (the names leading to it from
the root, through directories) and its umask (the owner's bits that are cleared
in the mode of a file the process creates). -/
structure FS where
  rootPerm : Perm
  root : Listing
  cwd : List Str
  umask : Perm
deriving DecidableEq, Repr

/-- The root directory as a node. -/
def FS.rootNode (fs : FS) : Node := .dir fs.rootPerm fs.root

/-- The entry of a listing with the given name. -/
def Listing.find : Listing → Str → Option Node
  | .nil, _ => none
  | .file n p c rest, s => if n = s then some (.file p c) else rest.find s
  | .dir n p ch rest, s => if n = s then some (.dir p ch) else rest.find s
  | .hardlink n t rest, s => if n = s then some (.hardlink t) else rest.find s
  | .symlink n t rest, s => if n = s then some (.symlink t) else rest.find s

/-- A listing that starts with the entry `node` under the name `name`. -/
def Listing.entry (name : Str) : Node → Listing → Listing
  | .file p c, rest => .file name p c rest
  | .dir p ch, rest => .dir name p ch rest
  | .hardlink t, rest => .hardlink name t rest
  | .symlink t, rest => .symlink name t rest

/-- The listing with the entry named `s` replaced by `node`. -/
def Listing.replace : Listing → Str → Node → Listing
  | .nil, _, _ => .nil
  | .file n p c rest, s, node =>
    if n = s then Listing.entry n node rest else .file n p c (rest.replace s node)
  | .dir n p ch rest, s, node =>
    if n = s then Listing.entry n node rest else .dir n p ch (rest.replace s node)
  | .hardlink n t rest, s, node =>
    if n = s then Listing.entry n node rest else .hardlink n t (rest.replace s node)
  | .symlink n t rest, s, node =>
    if n = s then Listing.entry n node rest else .symlink n t (rest.replace s node)

/-- The listing with a new file entry, put before the first entry with a larger
name. -/
def Listing.insertFile : Listing → Str → Perm → Bytes → Listing
  | .nil, s, q, c => .file s q c .nil
  | .file n p c0 rest, s, q, c =>
    if s < n then .file s q c (.file n p c0 rest)
    else .file n p c0 (rest.insertFile s q c)
  | .dir n p ch rest, s, q, c =>
    if s < n then .file s q c (.dir n p ch rest)
    else .dir n p ch (rest.insertFile s q c)
  | .hardlink n t rest, s, q, c =>
    if s < n then .file s q c (.hardlink n t rest)
    else .hardlink n t (rest.insertFile s q c)
  | .symlink n t rest, s, q, c =>
    if s < n then .file s q c (.symlink n t rest)
    else .symlink n t (rest.insertFile s q c)

/-- What is at the location `names` below a node, going down through
directories only, whatever the permissions. -/
def Node.locate : Node → List Str → Option Node
  | n, [] => some n
  | .file _ _, _ :: _ => none
  | .hardlink _, _ :: _ => none
  | .symlink _, _ :: _ => none
  | .dir _ ch, s :: more =>
    match ch.find s with
    | none => none
    | some n => n.locate more

/-- What is at an absolute location of the filesystem, whatever the permissions. -/
def FS.nodeAt (fs : FS) (loc : List Str) : Option Node := fs.rootNode.locate loc

/-- The directory at an absolute location: its mode and its entries. -/
def FS.dirAt (fs : FS) (loc : List Str) : Option (Perm × Listing) :=
  match fs.nodeAt loc with
  | some (.dir p l) => some (p, l)
  | _ => none

/-- What a path leads to: a directory, a regular file (for a hard link, the file
it is a name of), a symbolic link that is not to be followed, each with its
location, or a name that is missing in a directory that exists and can be
searched. -/
inductive Found where
  | dir (loc : List Str) (perm : Perm) (children : Listing) : Found
  | file (loc : List Str) (perm : Perm) (content : Bytes) : Found
  | symlink (loc : List Str) (target : Str) : Found
  | missing (parent : List Str) (perm : Perm) (name : Str) : Found
deriving DecidableEq, Repr

/-- How far the elements of a path lead without passing a symbolic link: to an
end, to a symbolic link (then the walk goes on from the directory `cur` with the
elements `comps`: those of the target followed by the ones left), or to an
error. -/
inductive Step where
  | found (f : Found) : Step
  | hop (cur : List Str) (comps : List Str) : Step
  | fail (e : Errno) : Step
deriving DecidableEq, Repr

/-- Path lookup as the kernel does it, as far as the next symbolic link.  The
walk is in the directory at location `cur`, with mode `p` and entries `l`, and
has the elements `comps` before it.  Empty elements and `.` stay in the
directory and `..` goes to the parent directory; looking up any other element
needs the directory to be searchable.  A regular file or a hard link followed
by further elements is an error, and so is a missing name followed by further
elements.  A symbolic link is followed unless it is the last element and
`follow` is off. -/
def walkComps (fs : FS) (follow : Bool) : List Str → Perm → Listing → List Str → Step
  | cur, p, l, [] => .found (.dir cur p l)
  | cur, p, l, c :: rest =>
    if c = [] ∨ c = ['.'] then walkComps fs follow cur p l rest
    else if p.x then
      if c = ['.', '.'] then
        match fs.dirAt cur.dropLast with
        | some (p', l') => walkComps fs follow cur.dropLast p' l' rest
        | none => .fail .ENOENT
      else
        match l.find c with
        | none =>
          (match rest with
          | [] => .found (.missing cur p c)
          | _ :: _ => .fail .ENOENT)
        | some (.dir q ch) => walkComps fs follow (cur ++ [c]) q ch rest
        | some (.file q content) =>
          (match rest with
          | [] => .found (.file (cur ++ [c]) q content)
          | _ :: _ => .fail .ENOTDIR)
        | some (.hardlink target) =>
          (match rest with
          | [] =>
            (match fs.nodeAt target with
            | some (.file q content) => .found (.file target q content)
            | _ => .fail .ENOENT)
          | _ :: _ => .fail .ENOTDIR)
        | some (.symlink target) =>
          if rest = [] ∧ follow = false then .found (.symlink (cur ++ [c]) target)
          else if target = [] then .fail .ENOENT
          else .hop (if isRooted target then [] else cur) (splitSlash target ++ rest)
    else .fail .EACCES

/-- Path lookup through symbolic links: each link passed takes one unit of
`fuel`, and the lookup fails with `ELOOP` when none is left. -/
def resolve (fs : FS) (follow : Bool) : Nat → List Str → List Str → Except Errno Found
  | 0, _, _ => .error .ELOOP
  | fuel + 1, cur, comps =>
    match fs.dirAt cur with
    | none => .error .ENOENT
    | some (p, l) =>
      match walkComps fs follow cur p l comps with
      | .found f => .ok f
      | .fail e => .error e
      | .hop cur' comps' => resolve fs follow fuel cur' comps'

/-- The number of symbolic links one path lookup may pass (Linux: 40). -/
def maxSymlinks : Nat := 40

/-- The lookup of a path by a system call.  The path is made absolute against
the working directory and its `.` and `..` elements are resolved as `path.Clean`
does, which changes nothing in a path that is already clean, as every path is
that the program passes to a system call (each comes from `path.Join`); the
names that remain are then walked from the root. -/
def FS.lookup (fs : FS) (follow : Bool) (path : Str) : Except Errno Found :=
  if path = [] then .error .ENOENT
  else resolve fs follow (maxSymlinks + 1) [] (locate fs.cwd path)

/-- Go `os.Stat`: symbolic links are followed. -/
def Stat (fs : FS) (path : Str) : Except Errno Node :=
  match fs.lookup true path with
  | .error e => .error e
  | .ok (.dir _ p ch) => .ok (.dir p ch)
  | .ok (.file _ p content) => .ok (.file p content)
  | .ok (.symlink _ _) => .error .ELOOP
  | .ok (.missing _ _ _) => .error .ENOENT

/-- Go `os.Lstat`: a symbolic link named by the last element is not followed. -/
def Lstat (fs : FS) (path : Str) : Except Errno Node :=
  match fs.lookup false path with
  | .error e => .error e
  | .ok (.dir _ p ch) => .ok (.dir p ch)
  | .ok (.file _ p content) => .ok (.file p content)
  | .ok (.symlink _ target) => .ok (.symlink target)
  | .ok (.missing _ _ _) => .error .ENOENT

/-- Go `ioutil.ReadFile`. -/
def ReadFile (fs : FS) (path : Str) : Except Errno Bytes :=
  match fs.lookup true path with
  | .error e => .error e
  | .ok (.dir _ _ _) => .error .EISDIR
  | .ok (.file _ p content) => if p.r then .ok content else .error .EACCES
  | .ok (.symlink _ _) => .error .ELOOP
  | .ok (.missing _ _ _) => .error .ENOENT

/-- The permission bits of a file created with mode 0644 under the given umask. -/
def mode0644 (umask : Perm) : Perm := { r := !umask.r, w := !umask.w, x := false }

/-- The listing with the regular file at the location `names` below it set to
the given mode and content; a name missing in the last directory is added. -/
def Listing.putFile : Listing → List Str → Perm → Bytes → Listing
  | l, [], _, _ => l
  | l, [s], q, c =>
    match l.find s with
    | none => l.insertFile s q c
    | some _ => l.replace s (.file q c)
  | l, s :: t :: more, q, c =>
    match l.find s with
    | some (.dir p ch) => l.replace s (.dir p (putFile ch (t :: more) q c))
    | _ => l

/-- Go `ioutil.WriteFile(path, content, 0644)`: the filesystem afterwards.  The
file is opened for writing with `O_CREATE|O_TRUNC`, which follows symbolic
links: an existing file is truncated and gets the new content (it keeps its
mode, and so does every other name of it), a missing file is created in its
directory with mode 0644 less the umask. -/
def WriteFile (fs : FS) (path : Str) (content : Bytes) : Except Errno FS :=
  match fs.lookup true path with
  | .error e => .error e
  | .ok (.dir _ _ _) => .error .EISDIR
  | .ok (.symlink _ _) => .error .ELOOP
  | .ok (.file loc p _) =>
    if p.w then .ok { fs with root := fs.root.putFile loc p content }
    else .error .EACCES
  | .ok (.missing parent p name) =>
    if p.w then
      .ok { fs with root := fs.root.putFile (parent ++ [name]) (mode0644 fs.umask) content }
    else .error .EACCES

/-- One call of the function given to `filepath.Walk`: the path visited and the
error `Walk` reports for it, if any. -/
structure Visit where
  path : Str
  err : Option Errno
deriving DecidableEq, Repr

/-- The body of `filepath.Walk` for the entries of a directory `dir` whose names
were read: each entry is `Lstat`ed, which needs the directory to be searchable;
a failed `Lstat` is reported to the function; a file, a hard link or a symbolic
link is visited (a symbolic link is not followed, also when it leads to a
directory); a directory is visited (with the error of reading its names, if
they cannot be read) and then its own entries are.  The function of the program
always returns `nil`, so the walk never skips a directory and never stops
early. -/
def walkEntries : Listing → Str → Bool → List Visit
  | .nil, _, _ => []
  | .file n _ _ rest, dir, searchable =>
    { path := Join dir n, err := if searchable then none else some .EACCES }
      :: walkEntries rest dir searchable
  | .hardlink n _ rest, dir, searchable =>
    { path := Join dir n, err := if searchable then none else some .EACCES }
      :: walkEntries rest dir searchable
  | .symlink n _ rest, dir, searchable =>
    { path := Join dir n, err := if searchable then none else some .EACCES }
      :: walkEntries rest dir searchable
  | .dir n p ch rest, dir, searchable =>
    (if searchable then
      (if p.r then
        { path := Join dir n, err := none } :: walkEntries ch (Join dir n) p.x
      else [{ path := Join dir n, err := some .EACCES }])
    else [{ path := Join dir n, err := some .EACCES }])
      ++ walkEntries rest dir searchable

/-- Go `filepath.Walk(root, fn)` for a function `fn` that always returns `nil`:
the calls of `fn`, in order.  `Walk` looks at `root` with `os.Lstat`, so a root
that is a symbolic link is visited as a single entry. -/
def filepathWalk (fs : FS) (root : Str) : List Visit :=
  match Lstat fs root with
  | .error e => [{ path := root, err := some e }]
  | .ok (.dir p ch) =>
    if p.r then { path := root, err := none } :: walkEntries ch root p.x
    else [{ path := root, err := some .EACCES }]
  | .ok _ => [{ path := root, err := none }]

/-- A name a directory entry can have. -/
def validName (n : Str) : Bool :=
  decide (n ≠ [] ∧ '/' ∉ n ∧ n ≠ ['.'] ∧ n ≠ ['.', '.'])

/-- The names of the entries of a listing. -/
def Listing.names : Listing → List Str
  | .nil => []
  | .file n _ _ rest => n :: rest.names
  | .dir n _ _ rest => n :: rest.names
  | .hardlink n _ rest => n :: rest.names
  | .symlink n _ rest => n :: rest.names

/-- Every entry of the listing, at any depth, has a name an entry can have, and
no directory has two entries of the same name. -/
def Listing.wellFormed : Listing → Bool
  | .nil => true
  | .file n _ _ rest => validName n && decide (n ∉ rest.names) && rest.wellFormed
  | .dir n _ ch rest =>
    validName n && decide (n ∉ rest.names) && ch.wellFormed && rest.wellFormed
  | .hardlink n _ rest => validName n && decide (n ∉ rest.names) && rest.wellFormed
  | .symlink n _ rest => validName n && decide (n ∉ rest.names) && rest.wellFormed

/-- The state is one a filesystem can be in: entry names are names, they are
distinct within a directory, and the working directory is given by names. -/
def FS.wellFormed (fs : FS) : Bool :=
  fs.root.wellFormed && fs.cwd.all validName

/-- No entry of the listing, at any depth, is a hard link or a symbolic link. -/
def Listing.linkFree : Listing → Bool
  | .nil => true
  | .file _ _ _ rest => rest.linkFree
  | .dir _ _ ch rest => ch.linkFree && rest.linkFree
  | .hardlink _ _ _ => false
  | .symlink _ _ _ => false

/-! ## The program -/

/-- Source: `optionalConfigPaths`. -/
def optionalConfigPaths : List Str :=
  ["mixins/grafana_dashboards".toList, "mixins/prometheus".toList]

/-- Source: `requiredConfigPaths`. -/
def requiredConfigPaths : List Str := ["mixins/lib/config_util.libsonnet".toList]

/-- Source: `type options struct`, filled from the flags `-src` and `-dst`. -/
structure Options where
  srcPath : Str
  dstPath : Str
deriving DecidableEq, Repr

deriving instance DecidableEq for Except

/-- What the program does that can be observed, in program order: the lines it
logs and the filesystem operations it performs, each with its result. -/
inductive Op where
  | logOptional (arg : Str) : Op
  | logRequired (arg : Str) : Op
  | logFiles (paths : List Str) : Op
  | stat (path : Str) (err : Option Errno) : Op
  | visit (path : Str) (err : Option Errno) : Op
  | read (path : Str) (result : Except Errno Bytes) : Op
  | write (path : Str) (content : Bytes) (err : Option Errno) : Op
deriving DecidableEq, Repr

/-- The calls of `log.Fatalf`, each of which ends the process. -/
inductive Fatal where
  | stat (fullPath : Str) (err : Errno) : Fatal
  | read (srcPath : Str) (err : Errno) : Fatal
  | write (dstPath : Str) (err : Errno) : Fatal
deriving DecidableEq, Repr

/-- The state of a run: the filesystem, the client and what was done so far. -/
structure State where
  fs : FS
  c : Client
  trace : List Op
deriving DecidableEq, Repr

/-- How a piece of the program ends: it returns, or the process is ended by
`log.Fatalf`; either way in some state. -/
inductive Outcome where
  | done (s : State) : Outcome
  | fatal (s : State) (f : Fatal) : Outcome
deriving DecidableEq, Repr

/-- The state a piece of the program ended in. -/
def Outcome.state : Outcome → State
  | .done s => s
  | .fatal s _ => s

/-- The fatal error a piece of the program ended with, if it did. -/
def Outcome.error : Outcome → Option Fatal
  | .done _ => none
  | .fatal _ f => some f

/-- Appending an operation to what was done. -/
def State.did (s : State) (op : Op) : State := { s with trace := s.trace ++ [op] }

/-- Source: the function literal `client.walk` gives to `filepath.Walk`.  The
error of `filepath.Rel` is discarded, which leaves `relPath` empty; `info` and
`err` are not looked at. -/
def walkFn (rootPath : Str) (s : State) (v : Visit) : State :=
  let relPath := (Rel rootPath v.path).getD []
  let s := s.did (.visit v.path v.err)
  { s with c := s.c.addNewPath relPath }

/-- Source: `func (c *client) walk(rootPath, subPath string)`. -/
def walk (s : State) (rootPath subPath : Str) : Outcome :=
  let fullPath := Join rootPath subPath
  match Stat s.fs fullPath with
  | .error e => .fatal (s.did (.stat fullPath (some e))) (.stat fullPath e)
  | .ok info =>
    let s := s.did (.stat fullPath none)
    if info.IsDir then
      .done ((filepathWalk s.fs fullPath).foldl (walkFn rootPath) s)
    else
      .done { s with c := s.c.addNewPath subPath }

/-- Source: the loops `for _, subPath := range ... { c.walk(root, subPath) }` of
`main`. -/
def walkEach (s : State) (rootPath : Str) : List Str → Outcome
  | [] => .done s
  | subPath :: rest =>
    match walk s rootPath subPath with
    | .fatal s' f => .fatal s' f
    | .done s' => walkEach s' rootPath rest

/-- Source: the loop `for _, subPath := range c.paths` of `main`, which copies
each collected file. -/
def copyEach (s : State) : List Str → Outcome
  | [] => .done s
  | subPath :: rest =>
    let srcPath := Join s.c.srcPath subPath
    let dstPath := Join s.c.dstPath subPath
    match ReadFile s.fs srcPath with
    | .error e => .fatal (s.did (.read srcPath (.error e))) (.read srcPath e)
    | .ok content =>
      let s := s.did (.read srcPath (.ok content))
      match WriteFile s.fs dstPath content with
      | .error e => .fatal (s.did (.write dstPath content (some e))) (.write dstPath e)
      | .ok fs' =>
        let s := s.did (.write dstPath content none)
        copyEach { s with fs := fs' } rest

/-- The collection part of `main`: the optional subpaths walked against the
destination root, then the required ones against the source root. -/
def collect (fs : FS) (o : Options) : Outcome :=
  let c : Client := { srcPath := o.srcPath, dstPath := o.dstPath, paths := [] }
  let s : State := { fs := fs, c := c, trace := [.logOptional c.srcPath] }
  match walkEach s s.c.dstPath optionalConfigPaths with
  | .fatal s f => .fatal s f
  | .done s =>
    let s := s.did (.logRequired s.c.dstPath)
    walkEach s s.c.srcPath requiredConfigPaths

/-- Source: `func main()`, run on a filesystem with the parsed flags. -/
def main (fs : FS) (o : Options) : Outcome :=
  match collect fs o with
  | .fatal s f => .fatal s f
  | .done s =>
    let s := s.did (.logFiles s.c.paths)
    copyEach s s.c.paths

/-! ## Notions used to state and prove the properties -/

/-- An element that `path.Clean` keeps as it is or as `..`: not empty, not `.`,
without a slash. -/
def keptElem (e : Str) : Bool := decide (e ≠ [] ∧ e ≠ ['.'] ∧ '/' ∉ e)

/-- The form of the elements kept by `path.Clean`, the last one first: names,
below them `..` elements only, which a rooted path never has. -/
def cleanStack (rooted : Bool) : List Str → Bool
  | [] => true
  | e :: below =>
    keptElem e &&
      (if e = ['.', '.'] then !rooted && below.all (fun b => decide (b = ['.', '.']))
       else cleanStack rooted below)

/-- The elements of a cleaned path, in path order, have the form `path.Clean`
produces. -/
def cleanPath (rooted : Bool) (elems : List Str) : Prop := cleanStack rooted elems.reverse = true

/-- The elements of a path once cleaned. -/
def rootElems (root : Str) : List Str := cleanElems (isRooted root) (splitSlash root)

/-- The elements of `path.Join root sub`: those of the cleaned root followed by
those of the subpath, cleaned together. -/
def joinElems (root sub : Str) : List Str :=
  ((splitSlash sub).foldl (cleanStep (isRooted root)) (rootElems root).reverse).reverse

/-- One `..` for each element. -/
def upElems (B : List Str) : List Str := B.map (fun _ => ['.', '.'])

/-- A relative path made of names only: its elements. -/
def validNames (names : List Str) : Prop := names ≠ [] ∧ ∀ n ∈ names, validName n = true

/-- Path lookup in a tree without links, along names: every directory passed
through must be searchable. -/
def Node.lookup : Node → List Str → Except Errno Node
  | n, [] => .ok n
  | .file _ _, _ :: _ => .error .ENOTDIR
  | .hardlink _, _ :: _ => .error .ENOTDIR
  | .symlink _, _ :: _ => .error .ENOTDIR
  | .dir p ch, s :: more =>
    if p.x then
      match ch.find s with
      | none => .error .ENOENT
      | some n => n.lookup more
    else .error .EACCES

/-- Writing a file in a tree without links, at the location `names` below a
node: an existing file is truncated and gets the new content (it keeps its
mode), a missing file is created in its directory with the mode `mode`. -/
def Node.write : Node → List Str → Perm → Bytes → Except Errno Node
  | .file p _, [], _, c => if p.w then .ok (.file p c) else .error .EACCES
  | .dir _ _, [], _, _ => .error .EISDIR
  | .hardlink _, [], _, _ => .error .ELOOP
  | .symlink _, [], _, _ => .error .ELOOP
  | .file _ _, _ :: _, _, _ => .error .ENOTDIR
  | .hardlink _, _ :: _, _, _ => .error .ENOTDIR
  | .symlink _, _ :: _, _, _ => .error .ENOTDIR
  | .dir p ch, s :: more, mode, c =>
    if p.x then
      match ch.find s with
      | some n =>
        match n.write more mode c with
        | .error e => .error e
        | .ok n' => .ok (.dir p (ch.replace s n'))
      | none =>
        match more with
        | [] => if p.w then .ok (.dir p (ch.insertFile s mode c)) else .error .EACCES
        | _ :: _ => .error .ENOENT
    else .error .EACCES

/-- What `os.Stat` and `os.Lstat` come to on a filesystem without links. -/
def plainStat (fs : FS) (path : Str) : Except Errno Node :=
  if path = [] then .error .ENOENT else fs.rootNode.lookup (locate fs.cwd path)

/-- What `ioutil.ReadFile` comes to on a filesystem without links. -/
def plainReadFile (fs : FS) (path : Str) : Except Errno Bytes :=
  match plainStat fs path with
  | .error e => .error e
  | .ok (.file p content) => if p.r then .ok content else .error .EACCES
  | .ok (.dir _ _) => .error .EISDIR
  | .ok (.hardlink _) => .error .ELOOP
  | .ok (.symlink _) => .error .ELOOP

/-- What `ioutil.WriteFile` comes to on a filesystem without links. -/
def plainWriteFile (fs : FS) (path : Str) (content : Bytes) : Except Errno FS :=
  if path = [] then .error .ENOENT
  else
    match fs.rootNode.write (locate fs.cwd path) (mode0644 fs.umask) content with
    | .error e => .error e
    | .ok (.dir p ch) => .ok { fs with rootPerm := p, root := ch }
    | .ok _ => .error .EISDIR

/-- The node a lookup found; a missing name is the error `ENOENT`. -/
def Found.node : Found → Except Errno Node
  | .dir _ p ch => .ok (.dir p ch)
  | .file _ p content => .ok (.file p content)
  | .symlink _ target => .ok (.symlink target)
  | .missing _ _ _ => .error .ENOENT

/-- The result of a lookup that stops at the first symbolic link. -/
def Step.result : Step → Except Errno Found
  | .found f => .ok f
  | .hop _ _ => .error .ELOOP
  | .fail e => .error e

/-- The step passed no link: it ended at a directory, a file or a missing name,
or failed. -/
def Step.plain : Step → Bool
  | .found (.dir _ _ _) => true
  | .found (.file _ _ _) => true
  | .found (.missing _ _ _) => true
  | .found (.symlink _ _) => false
  | .hop _ _ => false
  | .fail _ => true

/-- What a write in a tree without links comes to, given how far the lookup of
the location got. -/
def writeOf (p : Perm) (l : Listing) (comps : List Str) (mode : Perm) (c : Bytes) :
    Step → Except Errno Node
  | .found (.file _ q _) =>
    if q.w then .ok (.dir p (l.putFile comps q c)) else .error .EACCES
  | .found (.missing _ pp _) =>
    if pp.w then .ok (.dir p (l.putFile comps mode c)) else .error .EACCES
  | .found (.dir _ _ _) => .error .EISDIR
  | .found (.symlink _ _) => .error .ELOOP
  | .hop _ _ => .error .ELOOP
  | .fail e => .error e

/-- An element of a path that names an entry: not empty, not `.`, not `..`. -/
def nameElem (c : Str) : Prop := c ≠ [] ∧ c ≠ ['.'] ∧ c ≠ ['.', '.']

/-- A node without hard links and symbolic links, at any depth. -/
def Node.linkFree : Node → Bool
  | .file _ _ => true
  | .dir _ ch => ch.linkFree
  | .hardlink _ => false
  | .symlink _ => false

/-- Going down from the node along the names meets no hard link and no symbolic
link. -/
def Node.plainAlong : Node → List Str → Bool
  | .hardlink _, _ => false
  | .symlink _, _ => false
  | .file _ _, _ => true
  | .dir _ _, [] => true
  | .dir _ ch, s :: more =>
    match ch.find s with
    | none => true
    | some n => n.plainAlong more

/-- Going down from the node along the names meets no hard link and no symbolic
link, and what the names lead to, if anything, has none in it at any depth. -/
def Node.linkFreeBelow : Node → List Str → Bool
  | n, [] => n.linkFree
  | .hardlink _, _ :: _ => false
  | .symlink _, _ :: _ => false
  | .file _ _, _ :: _ => true
  | .dir _ ch, s :: more =>
    match ch.find s with
    | none => true
    | some n => n.linkFreeBelow more

/-- The tree at a root path is free of links: the path is reached from the root
directory without passing a symbolic link, and below it no entry, at any depth,
is a hard link or a symbolic link. -/
def FS.plainTree (fs : FS) (root : Str) : Bool :=
  fs.rootNode.linkFreeBelow (locate fs.cwd root)

/-- A listing with the content of every file forgotten: the names, kinds and
permissions, which is all that a walk looks at. -/
def Listing.shape : Listing → Listing
  | .nil => .nil
  | .file n p _ rest => .file n p [] rest.shape
  | .dir n p ch rest => .dir n p ch.shape rest.shape
  | .hardlink n t rest => .hardlink n t rest.shape
  | .symlink n t rest => .symlink n t rest.shape

/-- A node with the content of every file in it forgotten. -/
def Node.shape : Node → Node
  | .file p _ => .file p []
  | .dir p ch => .dir p ch.shape
  | .hardlink t => .hardlink t
  | .symlink t => .symlink t

/-- The result of a lookup with file contents forgotten. -/
def shapeOf : Except Errno Node → Except Errno Node
  | .error e => .error e
  | .ok n => .ok n.shape

/-- What an entry is by itself: a file with its mode and content, a directory
with its mode, a link with its target. -/
inductive Kind where
  | file (perm : Perm) (content : Bytes) : Kind
  | dir (perm : Perm) : Kind
  | hardlink (target : List Str) : Kind
  | symlink (target : Str) : Kind
deriving DecidableEq, Repr

/-- What an entry is by itself. -/
def Node.kind : Node → Kind
  | .file p c => .file p c
  | .dir p _ => .dir p
  | .hardlink t => .hardlink t
  | .symlink t => .symlink t

/-- What is at an absolute location, by itself; `none` when nothing is there. -/
def FS.kindAt (fs : FS) (loc : List Str) : Option Kind := (fs.nodeAt loc).map Node.kind

/-- The content of the regular file a path leads to, through links; `none` when
it leads to no file. -/
def FS.contentAt (fs : FS) (path : Str) : Option Bytes :=
  match fs.lookup true path with
  | .ok (.file _ _ c) => some c
  | _ => none

/-- Two locations part ways: at some depth they name different entries of the
same directory. -/
def diverge : List Str → List Str → Bool
  | a :: as, b :: bs => if a = b then diverge as bs else true
  | _, _ => false

/-- The relative paths the function given to `filepath.Walk` appends for a list
of visits, in order. -/
def collected (rootPath : Str) (visits : List Visit) : List Str :=
  visits.filterMap (fun v =>
    let relPath := (Rel rootPath v.path).getD []
    if wantExtentions.contains (Ext relPath) then some relPath else none)

/-- The calls `filepath.Walk` makes, given what `Lstat` of the root returned. -/
def visitsOf (lst : Except Errno Node) (root : Str) : List Visit :=
  match lst with
  | .error e => [{ path := root, err := some e }]
  | .ok (.dir p ch) =>
    if p.r then { path := root, err := none } :: walkEntries ch root p.x
    else [{ path := root, err := some .EACCES }]
  | .ok _ => [{ path := root, err := none }]

/-- What `client.walk` does, given what `os.Stat` of the full path returned and
what `os.Lstat` of it returns to `filepath.Walk`. -/
def walkResult (st lst : Except Errno Node) (s : State) (rootPath subPath : Str) : Outcome :=
  let fullPath := Join rootPath subPath
  match st with
  | .error e => .fatal (s.did (.stat fullPath (some e))) (.stat fullPath e)
  | .ok info =>
    if info.IsDir then
      .done ((visitsOf lst fullPath).foldl (walkFn rootPath) (s.did (.stat fullPath none)))
    else
      .done { (s.did (.stat fullPath none)) with c := s.c.addNewPath subPath }

/-- The state with another filesystem. -/
def State.withFs (s : State) (fs : FS) : State := { s with fs := fs }

/-- The outcome with another filesystem in its state. -/
def Outcome.withFs : Outcome → FS → Outcome
  | .done s, fs => .done (s.withFs fs)
  | .fatal s f, fs => .fatal (s.withFs fs) f

/-- A node whose listings, at any depth, are well formed. -/
def Node.wellFormed : Node → Bool
  | .file _ _ => true
  | .dir _ ch => ch.wellFormed
  | .hardlink _ => true
  | .symlink _ => true

/-- The path `a` was collected by walking the subpath with elements `P` against
a root at the location `rootLoc`: it is the subpath followed by names, and
something exists in `fs` at the location these lead to. -/
def collectedFrom (fs : FS) (rootLoc : List Str) (P : List Str) (a : Str) : Prop :=
  ∃ names, (∀ n ∈ names, validName n = true) ∧ a = joinSlash (P ++ names)
    ∧ fs.nodeAt (rootLoc ++ P ++ names) ≠ none

/-- The elements of the optional subpaths. -/
def optionalElems : List (List Str) :=
  [["mixins".toList, "grafana_dashboards".toList], ["mixins".toList, "prometheus".toList]]

/-- The elements of the required subpaths. -/
def requiredElems : List (List Str) :=
  [["mixins".toList, "lib".toList, "config_util.libsonnet".toList]]

/-- The paths collected from the optional subpaths: the client's paths when the
first loop of `main` ends. -/
def optionalCollected (fs : FS) (o : Options) : List Str :=
  (walkEach
    { fs := fs, c := { srcPath := o.srcPath, dstPath := o.dstPath, paths := [] },
      trace := [.logOptional o.srcPath] }
    o.dstPath optionalConfigPaths).state.c.paths

/-- The state after one file was copied: `content` was read from the source and
written to the destination, which left the filesystem `fs'`. -/
def copied (s : State) (subPath : Str) (content : Bytes) (fs' : FS) : State :=
  { fs := fs', c := s.c,
    trace := s.trace ++ [.read (Join s.c.srcPath subPath) (.ok content),
      .write (Join s.c.dstPath subPath) content none] }

/-- A relative path made of names only. -/
def plainPath (p : Str) : Prop := ∃ Q, validNames Q ∧ p = joinSlash Q

/-- The paths collected by a run. -/
def collectedPaths (fs : FS) (o : Options) : List Str := (collect fs o).state.c.paths

/-- The state in which the copy loop of `main` starts, when the collection step
has returned. -/
def copyStart (fs : FS) (o : Options) : State :=
  (collect fs o).state.did (.logFiles (collect fs o).state.c.paths)

/-- The copy loop of `main` run on the first `i` collected paths only. -/
def afterCopies (fs : FS) (o : Options) (i : Nat) : Outcome :=
  copyEach (copyStart fs o) ((collectedPaths fs o).take i)

/-- The paths the program called `ioutil.WriteFile` on, in order. -/
def writtenPaths (trace : List Op) : List Str :=
  trace.filterMap (fun op =>
    match op with
    | .write p _ _ => some p
    | _ => none)

/-- The paths the program called `ioutil.ReadFile` on, in order. -/
def readPaths (trace : List Op) : List Str :=
  trace.filterMap (fun op =>
    match op with
    | .read p _ => some p
    | _ => none)

/-- The call of `log.Fatalf` that the failure of an operation leads to in the
program: the failed stat of a configured subpath, a failed read, a failed write.
An error reported to the function given to `filepath.Walk` leads to none. -/
def Op.fatal : Op → Option Fatal
  | .stat p (some e) => some (.stat p e)
  | .read p (.error e) => some (.read p e)
  | .write p _ (some e) => some (.write p e)
  | _ => none

/-- The operations done so far raised no fatal error. -/
def quiet (trace : List Op) : Prop := ∀ op ∈ trace, op.fatal = none

/-- An outcome in which a fatal error is raised exactly by the last operation
done: a piece of the program that returned did nothing that calls for a fatal
error, and one that ended the process did so at the first such operation. -/
def Outcome.failFast : Outcome → Prop
  | .done s => quiet s.trace
  | .fatal s f => ∃ t op, s.trace = t ++ [op] ∧ op.fatal = some f ∧ quiet t

/-! ## Filesystems used as concrete inputs -/

/-- Mode `rwx` for the running user. -/
def permAll : Perm := { r := true, w := true, x := true }

/-- Mode `rw-` for the running user. -/
def permFile : Perm := { r := true, w := true, x := false }

/-- Mode `-wx`: a directory whose names cannot be read. -/
def permNoRead : Perm := { r := false, w := true, x := true }

/-- A umask that clears none of the owner's bits, such as 022. -/
def permNone : Perm := { r := false, w := false, x := false }

/-- The flags `-src /src -dst /dst`. -/
def flags : Options := { srcPath := "/src".toList, dstPath := "/dst".toList }

/-- A source tree with the required file and one dashboard source. -/
def srcTree : Listing :=
  .dir "mixins".toList permAll
    (.dir "lib".toList permAll
      (.file "config_util.libsonnet".toList permFile [88] .nil)
    (.dir "prometheus".toList permAll
      (.file "b.jsonnet".toList permFile [90] .nil)
    .nil))
  .nil

/-- A filesystem on which a run succeeds: the destination has a file with a
foreign extension, an empty `lib` directory and an older `b.jsonnet`. -/
def fsGood : FS :=
  { rootPerm := permAll, cwd := [], umask := permNone,
    root :=
      .dir "dst".toList permAll
        (.dir "mixins".toList permAll
          (.dir "grafana_dashboards".toList permAll
            (.file "a.json".toList permFile [1] .nil)
          (.dir "lib".toList permAll .nil
          (.dir "prometheus".toList permAll
            (.file "b.jsonnet".toList permFile [89] .nil)
          .nil)))
        .nil)
      (.dir "src".toList permAll srcTree .nil) }

/-- A filesystem whose destination holds `c.jsonnet`, which the source lacks,
between two files the source has. -/
def fsMissing : FS :=
  { rootPerm := permAll, cwd := [], umask := permNone,
    root :=
      .dir "dst".toList permAll
        (.dir "mixins".toList permAll
          (.dir "grafana_dashboards".toList permAll .nil
          (.dir "lib".toList permAll .nil
          (.dir "prometheus".toList permAll
            (.file "b.jsonnet".toList permFile [89]
            (.file "c.jsonnet".toList permFile [67] .nil))
          .nil)))
        .nil)
      (.dir "src".toList permAll srcTree .nil) }

/-- A filesystem in which the source root and the destination root are empty
directories. -/
def fsEmpty : FS :=
  { rootPerm := permAll, cwd := [], umask := permNone,
    root := .dir "dst".toList permAll .nil (.dir "src".toList permAll .nil .nil) }

/-- A filesystem whose destination has a directory named `d.jsonnet`. -/
def fsDirNamed : FS :=
  { rootPerm := permAll, cwd := [], umask := permNone,
    root :=
      .dir "dst".toList permAll
        (.dir "mixins".toList permAll
          (.dir "grafana_dashboards".toList permAll .nil
          (.dir "lib".toList permAll .nil
          (.dir "prometheus".toList permAll
            (.dir "d.jsonnet".toList permAll .nil .nil)
          .nil)))
        .nil)
      (.dir "src".toList permAll srcTree .nil) }

/-- A filesystem whose destination has a subdirectory `secret` whose names
cannot be read and which holds `x.jsonnet`. -/
def fsUnreadable : FS :=
  { rootPerm := permAll, cwd := [], umask := permNone,
    root :=
      .dir "dst".toList permAll
        (.dir "mixins".toList permAll
          (.dir "grafana_dashboards".toList permAll .nil
          (.dir "lib".toList permAll .nil
          (.dir "prometheus".toList permAll
            (.file "b.jsonnet".toList permFile [89]
            (.dir "secret".toList permNoRead
              (.file "x.jsonnet".toList permFile [7] .nil)
            .nil))
          .nil)))
        .nil)
      (.dir "src".toList permAll srcTree .nil) }

/-- A source tree with the required file and two dashboard sources. -/
def srcTwo : Listing :=
  .dir "mixins".toList permAll
    (.dir "lib".toList permAll
      (.file "config_util.libsonnet".toList permFile [88] .nil)
    (.dir "prometheus".toList permAll
      (.file "a.jsonnet".toList permFile [65]
      (.file "b.jsonnet".toList permFile [66] .nil))
    .nil))
  .nil

/-- A filesystem in which one file of the destination has three names: `README`
in `/dst/mixins`, and `a.jsonnet` and `b.jsonnet` in `/dst/mixins/prometheus`,
which are hard links to it. -/
def fsHardlink : FS :=
  { rootPerm := permAll, cwd := [], umask := permNone,
    root :=
      .dir "dst".toList permAll
        (.dir "mixins".toList permAll
          (.file "README".toList permFile [1]
          (.dir "grafana_dashboards".toList permAll .nil
          (.dir "lib".toList permAll .nil
          (.dir "prometheus".toList permAll
            (.hardlink "a.jsonnet".toList ["dst".toList, "mixins".toList, "README".toList]
            (.hardlink "b.jsonnet".toList ["dst".toList, "mixins".toList, "README".toList]
            .nil))
          .nil))))
        .nil)
      (.dir "src".toList permAll srcTwo .nil) }

/-- The filesystem `fsHardlink` with a third name of the file in
`/dst/mixins/prometheus`, `c.jsonnet`, which the source lacks. -/
def fsHardlinkMissing : FS :=
  { rootPerm := permAll, cwd := [], umask := permNone,
    root :=
      .dir "dst".toList permAll
        (.dir "mixins".toList permAll
          (.file "README".toList permFile [1]
          (.dir "grafana_dashboards".toList permAll .nil
          (.dir "lib".toList permAll .nil
          (.dir "prometheus".toList permAll
            (.hardlink "a.jsonnet".toList ["dst".toList, "mixins".toList, "README".toList]
            (.hardlink "b.jsonnet".toList ["dst".toList, "mixins".toList, "README".toList]
            (.file "c.jsonnet".toList permFile [67] .nil)))
          .nil))))
        .nil)
      (.dir "src".toList permAll srcTwo .nil) }

/-- A filesystem whose destination has a symbolic link `a.jsonnet` to a file
`zz.jsonnet` of the same directory that does not exist. -/
def fsDangling : FS :=
  { rootPerm := permAll, cwd := [], umask := permNone,
    root :=
      .dir "dst".toList permAll
        (.dir "mixins".toList permAll
          (.dir "grafana_dashboards".toList permAll .nil
          (.dir "lib".toList permAll .nil
          (.dir "prometheus".toList permAll
            (.symlink "a.jsonnet".toList "zz.jsonnet".toList .nil)
          .nil)))
        .nil)
      (.dir "src".toList permAll srcTwo .nil) }

/-- The filesystem `fsGood` for a process whose umask clears the owner's write
bit, such as 0222. -/
def fsUmask : FS := { fsGood with umask := { r := false, w := true, x := false } }

/-- A filesystem in which `/dst/mixins/prometheus` is a symbolic link to the
directory `store` next to it, which holds `b.jsonnet`. -/
def fsSymlinkDir : FS :=
  { rootPerm := permAll, cwd := [], umask := permNone,
    root :=
      .dir "dst".toList permAll
        (.dir "mixins".toList permAll
          (.dir "grafana_dashboards".toList permAll .nil
          (.dir "lib".toList permAll .nil
          (.symlink "prometheus".toList "store".toList
          (.dir "store".toList permAll
            (.file "b.jsonnet".toList permFile [89] .nil)
          .nil))))
        .nil)
      (.dir "src".toList permAll srcTree .nil) }
/-! ### `path.Ext` computes the specified extension -/

theorem extScan_stop (r rest acc : Str) (h : ∃ x ∈ r, x = '/' ∨ x = '.') :
    extScan (r ++ rest) acc = extScan r acc := by
  induction r generalizing acc with
  | nil => simp at h
  | cons a r ih =>
    simp only [List.cons_append, extScan]
    by_cases h1 : a = '/'
    · simp [h1]
    · by_cases h2 : a = '.'
      · simp [h2]
      · simp only [h1, h2, if_false]
        apply ih
        obtain ⟨x, hx, hx2⟩ := h
        rcases List.mem_cons.mp hx with rfl | hx
        · rcases hx2 with h | h
          · exact absurd h h1
          · exact absurd h h2
        · exact ⟨x, hx, hx2⟩

theorem extScan_pass (r rest acc : Str) (h : ∀ x ∈ r, x ≠ '/' ∧ x ≠ '.') :
    extScan (r ++ rest) acc = extScan rest (r.reverse ++ acc) := by
  induction r generalizing acc with
  | nil => simp
  | cons a r ih =>
    have ha := h a (List.mem_cons_self _ _)
    have step : extScan (a :: r ++ rest) acc = extScan (r ++ rest) (a :: acc) := by
      simp [extScan, ha.1, ha.2]
    rw [step, ih _ (fun x hx => h x (List.mem_cons_of_mem _ hx))]
    simp

theorem afterLast_of_not_mem (d : Char) (s : Str) (h : d ∉ s) : afterLast d s = s := by
  cases s with
  | nil => rfl
  | cons c cs =>
    simp only [List.mem_cons, not_or] at h
    have hc : ¬ c = d := fun e => h.1 e.symm
    simp [afterLast, h.2, hc]

theorem suffixFromLast_of_not_mem (d : Char) (s : Str) (h : d ∉ s) :
    suffixFromLast d s = [] := by
  cases s with
  | nil => rfl
  | cons c cs =>
    simp only [List.mem_cons, not_or] at h
    have hc : ¬ c = d := fun e => h.1 e.symm
    simp [suffixFromLast, h.2, hc]

/-- Go `path.Ext` returns the extension as the specification words it. -/
theorem Ext_eq_specExt (p : Str) : Ext p = specExt p := by
  induction p with
  | nil => rfl
  | cons c cs ih =>
    have hE : Ext (c :: cs) = extScan (cs.reverse ++ [c]) [] := by simp [Ext]
    have hcs : Ext cs = extScan cs.reverse [] := rfl
    rw [hE]
    by_cases hs : '/' ∈ cs
    · have : specExt (c :: cs) = specExt cs := by
        simp [specExt, finalSegment, afterLast, hs]
      rw [this, ← ih, hcs]
      exact extScan_stop _ _ _ ⟨'/', by simpa using hs, Or.inl rfl⟩
    · have hfin : finalSegment cs = cs := afterLast_of_not_mem _ _ hs
      by_cases hd : '.' ∈ cs
      · rw [extScan_stop _ _ _ ⟨'.', by simpa using hd, Or.inr rfl⟩, ← hcs, ih]
        by_cases hc : c = '/'
        · simp [specExt, finalSegment, afterLast, hs, hc, afterLast_of_not_mem _ _ hs]
        · simp [specExt, finalSegment, afterLast, hs, hc, afterLast_of_not_mem _ _ hs,
            suffixFromLast, hd]
      · rw [extScan_pass _ _ _ (by
          intro x hx
          rw [List.mem_reverse] at hx
          exact ⟨fun e => hs (e ▸ hx), fun e => hd (e ▸ hx)⟩)]
        by_cases hc : c = '/'
        · simp [specExt, finalSegment, afterLast, hs, hc, extScan,
            suffixFromLast_of_not_mem _ _ hd]
        · by_cases hc2 : c = '.'
          · simp [specExt, finalSegment, afterLast, hs, hc2, extScan, suffixFromLast, hd]
          · simp [specExt, finalSegment, afterLast, hs, hc, hc2, extScan, suffixFromLast, hd]

theorem wantExtentions_contains (e : Str) :
    wantExtentions.contains e = true ↔ (e = ".jsonnet".toList ∨ e = ".libsonnet".toList) := by
  simp [wantExtentions]

/-- C1: `addNewPath` appends `p` to the client's paths exactly when the extension
of the final slash-separated segment of `p` (the suffix starting at that
segment's last dot, empty without a dot) is ".jsonnet" or ".libsonnet", compared
case-sensitively, and leaves the paths unchanged for every other `p`; a path
with no extension, with a dot only in an earlier directory segment, or with a
case variant of an allowed extension is not appended. -/
theorem addNewPath_iff_extension (c : Client) (p : Str) :
    (c.addNewPath p).paths =
        (if specExt p = ".jsonnet".toList ∨ specExt p = ".libsonnet".toList
          then c.paths ++ [p] else c.paths)
      ∧ (c.addNewPath p).srcPath = c.srcPath ∧ (c.addNewPath p).dstPath = c.dstPath
      ∧ (c.addNewPath "mixins/prometheus".toList).paths = c.paths
      ∧ (c.addNewPath "a.jsonnet/b".toList).paths = c.paths
      ∧ (c.addNewPath "x.JSONNET".toList).paths = c.paths
      ∧ (c.addNewPath "d/x.jsonnet".toList).paths = c.paths ++ ["d/x.jsonnet".toList]
      ∧ (c.addNewPath "d/x.libsonnet".toList).paths
          = c.paths ++ ["d/x.libsonnet".toList] := by
  refine ⟨?_, ?_, ?_, ?_, ?_, ?_, ?_, ?_⟩
  · unfold Client.addNewPath
    rw [Ext_eq_specExt]
    by_cases h : wantExtentions.contains (specExt p) = true
    · rw [if_pos h, if_pos ((wantExtentions_contains _).mp h)]
    · rw [if_neg h, if_neg (fun h2 => h ((wantExtentions_contains _).mpr h2))]
  · unfold Client.addNewPath; split <;> rfl
  · unfold Client.addNewPath; split <;> rfl
  · have : wantExtentions.contains (Ext "mixins/prometheus".toList) = false := by decide
    rw [Client.addNewPath, this]; rfl
  · have : wantExtentions.contains (Ext "a.jsonnet/b".toList) = false := by decide
    rw [Client.addNewPath, this]; rfl
  · have : wantExtentions.contains (Ext "x.JSONNET".toList) = false := by decide
    rw [Client.addNewPath, this]; rfl
  · have : wantExtentions.contains (Ext "d/x.jsonnet".toList) = true := by decide
    rw [Client.addNewPath, this]; rfl
  · have : wantExtentions.contains (Ext "d/x.libsonnet".toList) = true := by decide
    rw [Client.addNewPath, this]; rfl


/-! ### The path functions -/

theorem splitSlash_ne_nil (s : Str) : splitSlash s ≠ [] := by
  cases s with
  | nil => simp [splitSlash]
  | cons c cs =>
    unfold splitSlash
    split
    · simp
    · split <;> simp

theorem splitSlash_append (a b : Str) :
    splitSlash (a ++ '/' :: b) = splitSlash a ++ splitSlash b := by
  induction a with
  | nil => simp [splitSlash]
  | cons c a ih =>
    by_cases hc : c = '/'
    · simp [splitSlash, hc, ih]
    · have h1 : splitSlash (c :: a ++ '/' :: b)
          = match splitSlash (a ++ '/' :: b) with
            | [] => [[c]]
            | s :: ss => (c :: s) :: ss := by
        simp [splitSlash, hc]
      have h2 : splitSlash (c :: a)
          = match splitSlash a with
            | [] => [[c]]
            | s :: ss => (c :: s) :: ss := by
        simp [splitSlash, hc]
      rw [h1, h2, ih]
      cases h : splitSlash a with
      | nil => exact absurd h (splitSlash_ne_nil a)
      | cons s ss => simp

theorem splitSlash_of_noSlash (s : Str) (h : '/' ∉ s) : splitSlash s = [s] := by
  induction s with
  | nil => rfl
  | cons c cs ih =>
    simp only [List.mem_cons, not_or] at h
    have hc : ¬ c = '/' := fun e => h.1 e.symm
    simp [splitSlash, hc, ih h.2]

theorem noSlash_of_mem_splitSlash (s e : Str) (h : e ∈ splitSlash s) : '/' ∉ e := by
  induction s generalizing e with
  | nil =>
    simp [splitSlash] at h
    subst h
    simp
  | cons c cs ih =>
    by_cases hc : c = '/'
    · simp only [splitSlash, hc, if_true, List.mem_cons] at h
      rcases h with h | h
      · subst h; simp
      · exact ih e h
    · have h2 : splitSlash (c :: cs)
          = match splitSlash cs with
            | [] => [[c]]
            | s :: ss => (c :: s) :: ss := by
        simp [splitSlash, hc]
      rw [h2] at h
      cases hs : splitSlash cs with
      | nil => exact absurd hs (splitSlash_ne_nil cs)
      | cons s ss =>
        rw [hs] at h
        simp only [List.mem_cons] at h
        rcases h with h | h
        · subst h
          have := ih s (by rw [hs]; exact List.mem_cons_self _ _)
          simp only [List.mem_cons, not_or]
          exact ⟨fun e => hc e.symm, this⟩
        · exact ih e (by rw [hs]; exact List.mem_cons_of_mem _ h)

theorem splitSlash_joinSlash (es : List Str) (hne : es ≠ [])
    (h : ∀ e ∈ es, '/' ∉ e) : splitSlash (joinSlash es) = es := by
  induction es with
  | nil => exact absurd rfl hne
  | cons e es ih =>
    cases es with
    | nil => simpa [joinSlash] using splitSlash_of_noSlash e (h e (List.mem_cons_self _ _))
    | cons t rest =>
      have h1 : joinSlash (e :: t :: rest) = e ++ '/' :: joinSlash (t :: rest) := rfl
      rw [h1, splitSlash_append, splitSlash_of_noSlash e (h e (List.mem_cons_self _ _)),
        ih (by simp) (fun x hx => h x (List.mem_cons_of_mem _ hx))]
      rfl

theorem keptElem_iff (e : Str) : keptElem e = true ↔ (e ≠ [] ∧ e ≠ ['.'] ∧ '/' ∉ e) := by
  simp [keptElem]

theorem validName_iff (n : Str) :
    validName n = true ↔ (n ≠ [] ∧ '/' ∉ n ∧ n ≠ ['.'] ∧ n ≠ ['.', '.']) := by
  simp [validName]

theorem keptElem_of_validName (n : Str) (h : validName n = true) : keptElem n = true := by
  rw [validName_iff] at h
  rw [keptElem_iff]
  exact ⟨h.1, h.2.2.1, h.2.1⟩

theorem cleanStep_valid (r : Bool) (st : List Str) (e : Str) (h : validName e = true) :
    cleanStep r st e = e :: st := by
  rw [validName_iff] at h
  unfold cleanStep
  rw [if_neg (by simp [h.1, h.2.2.1]), if_neg h.2.2.2]

theorem foldl_cleanStep_valid (r : Bool) (st : List Str) (es : List Str)
    (h : ∀ e ∈ es, validName e = true) :
    es.foldl (cleanStep r) st = es.reverse ++ st := by
  induction es generalizing st with
  | nil => rfl
  | cons e es ih =>
    rw [List.foldl_cons, cleanStep_valid r st e (h e (List.mem_cons_self _ _)),
      ih _ (fun x hx => h x (List.mem_cons_of_mem _ hx))]
    simp

theorem cleanStack_cons_dotdot (r : Bool) (below : List Str) :
    cleanStack r (['.', '.'] :: below) = true
      ↔ (r = false ∧ ∀ b ∈ below, b = ['.', '.']) := by
  simp [cleanStack, keptElem]

theorem cleanStack_cons_other (r : Bool) (e : Str) (below : List Str) (he : e ≠ ['.', '.']) :
    cleanStack r (e :: below) = true ↔ (keptElem e = true ∧ cleanStack r below = true) := by
  simp [cleanStack, he]

theorem cleanStack_all_dotdot (below : List Str) (h : ∀ b ∈ below, b = ['.', '.']) :
    cleanStack false below = true := by
  induction below with
  | nil => rfl
  | cons b below ih =>
    have hb := h b (List.mem_cons_self _ _)
    subst hb
    rw [cleanStack_cons_dotdot]
    exact ⟨rfl, fun x hx => h x (List.mem_cons_of_mem _ hx)⟩

theorem cleanStack_tail (r : Bool) (e : Str) (below : List Str)
    (h : cleanStack r (e :: below) = true) : cleanStack r below = true := by
  by_cases he : e = ['.', '.']
  · subst he
    rw [cleanStack_cons_dotdot] at h
    rw [h.1]
    exact cleanStack_all_dotdot below h.2
  · exact ((cleanStack_cons_other r e below he).mp h).2

theorem cleanStack_head (r : Bool) (e : Str) (below : List Str)
    (h : cleanStack r (e :: below) = true) : keptElem e = true := by
  by_cases he : e = ['.', '.']
  · subst he; decide
  · exact ((cleanStack_cons_other r e below he).mp h).1

theorem cleanStack_cleanStep (r : Bool) (st : List Str) (e : Str)
    (hs : cleanStack r st = true) (he : '/' ∉ e) : cleanStack r (cleanStep r st e) = true := by
  unfold cleanStep
  by_cases h1 : e = [] ∨ e = ['.']
  · rw [if_pos h1]; exact hs
  · rw [if_neg h1]
    by_cases h2 : e = ['.', '.']
    · rw [if_pos h2]
      cases st with
      | nil =>
        cases r with
        | true => rfl
        | false => subst h2; rfl
      | cons top below =>
        by_cases ht : top = ['.', '.']
        · simp only [ht, if_true]
          subst h2; subst ht
          rw [cleanStack_cons_dotdot] at hs ⊢
          refine ⟨hs.1, ?_⟩
          intro b hb
          rcases List.mem_cons.mp hb with h | h
          · exact h
          · exact hs.2 b h
        · simp only [ht, if_false]
          exact cleanStack_tail r top below hs
    · rw [if_neg h2, cleanStack_cons_other r e st h2]
      refine ⟨?_, hs⟩
      rw [keptElem_iff]
      simp only [not_or] at h1
      exact ⟨h1.1, h1.2, he⟩

theorem cleanStack_foldl (r : Bool) (st : List Str) (es : List Str)
    (hs : cleanStack r st = true) (he : ∀ e ∈ es, '/' ∉ e) :
    cleanStack r (es.foldl (cleanStep r) st) = true := by
  induction es generalizing st with
  | nil => exact hs
  | cons e es ih =>
    rw [List.foldl_cons]
    exact ih _ (cleanStack_cleanStep r st e hs (he e (List.mem_cons_self _ _)))
      (fun x hx => he x (List.mem_cons_of_mem _ hx))

theorem cleanStep_of_cleanStack (r : Bool) (e : Str) (below : List Str)
    (h : cleanStack r (e :: below) = true) : cleanStep r below e = e :: below := by
  have hk := (keptElem_iff e).mp (cleanStack_head r e below h)
  unfold cleanStep
  rw [if_neg (by simp [hk.1, hk.2.1])]
  by_cases he : e = ['.', '.']
  · rw [if_pos he]
    subst he
    rw [cleanStack_cons_dotdot] at h
    cases below with
    | nil => simp [h.1]
    | cons t rest =>
      have := h.2 t (List.mem_cons_self _ _)
      simp [this]
  · rw [if_neg he]

/-- Cleaning the elements of a cleaned path gives them back. -/
theorem foldl_cleanStep_reverse (r : Bool) (st : List Str) (h : cleanStack r st = true) :
    st.reverse.foldl (cleanStep r) [] = st := by
  induction st with
  | nil => rfl
  | cons e below ih =>
    rw [List.reverse_cons, List.foldl_append, ih (cleanStack_tail r e below h)]
    exact cleanStep_of_cleanStack r e below h

theorem cleanStack_all_kept (r : Bool) (st : List Str) (h : cleanStack r st = true) :
    ∀ e ∈ st, keptElem e = true := by
  induction st with
  | nil => intro e he; cases he
  | cons a st ih =>
    intro e he
    rcases List.mem_cons.mp he with h1 | h1
    · subst h1; exact cleanStack_head r e st h
    · exact ih (cleanStack_tail r a st h) e h1

theorem cleanPath_noSlash (r : Bool) (S : List Str) (h : cleanPath r S) :
    ∀ e ∈ S, '/' ∉ e := by
  intro e he
  have := cleanStack_all_kept r S.reverse h e (List.mem_reverse.mpr he)
  exact ((keptElem_iff e).mp this).2.2

theorem cleanPath_ne_nil (r : Bool) (S : List Str) (h : cleanPath r S) :
    ∀ e ∈ S, e ≠ [] := by
  intro e he
  have := cleanStack_all_kept r S.reverse h e (List.mem_reverse.mpr he)
  exact ((keptElem_iff e).mp this).1

theorem cleanPath_nil (r : Bool) : cleanPath r [] := rfl

theorem cleanPath_cleanElems (r : Bool) (es : List Str) (h : ∀ e ∈ es, '/' ∉ e) :
    cleanPath r (cleanElems r es) := by
  unfold cleanPath cleanElems
  rw [List.reverse_reverse]
  exact cleanStack_foldl r [] es rfl h

theorem cleanPath_rootElems (root : Str) : cleanPath (isRooted root) (rootElems root) :=
  cleanPath_cleanElems _ _ (fun e he => noSlash_of_mem_splitSlash root e he)

theorem noSlash_of_validName (n : Str) (h : validName n = true) : '/' ∉ n :=
  ((validName_iff n).mp h).2.1

theorem cleanPath_append_valid (r : Bool) (S P : List Str) (h : cleanPath r S)
    (hP : ∀ n ∈ P, validName n = true) : cleanPath r (S ++ P) := by
  unfold cleanPath at *
  rw [List.reverse_append, ← foldl_cleanStep_valid r S.reverse P hP]
  exact cleanStack_foldl r _ P h (fun e he => noSlash_of_validName e (hP e he))

theorem joinSlash_cons_ne_nil (e : Str) (rest : List Str) (he : e ≠ []) :
    joinSlash (e :: rest) ≠ [] := by
  cases rest with
  | nil => exact he
  | cons t rest =>
    show e ++ '/' :: joinSlash (t :: rest) ≠ []
    simp

theorem joinSlash_head (e : Str) (rest : List Str) (he : e ≠ []) :
    (joinSlash (e :: rest)).head? = e.head? := by
  cases e with
  | nil => exact absurd rfl he
  | cons c cs =>
    cases rest with
    | nil => rfl
    | cons t rest => rfl

theorem isRooted_of_noSlash (e : Str) (h : '/' ∉ e) : isRooted e = false := by
  cases e with
  | nil => rfl
  | cons c cs =>
    simp only [List.mem_cons, not_or] at h
    have hc : ¬ c = '/' := fun e => h.1 e.symm
    simp [isRooted, hc]

theorem isRooted_joinSlash (S : List Str) (hs : ∀ e ∈ S, '/' ∉ e) (hn : ∀ e ∈ S, e ≠ []) :
    isRooted (joinSlash S) = false := by
  cases S with
  | nil => rfl
  | cons e rest =>
    have he := hn e (List.mem_cons_self _ _)
    have h1 := isRooted_of_noSlash e (hs e (List.mem_cons_self _ _))
    unfold isRooted at *
    rw [joinSlash_head e rest he]
    exact h1

theorem isRooted_renderPath (r : Bool) (S : List Str) (h : cleanPath r S) :
    isRooted (renderPath r S) = r := by
  cases r with
  | true => rfl
  | false =>
    unfold renderPath
    rw [if_neg (by simp)]
    by_cases hS : S = []
    · rw [if_pos hS]; rfl
    · rw [if_neg hS]
      exact isRooted_joinSlash S (cleanPath_noSlash _ S h) (cleanPath_ne_nil _ S h)

theorem renderPath_ne_nil (r : Bool) (S : List Str) (h : cleanPath r S) :
    renderPath r S ≠ [] := by
  cases r with
  | true => simp [renderPath]
  | false =>
    unfold renderPath
    rw [if_neg (by simp)]
    by_cases hS : S = []
    · rw [if_pos hS]; simp
    · rw [if_neg hS]
      cases S with
      | nil => exact absurd rfl hS
      | cons e rest =>
        exact joinSlash_cons_ne_nil e rest (cleanPath_ne_nil _ _ h e (List.mem_cons_self _ _))

theorem cleanStep_nil_elem (r : Bool) (st : List Str) : cleanStep r st [] = st := by
  simp [cleanStep]

theorem cleanStep_dot_elem (r : Bool) (st : List Str) : cleanStep r st ['.'] = st := by
  simp [cleanStep]

/-- The elements of a written-out cleaned path, cleaned together with further
elements: cleaning goes on from the elements of the path. -/
theorem foldl_cleanStep_render (r : Bool) (S more : List Str) (h : cleanPath r S) :
    (splitSlash (renderPath r S) ++ more).foldl (cleanStep r) []
      = more.foldl (cleanStep r) S.reverse := by
  have hre : S.foldl (cleanStep r) [] = S.reverse := by
    have := foldl_cleanStep_reverse r S.reverse h
    rwa [List.reverse_reverse] at this
  rw [List.foldl_append]
  congr 1
  by_cases hS : S = []
  · subst hS
    cases r with
    | true =>
      show (splitSlash ['/']).foldl (cleanStep true) [] = []
      rfl
    | false => rfl
  · have hsp : splitSlash (joinSlash S) = S :=
      splitSlash_joinSlash S hS (cleanPath_noSlash r S h)
    cases r with
    | true =>
      have : splitSlash (renderPath true S) = [] :: S := by
        simp [renderPath, splitSlash, hsp]
      rw [this, List.foldl_cons, cleanStep_nil_elem, hre]
    | false =>
      have : renderPath false S = joinSlash S := by
        simp [renderPath, hS]
      rw [this, hsp, hre]

theorem cleanElems_render (r : Bool) (S : List Str) (h : cleanPath r S) :
    cleanElems r (splitSlash (renderPath r S)) = S := by
  have := foldl_cleanStep_render r S [] h
  rw [List.append_nil, List.foldl_nil] at this
  unfold cleanElems
  rw [this, List.reverse_reverse]

/-- `path.Clean` leaves a cleaned path as it is. -/
theorem Clean_renderPath (r : Bool) (S : List Str) (h : cleanPath r S) :
    Clean (renderPath r S) = renderPath r S := by
  unfold Clean
  rw [isRooted_renderPath r S h, cleanElems_render r S h]

theorem isRooted_append (a b : Str) (ha : a ≠ []) : isRooted (a ++ b) = isRooted a := by
  cases a with
  | nil => exact absurd rfl ha
  | cons c cs => rfl

/-- Joining a cleaned path with a relative path made of names appends the
names to its elements. -/
theorem Join_renderPath (r : Bool) (S P : List Str) (h : cleanPath r S) (hP : validNames P) :
    Join (renderPath r S) (joinSlash P) = renderPath r (S ++ P) := by
  have hne := renderPath_ne_nil r S h
  unfold Join
  rw [if_neg hne]
  unfold Clean
  rw [isRooted_append _ _ hne, isRooted_renderPath r S h, splitSlash_append,
    splitSlash_joinSlash P hP.1 (fun e he => noSlash_of_validName e (hP.2 e he))]
  unfold cleanElems
  rw [foldl_cleanStep_render r S P h, foldl_cleanStep_valid r _ P hP.2]
  simp

theorem validNames_singleton (n : Str) (h : validName n = true) : validNames [n] :=
  ⟨by simp, fun x hx => by rw [List.mem_singleton.mp hx]; exact h⟩

/-- Joining a cleaned path with a name, as `filepath.Walk` does for each entry
of a directory. -/
theorem Join_renderPath_name (r : Bool) (S : List Str) (n : Str) (h : cleanPath r S)
    (hn : validName n = true) :
    Join (renderPath r S) n = renderPath r (S ++ [n]) := by
  have := Join_renderPath r S [n] h (validNames_singleton n hn)
  simpa [joinSlash] using this

theorem joinSlash_validNames_ne_nil (P : List Str) (hP : validNames P) : joinSlash P ≠ [] := by
  cases P with
  | nil => exact absurd rfl hP.1
  | cons e rest =>
    exact joinSlash_cons_ne_nil e rest ((validName_iff e).mp (hP.2 e (List.mem_cons_self _ _))).1

theorem isRooted_joinSlash_validNames (P : List Str) (hP : validNames P) :
    isRooted (joinSlash P) = false :=
  isRooted_joinSlash P (fun e he => noSlash_of_validName e (hP.2 e he))
    (fun e he => ((validName_iff e).mp (hP.2 e he)).1)

theorem cleanElems_append_valid (r : Bool) (es P : List Str)
    (hP : ∀ n ∈ P, validName n = true) :
    cleanElems r (es ++ P) = cleanElems r es ++ P := by
  unfold cleanElems
  rw [List.foldl_append, foldl_cleanStep_valid r _ P hP]
  simp

/-- `path.Join(root, sub)` for a subpath made of names: the cleaned root
followed by the names. -/
theorem Join_root (root : Str) (P : List Str) (hP : validNames P) :
    Join root (joinSlash P) = renderPath (isRooted root) (rootElems root ++ P) := by
  have hsp : splitSlash (joinSlash P) = P :=
    splitSlash_joinSlash P hP.1 (fun e he => noSlash_of_validName e (hP.2 e he))
  unfold Join
  by_cases hr : root = []
  · subst hr
    rw [if_pos rfl, if_neg (joinSlash_validNames_ne_nil P hP)]
    unfold Clean
    rw [isRooted_joinSlash_validNames P hP, hsp]
    have h1 : cleanElems false P = P := by
      have := cleanElems_append_valid false [] P hP.2
      simpa [cleanElems] using this
    rw [h1]
    rfl
  · rw [if_neg hr]
    unfold Clean
    rw [isRooted_append _ _ hr, splitSlash_append, hsp,
      cleanElems_append_valid _ _ P hP.2]
    rfl

theorem dropCommon_same (R Q : List Str) : dropCommon R (R ++ Q) = ([], Q) := by
  induction R with
  | nil => cases Q <;> rfl
  | cons a R ih => simp [dropCommon, ih]

theorem splitSlash_renderPath_true (S : List Str) (hS : S ≠ []) (h : cleanPath true S) :
    splitSlash (renderPath true S) = [] :: S := by
  simp [renderPath, splitSlash, splitSlash_joinSlash S hS (cleanPath_noSlash true S h)]

theorem renderPath_false (S : List Str) (hS : S ≠ []) : renderPath false S = joinSlash S := by
  simp [renderPath, hS]

theorem relElems_renderPath (r : Bool) (S : List Str) (hS : S ≠ []) (h : cleanPath r S) :
    relElems (renderPath r S) = (if r then [[]] else []) ++ S := by
  have hne := renderPath_ne_nil r S h
  unfold relElems
  rw [if_neg hne]
  cases r with
  | true =>
    have h2 : renderPath true S ≠ ['/'] := by
      cases S with
      | nil => exact absurd rfl hS
      | cons e rest =>
        have := joinSlash_cons_ne_nil e rest (cleanPath_ne_nil _ _ h e (List.mem_cons_self _ _))
        simpa [renderPath] using this
    rw [if_neg h2, splitSlash_renderPath_true S hS h]
    rfl
  | false =>
    rw [renderPath_false S hS]
    have h2 : joinSlash S ≠ ['/'] := by
      intro e
      have h3 := isRooted_joinSlash S (cleanPath_noSlash _ S h) (cleanPath_ne_nil _ S h)
      rw [e] at h3
      exact absurd h3 (by decide)
    rw [if_neg h2, splitSlash_joinSlash S hS (cleanPath_noSlash _ S h)]
    rfl

/-- The elements the loop of `filepath.Rel` meets in a cleaned base path (where
`.` has been replaced by the empty string). -/
theorem relElems_base (r : Bool) (S : List Str) (h : cleanPath r S) :
    relElems (if renderPath r S = ['.'] then [] else renderPath r S)
      = (if r then [[]] else []) ++ S := by
  by_cases hS : S = []
  · subst hS
    cases r <;> rfl
  · have hnd : renderPath r S ≠ ['.'] := by
      cases r with
      | true => simp [renderPath]
      | false =>
        rw [renderPath_false S hS]
        intro e
        have h1 := splitSlash_joinSlash S hS (cleanPath_noSlash _ S h)
        rw [e] at h1
        have h2 : S = [['.']] := by rw [← h1]; rfl
        have h3 := cleanStack_all_kept false S.reverse h ['.'] (by rw [h2]; simp)
        exact absurd h3 (by decide)
    rw [if_neg hnd]
    exact relElems_renderPath r S hS h

theorem isRooted_base (r : Bool) (S : List Str) (h : cleanPath r S) :
    isRooted (if renderPath r S = ['.'] then [] else renderPath r S) = r := by
  by_cases hd : renderPath r S = ['.']
  · rw [if_pos hd]
    have := isRooted_renderPath r S h
    rw [hd] at this
    rw [← this]
    rfl
  · rw [if_neg hd]
    exact isRooted_renderPath r S h

theorem renderPath_injective (r : Bool) (S T : List Str) (hS : cleanPath r S)
    (hT : cleanPath r T) (h : renderPath r S = renderPath r T) : S = T := by
  have h1 := cleanElems_render r S hS
  have h2 := cleanElems_render r T hT
  rw [h] at h1
  rw [← h1, h2]

/-- `filepath.Rel(root, leaf)` for a leaf that lies below the root by names: the
names, joined by slashes. -/
theorem Rel_below (root : Str) (Q : List Str) (hQ : validNames Q) :
    Rel root (renderPath (isRooted root) (rootElems root ++ Q)) = some (joinSlash Q) := by
  have hR := cleanPath_rootElems root
  have hRQ := cleanPath_append_valid _ _ Q hR hQ.2
  have hbase : Clean root = renderPath (isRooted root) (rootElems root) := rfl
  have hne : renderPath (isRooted root) (rootElems root ++ Q)
      ≠ renderPath (isRooted root) (rootElems root) := by
    intro e
    have := renderPath_injective _ _ _ hRQ hR e
    have h2 : Q = [] := by simpa using this
    exact hQ.1 h2
  have hRQne : rootElems root ++ Q ≠ [] := by
    intro e
    exact hQ.1 (List.append_eq_nil.mp e).2
  unfold Rel
  simp only []
  rw [Clean_renderPath _ _ hRQ, hbase, if_neg hne, isRooted_base _ _ hR,
    isRooted_renderPath _ _ hRQ]
  simp only [bne_self_eq_false, Bool.false_eq_true, if_false]
  rw [relElems_base _ _ hR, relElems_renderPath _ _ hRQne hRQ, ← List.append_assoc,
    dropCommon_same]

/-- Resolving the cleaned form of a relative path against a directory gives what
resolving the path itself gives. -/
theorem foldl_abs_cleanElems (xs st : List Str) (hx : ∀ e ∈ xs, '/' ∉ e) :
    (cleanElems false xs).foldl (cleanStep true) st = xs.foldl (cleanStep true) st := by
  induction xs using List.reverseRecOn with
  | nil => rfl
  | append_singleton xs x ih =>
    have hxs : ∀ e ∈ xs, '/' ∉ e := fun e he => hx e (List.mem_append_left _ he)
    have hT : cleanStack false (xs.foldl (cleanStep false) []) = true :=
      cleanStack_foldl false [] xs rfl hxs
    have ih' := ih hxs
    unfold cleanElems at ih' ⊢
    rw [List.foldl_append, List.foldl_append]
    simp only [List.foldl_cons, List.foldl_nil]
    rw [← ih']
    generalize xs.foldl (cleanStep false) [] = T at hT
    by_cases h1 : x = [] ∨ x = ['.']
    · have e1 : cleanStep false T x = T := by simp [cleanStep, h1]
      have e2 : ∀ A, cleanStep true A x = A := by intro A; simp [cleanStep, h1]
      rw [e1, e2]
    · by_cases h2 : x = ['.', '.']
      · subst h2
        cases T with
        | nil => rfl
        | cons top below =>
          by_cases ht : top = ['.', '.']
          · have e1 : cleanStep false (top :: below) ['.', '.'] = ['.', '.'] :: top :: below := by
              simp [cleanStep, ht]
            rw [e1, List.reverse_cons, List.foldl_append]
            rfl
          · have e1 : cleanStep false (top :: below) ['.', '.'] = below := by
              simp [cleanStep, ht]
            have hv : validName top = true := by
              have hk := (keptElem_iff top).mp (cleanStack_head false top below hT)
              rw [validName_iff]
              exact ⟨hk.1, hk.2.2, hk.2.1, ht⟩
            rw [e1, List.reverse_cons, List.foldl_append]
            simp only [List.foldl_cons, List.foldl_nil]
            rw [cleanStep_valid true _ top hv]
            simp [cleanStep, ht]
      · have e1 : cleanStep false T x = x :: T := by
          unfold cleanStep
          rw [if_neg h1, if_neg h2]
        rw [e1, List.reverse_cons, List.foldl_append]
        rfl

/-- The location of a root path: where `path.Join(root, sub)` starts from. -/
theorem locate_Join_below (cwd : List Str) (root : Str) (Q : List Str) (hQ : validNames Q) :
    locate cwd (renderPath (isRooted root) (rootElems root ++ Q)) = locate cwd root ++ Q := by
  have hR := cleanPath_rootElems root
  have hRQ := cleanPath_append_valid _ _ Q hR hQ.2
  have hRQne : rootElems root ++ Q ≠ [] := by
    intro e
    exact hQ.1 (List.append_eq_nil.mp e).2
  unfold locate
  rw [isRooted_renderPath _ _ hRQ]
  cases hr : isRooted root with
  | true =>
    rw [hr] at hRQ
    simp only [if_true]
    rw [cleanElems_render true _ hRQ]
    unfold rootElems
    rw [hr]
  | false =>
    rw [hr] at hRQ
    simp only [Bool.false_eq_true, if_false]
    rw [renderPath_false _ hRQne, splitSlash_joinSlash _ hRQne (cleanPath_noSlash _ _ hRQ),
      ← List.append_assoc, cleanElems_append_valid true _ Q hQ.2]
    congr 1
    unfold cleanElems
    rw [List.foldl_append, List.foldl_append]
    congr 1
    unfold rootElems
    rw [hr]
    exact foldl_abs_cleanElems _ _ (fun e he => noSlash_of_mem_splitSlash root e he)

/-- Where `path.Join(root, sub)` points for a subpath made of names: the
location of the root followed by the names. -/
theorem locate_Join (cwd : List Str) (root : Str) (Q : List Str) (hQ : validNames Q) :
    locate cwd (Join root (joinSlash Q)) = locate cwd root ++ Q := by
  rw [Join_root root Q hQ, locate_Join_below cwd root Q hQ]

theorem joinSlash_injective (P Q : List Str) (hP : validNames P) (hQ : validNames Q)
    (h : joinSlash P = joinSlash Q) : P = Q := by
  have h1 := splitSlash_joinSlash P hP.1 (fun e he => noSlash_of_validName e (hP.2 e he))
  have h2 := splitSlash_joinSlash Q hQ.1 (fun e he => noSlash_of_validName e (hQ.2 e he))
  rw [h] at h1
  rw [← h1, h2]

/-! ### The relative path from a root to a path -/

theorem cleanStack_suffix (r : Bool) (a b : List Str) (h : cleanStack r (a ++ b) = true) :
    cleanStack r b = true := by
  induction a with
  | nil => exact h
  | cons e a ih => exact ih (cleanStack_tail r e (a ++ b) h)

theorem rootElems_nil : rootElems [] = [] := by decide

theorem isRooted_nil : isRooted ([] : Str) = false := rfl

/-- What `path.Join` of a root and a subpath is, except for an empty root with a
rooted subpath. -/
theorem Join_joinElems (root sub : Str) (hmix : ¬ (root = [] ∧ isRooted sub = true))
    (hne : Join root sub ≠ []) :
    Join root sub = renderPath (isRooted root) (joinElems root sub)
      ∧ cleanPath (isRooted root) (joinElems root sub) := by
  have hclean : cleanPath (isRooted root) (joinElems root sub) := by
    unfold cleanPath joinElems
    rw [List.reverse_reverse]
    apply cleanStack_foldl
    · have := cleanPath_rootElems root
      exact this
    · intro e he
      exact noSlash_of_mem_splitSlash sub e he
  refine ⟨?_, hclean⟩
  by_cases hr : root = []
  · subst hr
    have hs : isRooted sub = false := by
      cases h : isRooted sub with
      | false => rfl
      | true => exact absurd ⟨rfl, h⟩ hmix
    have hsub : sub ≠ [] := by
      intro e
      subst e
      exact hne rfl
    unfold Join joinElems
    rw [if_pos rfl, if_neg hsub]
    unfold Clean
    rw [hs, isRooted_nil, rootElems_nil]
    rfl
  · unfold Join joinElems
    rw [if_neg hr]
    unfold Clean
    rw [isRooted_append root _ hr, splitSlash_append]
    unfold cleanElems rootElems cleanElems
    rw [List.foldl_append, List.reverse_reverse]

theorem dropCommon_cons (b t : Str) (bs ts : List Str) :
    dropCommon (b :: bs) (t :: ts) = if b = t then dropCommon bs ts else (b :: bs, t :: ts) := rfl

theorem dropCommon_spec (R T : List Str) :
    ∃ C, R = C ++ (dropCommon R T).1 ∧ T = C ++ (dropCommon R T).2
      ∧ ∀ b u, (dropCommon R T).1.head? = some b → (dropCommon R T).2.head? = some u → b ≠ u := by
  induction R generalizing T with
  | nil => exact ⟨[], by cases T <;> simp [dropCommon]⟩
  | cons b bs ih =>
    cases T with
    | nil => exact ⟨[], by simp [dropCommon]⟩
    | cons t ts =>
      rw [dropCommon_cons]
      by_cases hbt : b = t
      · subst hbt
        simp only [if_true]
        obtain ⟨C, h1, h2, h3⟩ := ih ts
        exact ⟨b :: C, by simp [← h1], by simp [← h2], h3⟩
      · simp only [hbt, if_false]
        refine ⟨[], rfl, rfl, ?_⟩
        intro b' u h1 h2
        simp only [List.head?_cons, Option.some.injEq] at h1 h2
        rw [← h1, ← h2]
        exact hbt

theorem dropCommon_append_same (pre A B : List Str) :
    dropCommon (pre ++ A) (pre ++ B) = dropCommon A B := by
  induction pre with
  | nil => rfl
  | cons a pre ih => simp [dropCommon_cons, ih]

/-- The `..` elements at the bottom of the stack stay when further elements are
cleaned. -/
theorem cleanStep_bottom (r : Bool) (e : Str) (top D : List Str)
    (hD : ∀ d ∈ D, d = ['.', '.']) : ∃ top', cleanStep r (top ++ D) e = top' ++ D := by
  unfold cleanStep
  split
  · exact ⟨top, rfl⟩
  · split
    · cases top with
      | nil =>
        cases D with
        | nil =>
          cases r
          · exact ⟨[e], by simp⟩
          · exact ⟨[], by simp⟩
        | cons d D' =>
          have hd := hD d (List.mem_cons_self _ _)
          simp only [List.nil_append, hd, if_true]
          exact ⟨[e], by simp [hd]⟩
      | cons t top' =>
        simp only [List.cons_append]
        split
        · exact ⟨e :: t :: top', by simp⟩
        · exact ⟨top', rfl⟩
    · exact ⟨e :: top, by simp⟩

theorem foldl_cleanStep_bottom (r : Bool) (es top D : List Str)
    (hD : ∀ d ∈ D, d = ['.', '.']) : ∃ top', es.foldl (cleanStep r) (top ++ D) = top' ++ D := by
  induction es generalizing top with
  | nil => exact ⟨top, rfl⟩
  | cons e es ih =>
    obtain ⟨t1, h1⟩ := cleanStep_bottom r e top D hD
    rw [List.foldl_cons, h1]
    exact ih t1

/-- Cleaning a `..` for each of the names on top of the stack takes them off. -/
theorem foldl_cleanStep_pop (r : Bool) (K st : List Str) (hK : ∀ b ∈ K, b ≠ ['.', '.']) :
    (upElems K).foldl (cleanStep r) (K ++ st) = st := by
  induction K with
  | nil => rfl
  | cons b K ih =>
    have hb := hK b (List.mem_cons_self _ _)
    simp only [upElems, List.map_cons, List.foldl_cons, List.cons_append]
    have : cleanStep r (b :: (K ++ st)) ['.', '.'] = K ++ st := by
      simp [cleanStep, hb]
    rw [this]
    exact ih (fun x hx => hK x (List.mem_cons_of_mem _ hx))

theorem upElems_reverse (B : List Str) : upElems B.reverse = upElems B := by
  unfold upElems
  rw [List.map_reverse]
  have : B.map (fun _ => (['.', '.'] : Str)) = List.replicate B.length ['.', '.'] := by
    induction B with
    | nil => rfl
    | cons b B ih => simp [List.replicate_succ, ih]
  rw [this, List.reverse_replicate]

theorem upElems_dotdot (B : List Str) : ∀ d ∈ upElems B, d = ['.', '.'] := by
  intro d hd
  unfold upElems at hd
  obtain ⟨_, _, h⟩ := List.mem_map.mp hd
  exact h.symm

/-- Cleaning the elements of a cleaned path on top of what is before them puts
them on the stack as they are. -/
theorem foldl_cleanStep_push (r : Bool) (U st : List Str)
    (h : cleanStack r (U.reverse ++ st) = true) :
    U.foldl (cleanStep r) st = U.reverse ++ st := by
  induction U generalizing st with
  | nil => rfl
  | cons e U ih =>
    have h' : cleanStack r (U.reverse ++ (e :: st)) = true := by
      simpa using h
    rw [List.foldl_cons, cleanStep_of_cleanStack r e st (cleanStack_suffix r _ _ h'), ih _ h']
    simp

/-- The end of a cleaned path, put after `..` elements, is a cleaned relative
path. -/
theorem cleanStack_up (r : Bool) (L st D : List Str) (hD : ∀ d ∈ D, d = ['.', '.'])
    (h : cleanStack r (L ++ st) = true) : cleanStack false (L ++ D) = true := by
  induction L with
  | nil => exact cleanStack_all_dotdot D hD
  | cons e L ih =>
    by_cases he : e = ['.', '.']
    · subst he
      simp only [List.cons_append] at h ⊢
      rw [cleanStack_cons_dotdot] at h ⊢
      refine ⟨rfl, ?_⟩
      intro b hb
      rcases List.mem_append.mp hb with hb | hb
      · exact h.2 b (List.mem_append_left _ hb)
      · exact hD b hb
    · simp only [List.cons_append] at h ⊢
      rw [cleanStack_cons_other _ _ _ he] at h ⊢
      exact ⟨h.1, ih h.2⟩

theorem dropCommon_refl (R : List Str) : dropCommon R R = ([], []) := by
  have := dropCommon_same R []
  rwa [List.append_nil] at this

/-- Go `filepath.Rel` from a root to a cleaned path that is not a leading part
of the cleaned root, when the elements of the root that are not shared are
names: one `..` for each of them, then the elements of the path that are not
shared. -/
theorem Rel_general (root : Str) (T : List Str) (hT : cleanPath (isRooted root) T)
    (hB : ∀ b ∈ (dropCommon (rootElems root) T).1, b ≠ ['.', '.'])
    (hU : (dropCommon (rootElems root) T).2 ≠ []) :
    Rel root (renderPath (isRooted root) T)
      = some (joinSlash (upElems (dropCommon (rootElems root) T).1
          ++ (dropCommon (rootElems root) T).2)) := by
  have hR := cleanPath_rootElems root
  obtain ⟨C, hRC, hTC, _⟩ := dropCommon_spec (rootElems root) T
  have hbase : Clean root = renderPath (isRooted root) (rootElems root) := rfl
  have hTne : T ≠ [] := by
    intro e
    apply hU
    have h2 : C ++ (dropCommon (rootElems root) T).2 = [] := by rw [← hTC]; exact e
    exact (List.append_eq_nil.mp h2).2
  have hne : renderPath (isRooted root) T ≠ renderPath (isRooted root) (rootElems root) := by
    intro e
    have := renderPath_injective _ _ _ hT hR e
    rw [this, dropCommon_refl] at hU
    exact hU rfl
  unfold Rel
  simp only []
  rw [Clean_renderPath _ _ hT, hbase, if_neg hne, isRooted_base _ _ hR,
    isRooted_renderPath _ _ hT]
  simp only [bne_self_eq_false, Bool.false_eq_true, if_false]
  rw [relElems_base _ _ hR, relElems_renderPath _ _ hTne hT, dropCommon_append_same]
  cases hdc : dropCommon (rootElems root) T with
  | mk B U =>
    rw [hdc] at hB hU hRC hTC
    simp only at hB hU hRC hTC
    cases B with
    | nil => simp [upElems]
    | cons b bs =>
      cases U with
      | nil => exact absurd rfl hU
      | cons t ts =>
        have hb := hB b (List.mem_cons_self _ _)
        simp only [hb, if_false]
        have hX : upElems (b :: bs) ++ t :: ts ≠ [] := by simp
        have hclean : cleanPath false (upElems (b :: bs) ++ t :: ts) := by
          unfold cleanPath
          rw [List.reverse_append]
          apply cleanStack_up (isRooted root) _ C.reverse
          · intro d hd
            exact upElems_dotdot (b :: bs) d (List.mem_reverse.mp hd)
          · rw [← List.reverse_append, ← hTC]
            exact hT
        have h1 := Clean_renderPath false _ hclean
        rw [renderPath_false _ hX] at h1
        show some (Clean (joinSlash (upElems (b :: bs) ++ t :: ts))) = _
        rw [h1]

/-- Below a `..` of a cleaned path, in the order of the stack, there are `..`
elements only. -/
theorem cleanStack_below_dotdot (r : Bool) (a b : List Str)
    (h : cleanStack r (a ++ ['.', '.'] :: b) = true) : ∀ x ∈ b, x = ['.', '.'] := by
  have := cleanStack_suffix r a _ h
  rw [cleanStack_cons_dotdot] at this
  exact this.2

/-- The elements of the root that a path below `Join root sub` does not share
with it are names. -/
theorem dropCommon_joinElems (root sub : Str) (names : List Str) :
    ∀ b ∈ (dropCommon (rootElems root) (joinElems root sub ++ names)).1, b ≠ ['.', '.'] := by
  obtain ⟨C, hRC, hTC, hhead⟩ := dropCommon_spec (rootElems root) (joinElems root sub ++ names)
  generalize hB : (dropCommon (rootElems root) (joinElems root sub ++ names)).1 = B at *
  generalize hU : (dropCommon (rootElems root) (joinElems root sub ++ names)).2 = U at *
  have hR : cleanStack (isRooted root) (rootElems root).reverse = true := cleanPath_rootElems root
  intro b hb hbd
  subst hbd
  obtain ⟨p, q, hpq⟩ := List.append_of_mem hb
  -- everything before this `..` in the root is `..`
  have hall : ∀ x ∈ C ++ p, x = ['.', '.'] := by
    have h1 : (rootElems root).reverse = q.reverse ++ ['.', '.'] :: (C ++ p).reverse := by
      rw [hRC, hpq]
      simp
    rw [h1] at hR
    intro x hx
    exact cleanStack_below_dotdot _ _ _ hR x (List.mem_reverse.mpr hx)
  -- so the first element not shared is `..`
  obtain ⟨bs, hBs⟩ : ∃ bs, B = ['.', '.'] :: bs := by
    cases p with
    | nil => exact ⟨q, hpq⟩
    | cons x p' =>
      have hx := hall x (List.mem_append_right _ (List.mem_cons_self _ _))
      exact ⟨p' ++ ['.', '.'] :: q, by rw [hpq, hx]; rfl⟩
  have hC : ∀ x ∈ C, x = ['.', '.'] := fun x hx => hall x (List.mem_append_left _ hx)
  -- the `..` elements the root starts with are still there in the joined path
  have hD : ∀ d ∈ ['.', '.'] :: C.reverse, d = ['.', '.'] := by
    intro d hd
    rcases List.mem_cons.mp hd with h | h
    · exact h
    · exact hC d (List.mem_reverse.mp h)
  obtain ⟨top, htop⟩ := foldl_cleanStep_bottom (isRooted root) (splitSlash sub) bs.reverse
    (['.', '.'] :: C.reverse) hD
  have hrev : (rootElems root).reverse = bs.reverse ++ ['.', '.'] :: C.reverse := by
    rw [hRC, hBs]
    simp
  have hF : joinElems root sub = C ++ ['.', '.'] :: top.reverse := by
    unfold joinElems
    rw [hrev, htop]
    simp
  rw [hF] at hTC
  have hUeq : U = ['.', '.'] :: (top.reverse ++ names) := by
    have : C ++ (['.', '.'] :: top.reverse ++ names) = C ++ U := by
      rw [← hTC]; simp
    exact (List.append_cancel_left this).symm
  exact hhead ['.', '.'] ['.', '.'] (by rw [hBs]; rfl) (by rw [hUeq]; rfl) rfl

/-- A path that is not a leading part of the root has elements left when the
shared ones are dropped. -/
theorem dropCommon_snd_ne_nil (R T : List Str) (h : ¬ T <+: R) : (dropCommon R T).2 ≠ [] := by
  obtain ⟨C, hRC, hTC, _⟩ := dropCommon_spec R T
  intro e
  rw [e, List.append_nil] at hTC
  apply h
  rw [hTC]
  exact ⟨(dropCommon R T).1, hRC.symm⟩

/-- Joining the root with the relative path `filepath.Rel` gives leads back to
the path. -/
theorem Join_rel (root : Str) (T C B U : List Str) (hT : cleanPath (isRooted root) T)
    (hRC : rootElems root = C ++ B) (hTC : T = C ++ U) (hU : U ≠ [])
    (hB : ∀ b ∈ B, b ≠ ['.', '.']) :
    Join root (joinSlash (upElems B ++ U)) = renderPath (isRooted root) T := by
  have hTs : cleanStack (isRooted root) (U.reverse ++ C.reverse) = true := by
    rw [← List.reverse_append, ← hTC]; exact hT
  have hXne : upElems B ++ U ≠ [] := fun e => hU (List.append_eq_nil.mp e).2
  have hTne : T ≠ [] := by
    intro e
    rw [e] at hTC
    exact hU (List.append_eq_nil.mp hTC.symm).2
  by_cases hr : root = []
  · subst hr
    rw [rootElems_nil] at hRC
    have hC : C = [] := (List.append_eq_nil.mp hRC.symm).1
    have hBn : B = [] := (List.append_eq_nil.mp hRC.symm).2
    subst hC; subst hBn
    simp only [List.nil_append] at hTC
    subst hTC
    simp only [upElems, List.map_nil, List.nil_append]
    have h1 := renderPath_false T hTne
    have h2 := renderPath_ne_nil false T hT
    unfold Join
    rw [if_pos rfl, ← h1, if_neg h2]
    exact Clean_renderPath false T hT
  · have hnoslash : ∀ e ∈ upElems B ++ U, '/' ∉ e := by
      intro e he
      rcases List.mem_append.mp he with h | h
      · rw [upElems_dotdot B e h]; decide
      · exact cleanPath_noSlash _ T hT e (by rw [hTC]; exact List.mem_append_right _ h)
    have hstack : (splitSlash root).foldl (cleanStep (isRooted root)) []
        = B.reverse ++ C.reverse := by
      have : rootElems root = ((splitSlash root).foldl (cleanStep (isRooted root)) []).reverse :=
        rfl
      rw [← List.reverse_append, ← hRC, this, List.reverse_reverse]
    unfold Join
    rw [if_neg hr]
    unfold Clean
    rw [isRooted_append root _ hr, splitSlash_append, splitSlash_joinSlash _ hXne hnoslash]
    unfold cleanElems
    rw [List.foldl_append, hstack, List.foldl_append, ← upElems_reverse,
      foldl_cleanStep_pop _ B.reverse C.reverse
        (fun b hb => hB b (List.mem_reverse.mp hb)),
      foldl_cleanStep_push _ U C.reverse hTs, ← List.reverse_append, ← hTC,
      List.reverse_reverse]

theorem rootElems_renderPath (r : Bool) (T : List Str) (hT : cleanPath r T) :
    rootElems (renderPath r T) = T := by
  unfold rootElems
  rw [isRooted_renderPath r T hT, cleanElems_render r T hT]

/-! ### The filesystem -/

theorem Listing.find_replace_same (l : Listing) (s : Str) (n n' : Node)
    (h : l.find s = some n) : (l.replace s n').find s = some n' := by
  induction l with
  | nil => simp [Listing.find] at h
  | file m p c rest ih =>
    by_cases hm : m = s
    · cases n' <;> simp [Listing.replace, Listing.find, hm]
    · simp only [Listing.find, hm, if_false] at h
      simp [Listing.replace, Listing.find, hm, ih h]
  | dir m p ch rest _ ih =>
    by_cases hm : m = s
    · cases n' <;> simp [Listing.replace, Listing.find, hm]
    · simp only [Listing.find, hm, if_false] at h
      simp [Listing.replace, Listing.find, hm, ih h]
  | hardlink m c rest ih =>
    by_cases hm : m = s
    · cases n' <;> simp [Listing.replace, Listing.find, hm]
    · simp only [Listing.find, hm, if_false] at h
      simp [Listing.replace, Listing.find, hm, ih h]
  | symlink m c rest ih =>
    by_cases hm : m = s
    · cases n' <;> simp [Listing.replace, Listing.find, hm]
    · simp only [Listing.find, hm, if_false] at h
      simp [Listing.replace, Listing.find, hm, ih h]

theorem Listing.find_replace_other (l : Listing) (s t : Str) (n' : Node) (h : t ≠ s) :
    (l.replace s n').find t = l.find t := by
  induction l with
  | nil => rfl
  | file m p c rest ih =>
    by_cases hm : m = s
    · have hmt : ¬ m = t := fun e => h (e ▸ hm ▸ rfl)
      cases n' <;> simp [Listing.replace, Listing.find, hm, hmt] <;>
        (subst hm; simp [hmt])
    · by_cases hmt : m = t
      · subst hmt; simp [Listing.replace, Listing.find, hm]
      · simp [Listing.replace, Listing.find, hm, hmt, ih]
  | dir m p ch rest _ ih =>
    by_cases hm : m = s
    · have hmt : ¬ m = t := fun e => h (e ▸ hm ▸ rfl)
      cases n' <;> simp [Listing.replace, Listing.find, hm, hmt] <;>
        (subst hm; simp [hmt])
    · by_cases hmt : m = t
      · subst hmt; simp [Listing.replace, Listing.find, hm]
      · simp [Listing.replace, Listing.find, hm, hmt, ih]
  | hardlink m c rest ih =>
    by_cases hm : m = s
    · have hmt : ¬ m = t := fun e => h (e ▸ hm ▸ rfl)
      cases n' <;> simp [Listing.replace, Listing.find, hm, hmt] <;>
        (subst hm; simp [hmt])
    · by_cases hmt : m = t
      · subst hmt; simp [Listing.replace, Listing.find, hm]
      · simp [Listing.replace, Listing.find, hm, hmt, ih]
  | symlink m c rest ih =>
    by_cases hm : m = s
    · have hmt : ¬ m = t := fun e => h (e ▸ hm ▸ rfl)
      cases n' <;> simp [Listing.replace, Listing.find, hm, hmt] <;>
        (subst hm; simp [hmt])
    · by_cases hmt : m = t
      · subst hmt; simp [Listing.replace, Listing.find, hm]
      · simp [Listing.replace, Listing.find, hm, hmt, ih]

theorem Listing.find_insertFile_same (l : Listing) (s : Str) (q : Perm) (c : Bytes)
    (h : l.find s = none) : (l.insertFile s q c).find s = some (.file q c) := by
  induction l with
  | nil => simp [Listing.insertFile, Listing.find]
  | file m p c0 rest ih =>
    by_cases hm : m = s
    · simp [Listing.find, hm] at h
    · simp only [Listing.find, hm, if_false] at h
      unfold Listing.insertFile
      split
      · simp [Listing.find]
      · simp [Listing.find, hm, ih h]
  | dir m p ch rest _ ih =>
    by_cases hm : m = s
    · simp [Listing.find, hm] at h
    · simp only [Listing.find, hm, if_false] at h
      unfold Listing.insertFile
      split
      · simp [Listing.find]
      · simp [Listing.find, hm, ih h]
  | hardlink m c0 rest ih =>
    by_cases hm : m = s
    · simp [Listing.find, hm] at h
    · simp only [Listing.find, hm, if_false] at h
      unfold Listing.insertFile
      split
      · simp [Listing.find]
      · simp [Listing.find, hm, ih h]
  | symlink m c0 rest ih =>
    by_cases hm : m = s
    · simp [Listing.find, hm] at h
    · simp only [Listing.find, hm, if_false] at h
      unfold Listing.insertFile
      split
      · simp [Listing.find]
      · simp [Listing.find, hm, ih h]

theorem Listing.find_insertFile_other (l : Listing) (s t : Str) (q : Perm) (c : Bytes)
    (h : t ≠ s) : (l.insertFile s q c).find t = l.find t := by
  have hst : ¬ s = t := fun e => h e.symm
  induction l with
  | nil => simp [Listing.insertFile, Listing.find, hst]
  | file m p c0 rest ih =>
    unfold Listing.insertFile
    split
    · simp [Listing.find, hst]
    · by_cases hmt : m = t <;> simp [Listing.find, hmt, ih]
  | dir m p ch rest _ ih =>
    unfold Listing.insertFile
    split
    · simp [Listing.find, hst]
    · by_cases hmt : m = t <;> simp [Listing.find, hmt, ih]
  | hardlink m c0 rest ih =>
    unfold Listing.insertFile
    split
    · simp [Listing.find, hst]
    · by_cases hmt : m = t <;> simp [Listing.find, hmt, ih]
  | symlink m c0 rest ih =>
    unfold Listing.insertFile
    split
    · simp [Listing.find, hst]
    · by_cases hmt : m = t <;> simp [Listing.find, hmt, ih]

theorem Listing.replace_find_self (l : Listing) (s : Str) (n : Node)
    (h : l.find s = some n) : l.replace s n = l := by
  induction l with
  | nil => rfl
  | file m p c rest ih =>
    by_cases hm : m = s
    · simp only [Listing.find, hm, if_true, Option.some.injEq] at h
      subst h
      simp [Listing.replace, Listing.entry, hm]
    · simp only [Listing.find, hm, if_false] at h
      simp [Listing.replace, hm, ih h]
  | dir m p ch rest _ ih =>
    by_cases hm : m = s
    · simp only [Listing.find, hm, if_true, Option.some.injEq] at h
      subst h
      simp [Listing.replace, Listing.entry, hm]
    · simp only [Listing.find, hm, if_false] at h
      simp [Listing.replace, hm, ih h]
  | hardlink m t rest ih =>
    by_cases hm : m = s
    · simp only [Listing.find, hm, if_true, Option.some.injEq] at h
      subst h
      simp [Listing.replace, Listing.entry, hm]
    · simp only [Listing.find, hm, if_false] at h
      simp [Listing.replace, hm, ih h]
  | symlink m t rest ih =>
    by_cases hm : m = s
    · simp only [Listing.find, hm, if_true, Option.some.injEq] at h
      subst h
      simp [Listing.replace, Listing.entry, hm]
    · simp only [Listing.find, hm, if_false] at h
      simp [Listing.replace, hm, ih h]

theorem Listing.find_shape (l : Listing) (s : Str) :
    l.shape.find s = (l.find s).map Node.shape := by
  induction l with
  | nil => rfl
  | file m p c rest ih =>
    by_cases hm : m = s <;> simp [Listing.shape, Listing.find, hm, ih, Node.shape]
  | dir m p ch rest _ ih =>
    by_cases hm : m = s <;> simp [Listing.shape, Listing.find, hm, ih, Node.shape]
  | hardlink m c rest ih =>
    by_cases hm : m = s <;> simp [Listing.shape, Listing.find, hm, ih, Node.shape]
  | symlink m c rest ih =>
    by_cases hm : m = s <;> simp [Listing.shape, Listing.find, hm, ih, Node.shape]

theorem Listing.shape_entry (m : Str) (n : Node) (rest : Listing) :
    (Listing.entry m n rest).shape = Listing.entry m n.shape rest.shape := by
  cases n <;> rfl

theorem Listing.shape_replace (l : Listing) (s : Str) (n n' : Node)
    (h : l.find s = some n) (hs : n'.shape = n.shape) :
    (l.replace s n').shape = l.shape := by
  induction l with
  | nil => rfl
  | file m p c rest ih =>
    by_cases hm : m = s
    · simp only [Listing.find, hm, if_true, Option.some.injEq] at h
      subst h
      simp only [Listing.replace, hm, if_true, Listing.shape_entry, hs]
      rfl
    · simp only [Listing.find, hm, if_false] at h
      simp [Listing.replace, hm, Listing.shape, ih h]
  | dir m p ch rest _ ih =>
    by_cases hm : m = s
    · simp only [Listing.find, hm, if_true, Option.some.injEq] at h
      subst h
      simp only [Listing.replace, hm, if_true, Listing.shape_entry, hs]
      rfl
    · simp only [Listing.find, hm, if_false] at h
      simp [Listing.replace, hm, Listing.shape, ih h]
  | hardlink m t rest ih =>
    by_cases hm : m = s
    · simp only [Listing.find, hm, if_true, Option.some.injEq] at h
      subst h
      simp only [Listing.replace, hm, if_true, Listing.shape_entry, hs]
      rfl
    · simp only [Listing.find, hm, if_false] at h
      simp [Listing.replace, hm, Listing.shape, ih h]
  | symlink m t rest ih =>
    by_cases hm : m = s
    · simp only [Listing.find, hm, if_true, Option.some.injEq] at h
      subst h
      simp only [Listing.replace, hm, if_true, Listing.shape_entry, hs]
      rfl
    · simp only [Listing.find, hm, if_false] at h
      simp [Listing.replace, hm, Listing.shape, ih h]

theorem Node.lookup_ok_locate (n m : Node) (L : List Str) (h : n.lookup L = .ok m) :
    n.locate L = some m := by
  induction L generalizing n with
  | nil =>
    simp only [Node.lookup, Except.ok.injEq] at h
    simp [Node.locate, h]
  | cons s more ih =>
    cases n with
    | file p c => simp [Node.lookup] at h
    | dir p ch =>
      simp only [Node.lookup] at h
      split at h
      · cases hf : ch.find s with
        | none => simp [hf] at h
        | some n0 =>
          simp only [hf] at h
          simp [Node.locate, hf, ih n0 h]
      · simp at h
    | hardlink t0 => simp [Node.lookup] at h
    | symlink t0 => simp [Node.lookup] at h

theorem Node.lookup_shape (n : Node) (L : List Str) :
    n.shape.lookup L = shapeOf (n.lookup L) := by
  induction L generalizing n with
  | nil => simp [Node.lookup, shapeOf]
  | cons s more ih =>
    cases n with
    | file p c => simp [Node.lookup, Node.shape, shapeOf]
    | dir p ch =>
      simp only [Node.shape, Node.lookup, Listing.find_shape]
      by_cases hx : p.x = true
      · simp only [hx, if_true]
        cases hf : ch.find s with
        | none => simp [shapeOf]
        | some n0 => simp [ih n0]
      · simp [hx, shapeOf]
    | hardlink t0 => simp [Node.lookup, Node.shape, shapeOf]
    | symlink t0 => simp [Node.lookup, Node.shape, shapeOf]

/-- After a successful write the file is there, holds the content written and
can be written again. -/
theorem Node.lookup_write_same (n n' : Node) (L : List Str) (c : Bytes) (mode : Perm)
    (h : n.write L mode c = .ok n') :
    ∃ q, n'.lookup L = .ok (.file q c) ∧ (mode.w = true → q.w = true) := by
  induction L generalizing n n' with
  | nil =>
    cases n with
    | file p c0 =>
      simp only [Node.write] at h
      split at h
      · rename_i hw
        simp only [Except.ok.injEq] at h
        subst h
        exact ⟨p, rfl, fun _ => hw⟩
      · simp at h
    | dir p ch => simp [Node.write] at h
    | hardlink t0 => simp [Node.write] at h
    | symlink t0 => simp [Node.write] at h
  | cons s more ih =>
    cases n with
    | file p c0 => simp [Node.write] at h
    | dir p ch =>
      simp only [Node.write] at h
      split at h
      · rename_i hx
        cases hf : ch.find s with
        | some n0 =>
          simp only [hf] at h
          cases hw : n0.write more mode c with
          | error e => simp [hw] at h
          | ok n0' =>
            simp only [hw, Except.ok.injEq] at h
            subst h
            obtain ⟨q, hq, hqw⟩ := ih n0 n0' hw
            refine ⟨q, ?_, hqw⟩
            simp [Node.lookup, hx, Listing.find_replace_same ch s n0 n0' hf, hq]
        | none =>
          simp only [hf] at h
          cases more with
          | nil =>
            simp only at h
            split at h
            · simp only [Except.ok.injEq] at h
              subst h
              refine ⟨mode, ?_, fun hm => hm⟩
              simp [Node.lookup, hx, Listing.find_insertFile_same ch s _ _ hf]
            · simp at h
          | cons a b => simp at h
      · simp at h
    | hardlink t0 => simp [Node.write] at h
    | symlink t0 => simp [Node.write] at h

theorem diverge_cons (t s : Str) (a b : List Str) :
    diverge (t :: a) (s :: b) = if t = s then diverge a b else true := rfl

/-- A write leaves alone whatever lies where the written location does not
lead. -/
theorem Node.lookup_write_diverge (n n' : Node) (L loc : List Str) (c : Bytes) (mode : Perm)
    (h : n.write L mode c = .ok n') (hd : diverge loc L = true) :
    n'.lookup loc = n.lookup loc ∧ n'.locate loc = n.locate loc := by
  induction L generalizing n n' loc with
  | nil => cases loc <;> simp [diverge] at hd
  | cons s more ih =>
    cases loc with
    | nil => simp [diverge] at hd
    | cons t more' =>
      rw [diverge_cons] at hd
      cases n with
      | file p c0 => simp [Node.write] at h
      | dir p ch =>
        simp only [Node.write] at h
        split at h
        · rename_i hx
          cases hf : ch.find s with
          | some n0 =>
            simp only [hf] at h
            cases hw : n0.write more mode c with
            | error e => simp [hw] at h
            | ok n0' =>
              simp only [hw, Except.ok.injEq] at h
              subst h
              by_cases hts : t = s
              · subst hts
                simp only [if_true] at hd
                have := ih n0 n0' more' hw hd
                simp [Node.lookup, Node.locate, hx, Listing.find_replace_same ch t n0 n0' hf, hf,
                  this.1, this.2]
              · simp [Node.lookup, Node.locate, hx, Listing.find_replace_other ch s t n0' hts]
          | none =>
            simp only [hf] at h
            cases more with
            | nil =>
              simp only at h
              split at h
              · simp only [Except.ok.injEq] at h
                subst h
                by_cases hts : t = s
                · subst hts
                  cases more' <;> simp [diverge] at hd
                · simp [Node.lookup, Node.locate, hx,
                    Listing.find_insertFile_other ch s t _ _ hts]
              · simp at h
            | cons a b => simp at h
        · simp at h
      | hardlink t0 => simp [Node.write] at h
      | symlink t0 => simp [Node.write] at h

/-- A write leaves every other file as it is. -/
theorem Node.lookup_write_file_other (n n' : Node) (L L' : List Str) (c c' : Bytes) (q : Perm)
    (mode : Perm)
    (h : n.write L' mode c' = .ok n') (hl : n.lookup L = .ok (.file q c)) (hne : L ≠ L') :
    n'.lookup L = .ok (.file q c) := by
  induction L generalizing n n' L' with
  | nil =>
    simp only [Node.lookup, Except.ok.injEq] at hl
    subst hl
    cases L' with
    | nil => exact absurd rfl hne
    | cons t more' => simp [Node.write] at h
  | cons s more ih =>
    cases n with
    | file p c0 => simp [Node.lookup] at hl
    | dir p ch =>
      simp only [Node.lookup] at hl
      split at hl
      · rename_i hx
        cases hf : ch.find s with
        | none => simp [hf] at hl
        | some n0 =>
          simp only [hf] at hl
          cases L' with
          | nil => simp [Node.write] at h
          | cons t more' =>
            simp only [Node.write, hx, if_true] at h
            by_cases hts : t = s
            · subst hts
              simp only [hf] at h
              cases hw : n0.write more' mode c' with
              | error e => simp [hw] at h
              | ok n0' =>
                simp only [hw, Except.ok.injEq] at h
                subst h
                have hne' : more ≠ more' := fun e => hne (by rw [e])
                have := ih n0 n0' more' hw hl hne'
                simp [Node.lookup, hx, Listing.find_replace_same ch t n0 n0' hf, this]
            · have hst : s ≠ t := fun e => hts e.symm
              cases hft : ch.find t with
              | some n1 =>
                simp only [hft] at h
                cases hw : n1.write more' mode c' with
                | error e => simp [hw] at h
                | ok n1' =>
                  simp only [hw, Except.ok.injEq] at h
                  subst h
                  simp [Node.lookup, hx, Listing.find_replace_other ch t s n1' hst, hf, hl]
              | none =>
                simp only [hft] at h
                cases more' with
                | nil =>
                  simp only at h
                  split at h
                  · simp only [Except.ok.injEq] at h
                    subst h
                    simp [Node.lookup, hx, Listing.find_insertFile_other ch t s _ _ hst, hf, hl]
                  · simp at h
                | cons a b => simp at h
      · simp at hl
    | hardlink t0 => simp [Node.lookup] at hl
    | symlink t0 => simp [Node.lookup] at hl

/-- A write changes what is at the written location only: everywhere else a
file keeps its mode and content, a directory its mode, and nothing appears or
disappears. -/
theorem Node.kind_write_frame (n n' : Node) (L loc : List Str) (c : Bytes) (mode : Perm)
    (h : n.write L mode c = .ok n') (hne : loc ≠ L) :
    (n'.locate loc).map Node.kind = (n.locate loc).map Node.kind := by
  induction L generalizing n n' loc with
  | nil =>
    cases n with
    | file p c0 =>
      simp only [Node.write] at h
      split at h
      · simp only [Except.ok.injEq] at h
        subst h
        cases loc with
        | nil => exact absurd rfl hne
        | cons t more' => simp [Node.locate]
      · simp at h
    | dir p ch => simp [Node.write] at h
    | hardlink t0 => simp [Node.write] at h
    | symlink t0 => simp [Node.write] at h
  | cons s more ih =>
    cases n with
    | file p c0 => simp [Node.write] at h
    | dir p ch =>
      simp only [Node.write] at h
      split at h
      · cases hf : ch.find s with
        | some n0 =>
          simp only [hf] at h
          cases hw : n0.write more mode c with
          | error e => simp [hw] at h
          | ok n0' =>
            simp only [hw, Except.ok.injEq] at h
            subst h
            cases loc with
            | nil => simp [Node.locate, Node.kind]
            | cons t more' =>
              by_cases hts : t = s
              · subst hts
                have hne' : more' ≠ more := fun e => hne (by rw [e])
                have := ih n0 n0' more' hw hne'
                simp [Node.locate, Listing.find_replace_same ch t n0 n0' hf, hf, this]
              · simp [Node.locate, Listing.find_replace_other ch s t n0' hts]
        | none =>
          simp only [hf] at h
          cases more with
          | nil =>
            simp only at h
            split at h
            · simp only [Except.ok.injEq] at h
              subst h
              cases loc with
              | nil => simp [Node.locate, Node.kind]
              | cons t more' =>
                by_cases hts : t = s
                · subst hts
                  cases more' with
                  | nil => exact absurd rfl hne
                  | cons a b =>
                    simp [Node.locate, Listing.find_insertFile_same ch t _ _ hf, hf]
                · simp [Node.locate, Listing.find_insertFile_other ch s t _ _ hts]
            · simp at h
          | cons a b => simp at h
      · simp at h
    | hardlink t0 => simp [Node.write] at h
    | symlink t0 => simp [Node.write] at h

/-- Writing over what exists changes no name, kind or mode. -/
theorem Node.write_shape (n n' : Node) (L : List Str) (c : Bytes) (mode : Perm)
    (h : n.write L mode c = .ok n') (he : n.locate L ≠ none) : n'.shape = n.shape := by
  induction L generalizing n n' with
  | nil =>
    cases n with
    | file p c0 =>
      simp only [Node.write] at h
      split at h
      · simp only [Except.ok.injEq] at h
        subst h
        rfl
      · simp at h
    | dir p ch => simp [Node.write] at h
    | hardlink t0 => simp [Node.write] at h
    | symlink t0 => simp [Node.write] at h
  | cons s more ih =>
    cases n with
    | file p c0 => simp [Node.write] at h
    | dir p ch =>
      simp only [Node.write] at h
      split at h
      · cases hf : ch.find s with
        | some n0 =>
          simp only [hf] at h
          cases hw : n0.write more mode c with
          | error e => simp [hw] at h
          | ok n0' =>
            simp only [hw, Except.ok.injEq] at h
            subst h
            have he' : n0.locate more ≠ none := by
              simpa [Node.locate, hf] using he
            have := ih n0 n0' hw he'
            simp [Node.shape, Listing.shape_replace ch s n0 n0' hf this]
        | none => simp [Node.locate, hf] at he
      · simp at h
    | hardlink t0 => simp [Node.write] at h
    | symlink t0 => simp [Node.write] at h

/-- Writing to a writable file the content it has changes nothing. -/
theorem Node.write_same (n : Node) (L : List Str) (c : Bytes) (q : Perm) (mode : Perm)
    (hl : n.lookup L = .ok (.file q c)) (hw : q.w = true) : n.write L mode c = .ok n := by
  induction L generalizing n with
  | nil =>
    simp only [Node.lookup, Except.ok.injEq] at hl
    subst hl
    simp [Node.write, hw]
  | cons s more ih =>
    cases n with
    | file p c0 => simp [Node.lookup] at hl
    | dir p ch =>
      simp only [Node.lookup] at hl
      split at hl
      · rename_i hx
        cases hf : ch.find s with
        | none => simp [hf] at hl
        | some n0 =>
          simp only [hf] at hl
          simp [Node.write, hx, hf, ih n0 hl, Listing.replace_find_self ch s n0 hf]
      · simp at hl
    | hardlink t0 => simp [Node.lookup] at hl
    | symlink t0 => simp [Node.lookup] at hl

theorem Node.write_dir (n n' : Node) (L : List Str) (c : Bytes) (mode : Perm) (p : Perm)
    (ch : Listing)
    (h : n.write L mode c = .ok n') (hn : n = .dir p ch) : ∃ ch', n' = .dir p ch' := by
  subst hn
  cases L with
  | nil => simp [Node.write] at h
  | cons s more =>
    simp only [Node.write] at h
    split at h
    · cases hf : ch.find s with
      | some n0 =>
        simp only [hf] at h
        cases hw : n0.write more mode c with
        | error e => simp [hw] at h
        | ok n0' =>
          simp only [hw, Except.ok.injEq] at h
          exact ⟨_, h.symm⟩
      | none =>
        simp only [hf] at h
        cases more with
        | nil =>
          simp only at h
          split at h
          · simp only [Except.ok.injEq] at h
            exact ⟨_, h.symm⟩
          · simp at h
        | cons a b => simp at h
    · simp at h

theorem plainWriteFile_ok (fs fs' : FS) (path : Str) (c : Bytes)
    (h : plainWriteFile fs path c = .ok fs') :
    path ≠ [] ∧ fs.rootNode.write (locate fs.cwd path) (mode0644 fs.umask) c = .ok fs'.rootNode
      ∧ fs'.cwd = fs.cwd ∧ fs'.rootPerm = fs.rootPerm ∧ fs'.umask = fs.umask := by
  unfold plainWriteFile at h
  split at h
  · simp at h
  · rename_i hp
    cases hw : fs.rootNode.write (locate fs.cwd path) (mode0644 fs.umask) c with
    | error e => simp [hw] at h
    | ok n' =>
      obtain ⟨ch', hch⟩ := Node.write_dir fs.rootNode n' _ c _ fs.rootPerm fs.root hw rfl
      subst hch
      simp only [hw, Except.ok.injEq] at h
      subst h
      exact ⟨hp, rfl, rfl, rfl, rfl⟩

theorem plainWriteFile_of_write (fs : FS) (path : Str) (c : Bytes) (ch' : Listing)
    (hp : path ≠ [])
    (h : fs.rootNode.write (locate fs.cwd path) (mode0644 fs.umask) c
      = .ok (.dir fs.rootPerm ch')) :
    plainWriteFile fs path c = .ok { fs with root := ch' } := by
  unfold plainWriteFile
  rw [if_neg hp, h]

theorem Listing.mem_names_of_find (l : Listing) (s : Str) (h : l.find s ≠ none) :
    s ∈ l.names := by
  induction l with
  | nil => simp [Listing.find] at h
  | file m p c rest ih =>
    by_cases hm : m = s
    · simp [Listing.names, hm]
    · simp only [Listing.find, hm, if_false] at h
      simp [Listing.names, ih h]
  | dir m p ch rest _ ih =>
    by_cases hm : m = s
    · simp [Listing.names, hm]
    · simp only [Listing.find, hm, if_false] at h
      simp [Listing.names, ih h]
  | hardlink m c rest ih =>
    by_cases hm : m = s
    · simp [Listing.names, hm]
    · simp only [Listing.find, hm, if_false] at h
      simp [Listing.names, ih h]
  | symlink m c rest ih =>
    by_cases hm : m = s
    · simp [Listing.names, hm]
    · simp only [Listing.find, hm, if_false] at h
      simp [Listing.names, ih h]

theorem walkEntries_shape (l : Listing) (d : Str) (x : Bool) :
    walkEntries l.shape d x = walkEntries l d x := by
  induction l generalizing d x with
  | nil => rfl
  | file m p c rest ih => simp [Listing.shape, walkEntries, ih]
  | dir m p ch rest ihc ih => simp [Listing.shape, walkEntries, ih, ihc]
  | hardlink m c rest ih => simp [Listing.shape, walkEntries, ih]
  | symlink m c rest ih => simp [Listing.shape, walkEntries, ih]

theorem Node.locate_append (n : Node) (a b : List Str) :
    n.locate (a ++ b)
      = match n.locate a with
        | none => none
        | some m => m.locate b := by
  induction a generalizing n with
  | nil => simp [Node.locate]
  | cons s more ih =>
    cases n with
    | file p c => simp [Node.locate]
    | dir p ch =>
      simp only [List.cons_append, Node.locate]
      cases hf : ch.find s with
      | none => rfl
      | some n0 => exact ih n0
    | hardlink t0 => simp [Node.locate]
    | symlink t0 => simp [Node.locate]

theorem Listing.wellFormed_find (l : Listing) (s : Str) (m : Node)
    (hwf : l.wellFormed = true) (h : l.find s = some m) : m.wellFormed = true := by
  induction l with
  | nil => simp [Listing.find] at h
  | file k p c rest ih =>
    simp only [Listing.wellFormed, Bool.and_eq_true] at hwf
    by_cases hk : k = s
    · simp only [Listing.find, hk, if_true, Option.some.injEq] at h
      subst h
      rfl
    · simp only [Listing.find, hk, if_false] at h
      exact ih hwf.2 h
  | dir k p ch rest _ ih =>
    simp only [Listing.wellFormed, Bool.and_eq_true] at hwf
    by_cases hk : k = s
    · simp only [Listing.find, hk, if_true, Option.some.injEq] at h
      subst h
      exact hwf.1.2
    · simp only [Listing.find, hk, if_false] at h
      exact ih hwf.2 h
  | hardlink k c rest ih =>
    simp only [Listing.wellFormed, Bool.and_eq_true] at hwf
    by_cases hk : k = s
    · simp only [Listing.find, hk, if_true, Option.some.injEq] at h
      subst h
      rfl
    · simp only [Listing.find, hk, if_false] at h
      exact ih hwf.2 h
  | symlink k c rest ih =>
    simp only [Listing.wellFormed, Bool.and_eq_true] at hwf
    by_cases hk : k = s
    · simp only [Listing.find, hk, if_true, Option.some.injEq] at h
      subst h
      rfl
    · simp only [Listing.find, hk, if_false] at h
      exact ih hwf.2 h

theorem Node.wellFormed_locate (n m : Node) (L : List Str) (hwf : n.wellFormed = true)
    (h : n.locate L = some m) : m.wellFormed = true := by
  induction L generalizing n with
  | nil =>
    simp only [Node.locate, Option.some.injEq] at h
    subst h
    exact hwf
  | cons s more ih =>
    cases n with
    | file p c => simp [Node.locate] at h
    | dir p ch =>
      simp only [Node.locate] at h
      cases hf : ch.find s with
      | none => simp [hf] at h
      | some n0 =>
        simp only [hf] at h
        exact ih n0 (Listing.wellFormed_find ch s n0 hwf hf) h
    | hardlink t0 => simp [Node.locate] at h
    | symlink t0 => simp [Node.locate] at h

theorem FS.wellFormed_root (fs : FS) (h : fs.wellFormed = true) :
    fs.rootNode.wellFormed = true := by
  simp only [FS.wellFormed, Bool.and_eq_true] at h
  exact h.1

theorem plainStat_ok (fs : FS) (path : Str) (n : Node) (h : plainStat fs path = .ok n) :
    path ≠ [] ∧ fs.rootNode.lookup (locate fs.cwd path) = .ok n := by
  unfold plainStat at h
  split at h
  · simp at h
  · rename_i hp
    exact ⟨hp, h⟩

theorem plainStat_of_ne_nil (fs : FS) (path : Str) (h : path ≠ []) :
    plainStat fs path = fs.rootNode.lookup (locate fs.cwd path) := by
  unfold plainStat
  rw [if_neg h]

theorem Join_root_ne_nil (root : Str) (P : List Str) (hP : validNames P) :
    Join root (joinSlash P) ≠ [] := by
  rw [Join_root root P hP]
  exact renderPath_ne_nil _ _ (cleanPath_append_valid _ _ P (cleanPath_rootElems root) hP.2)

/-- Nothing can be looked up below an empty directory. -/
theorem Node.lookup_below_empty (n : Node) (L : List Str) (p : Perm) (a : Str)
    (more : List Str) (h : n.locate L = some (.dir p .nil)) :
    ∃ e, n.lookup (L ++ a :: more) = .error e := by
  induction L generalizing n with
  | nil =>
    simp only [Node.locate, Option.some.injEq] at h
    subst h
    by_cases hx : p.x = true
    · exact ⟨.ENOENT, by simp [Node.lookup, hx, Listing.find]⟩
    · exact ⟨.EACCES, by simp [Node.lookup, hx]⟩
  | cons s rest ih =>
    cases n with
    | file q c => simp [Node.locate] at h
    | dir q ch =>
      simp only [Node.locate] at h
      cases hf : ch.find s with
      | none => simp [hf] at h
      | some n0 =>
        simp only [hf] at h
        obtain ⟨e, he⟩ := ih n0 h
        by_cases hx : q.x = true
        · exact ⟨e, by simp [Node.lookup, hx, hf, he]⟩
        · exact ⟨.EACCES, by simp [Node.lookup, hx]⟩
    | hardlink t0 => simp [Node.locate] at h
    | symlink t0 => simp [Node.locate] at h

theorem diverge_append_left (l a b : List Str) : diverge (l ++ a) (l ++ b) = diverge a b := by
  induction l with
  | nil => rfl
  | cons x l ih => simp [diverge, ih]

theorem diverge_append_right (a b x y : List Str) (h : diverge a b = true) :
    diverge (a ++ x) (b ++ y) = true := by
  induction a generalizing b with
  | nil => simp [diverge] at h
  | cons s a ih =>
    cases b with
    | nil => simp [diverge] at h
    | cons t b =>
      simp only [List.cons_append, diverge_cons] at h ⊢
      by_cases hst : s = t
      · simp only [hst, if_true] at h ⊢
        exact ih b h
      · simp [hst]

theorem diverge_symm (a b : List Str) : diverge a b = diverge b a := by
  induction a generalizing b with
  | nil => cases b <;> rfl
  | cons s a ih =>
    cases b with
    | nil => rfl
    | cons t b =>
      simp only [diverge_cons]
      by_cases hst : s = t
      · subst hst; simp [ih b]
      · have : ¬ t = s := fun e => hst e.symm
        simp [hst, this]

theorem diverge_ne (a b : List Str) (h : diverge a b = true) : a ≠ b := by
  intro e
  subst e
  induction a with
  | nil => simp [diverge] at h
  | cons s a ih =>
    simp only [diverge_cons, if_true] at h
    exact ih h

theorem Node.write_keeps_existing (n n' : Node) (L X : List Str) (c : Bytes) (mode : Perm)
    (h : n.write L mode c = .ok n') (hx : n.locate X ≠ none) : n'.locate X ≠ none := by
  by_cases hXL : X = L
  · subst hXL
    obtain ⟨q, hq, _⟩ := Node.lookup_write_same n n' X c mode h
    rw [Node.lookup_ok_locate _ _ _ hq]
    simp
  · have := Node.kind_write_frame n n' L X c mode h hXL
    intro e
    rw [e] at this
    cases hn : n.locate X with
    | none => exact hx hn
    | some m => rw [hn] at this; simp at this

theorem plainReadFile_eq_of_lookup (fs1 fs2 : FS) (path : Str) (hcwd : fs1.cwd = fs2.cwd)
    (h : fs1.rootNode.lookup (locate fs2.cwd path) = fs2.rootNode.lookup (locate fs2.cwd path)) :
    plainReadFile fs1 path = plainReadFile fs2 path := by
  unfold plainReadFile plainStat
  rw [hcwd, h]

theorem plainWriteFile_same (fs : FS) (path : Str) (c : Bytes) (q : Perm) (hp : path ≠ [])
    (hl : fs.rootNode.lookup (locate fs.cwd path) = .ok (.file q c)) (hw : q.w = true) :
    plainWriteFile fs path c = .ok fs := by
  unfold plainWriteFile
  rw [if_neg hp, Node.write_same _ _ c q _ hl hw]
  rfl

/-! ### Path lookup on a filesystem without links -/

theorem Listing.find_linkFree (l : Listing) (s : Str) (n : Node) (hl : l.linkFree = true)
    (h : l.find s = some n) : n.linkFree = true := by
  induction l with
  | nil => simp [Listing.find] at h
  | file m p c rest ih =>
    simp only [Listing.linkFree] at hl
    by_cases hm : m = s
    · simp only [Listing.find, hm, if_true, Option.some.injEq] at h
      subst h
      rfl
    · simp only [Listing.find, hm, if_false] at h
      exact ih hl h
  | dir m p ch rest _ ih =>
    simp only [Listing.linkFree, Bool.and_eq_true] at hl
    by_cases hm : m = s
    · simp only [Listing.find, hm, if_true, Option.some.injEq] at h
      subst h
      exact hl.1
    · simp only [Listing.find, hm, if_false] at h
      exact ih hl.2 h
  | hardlink m t rest ih => simp [Listing.linkFree] at hl
  | symlink m t rest ih => simp [Listing.linkFree] at hl

theorem Listing.replace_linkFree (l : Listing) (s : Str) (n : Node) (hl : l.linkFree = true)
    (hn : n.linkFree = true) : (l.replace s n).linkFree = true := by
  induction l with
  | nil => rfl
  | file m p c rest ih =>
    simp only [Listing.linkFree] at hl
    by_cases hm : m = s
    · cases n <;> simp_all [Listing.replace, Listing.entry, Listing.linkFree, Node.linkFree]
    · simp [Listing.replace, hm, Listing.linkFree, ih hl]
  | dir m p ch rest _ ih =>
    simp only [Listing.linkFree, Bool.and_eq_true] at hl
    by_cases hm : m = s
    · cases n <;> simp_all [Listing.replace, Listing.entry, Listing.linkFree, Node.linkFree]
    · simp [Listing.replace, hm, Listing.linkFree, ih hl.2, hl.1]
  | hardlink m t rest ih => simp [Listing.linkFree] at hl
  | symlink m t rest ih => simp [Listing.linkFree] at hl

theorem Listing.insertFile_linkFree (l : Listing) (s : Str) (q : Perm) (c : Bytes)
    (hl : l.linkFree = true) : (l.insertFile s q c).linkFree = true := by
  induction l with
  | nil => rfl
  | file m p c0 rest ih =>
    simp only [Listing.linkFree] at hl
    unfold Listing.insertFile
    split
    · simp [Listing.linkFree, hl]
    · simp [Listing.linkFree, ih hl]
  | dir m p ch rest _ ih =>
    simp only [Listing.linkFree, Bool.and_eq_true] at hl
    unfold Listing.insertFile
    split
    · simp [Listing.linkFree, hl.1, hl.2]
    · simp [Listing.linkFree, ih hl.2, hl.1]
  | hardlink m t rest ih => simp [Listing.linkFree] at hl
  | symlink m t rest ih => simp [Listing.linkFree] at hl

theorem Node.write_linkFree (n n' : Node) (L : List Str) (mode : Perm) (c : Bytes)
    (hn : n.linkFree = true) (h : n.write L mode c = .ok n') : n'.linkFree = true := by
  induction L generalizing n n' with
  | nil =>
    cases n with
    | file p c0 =>
      simp only [Node.write] at h
      split at h
      · simp only [Except.ok.injEq] at h
        subst h
        rfl
      · simp at h
    | dir p ch => simp [Node.write] at h
    | hardlink t => simp [Node.write] at h
    | symlink t => simp [Node.write] at h
  | cons s more ih =>
    cases n with
    | file p c0 => simp [Node.write] at h
    | hardlink t => simp [Node.write] at h
    | symlink t => simp [Node.write] at h
    | dir p ch =>
      simp only [Node.linkFree] at hn
      simp only [Node.write] at h
      split at h
      · cases hf : ch.find s with
        | some n0 =>
          simp only [hf] at h
          cases hw : n0.write more mode c with
          | error e => simp [hw] at h
          | ok n0' =>
            simp only [hw, Except.ok.injEq] at h
            subst h
            exact Listing.replace_linkFree ch s n0' hn
              (ih n0 n0' (Listing.find_linkFree ch s n0 hn hf) hw)
        | none =>
          simp only [hf] at h
          cases more with
          | nil =>
            simp only at h
            split at h
            · simp only [Except.ok.injEq] at h
              subst h
              exact Listing.insertFile_linkFree ch s _ _ hn
            · simp at h
          | cons a b => simp at h
      · simp at h

/-- On a tree without links a lookup along names passes no link and finds what
the plain lookup finds. -/
theorem walkComps_lookup (fs : FS) (follow : Bool) (cur : List Str) (p : Perm) (l : Listing)
    (comps : List Str) (hl : (Node.dir p l).plainAlong comps = true)
    (hc : ∀ c ∈ comps, nameElem c) :
    (walkComps fs follow cur p l comps).plain = true
      ∧ (walkComps fs follow cur p l comps).result.bind Found.node
          = Node.lookup (.dir p l) comps := by
  induction comps generalizing cur p l with
  | nil => simp [walkComps, Step.plain, Step.result, Found.node, Node.lookup, Except.bind]
  | cons c rest ih =>
    obtain ⟨h1, h2, h3⟩ := hc c (List.mem_cons_self _ _)
    have hrest : ∀ c ∈ rest, nameElem c := fun c h => hc c (List.mem_cons_of_mem _ h)
    have hsp : ¬ (c = [] ∨ c = ['.']) := by simp [h1, h2]
    simp only [walkComps, hsp, if_false, h3]
    by_cases hx : p.x = true
    · simp only [hx, if_true, Node.lookup]
      cases hf : l.find c with
      | none =>
        cases rest <;> simp [Step.plain, Step.result, Found.node, Except.bind]
      | some n =>
        have hn : n.plainAlong rest = true := by simpa [Node.plainAlong, hf] using hl
        cases n with
        | file q c0 =>
          cases rest <;>
            simp [Step.plain, Step.result, Found.node, Node.lookup, Except.bind]
        | dir q ch => exact ih (cur ++ [c]) q ch hn hrest
        | hardlink t => simp [Node.plainAlong] at hn
        | symlink t => simp [Node.plainAlong] at hn
    · simp [hx, Step.plain, Step.result, Node.lookup, Except.bind]

/-- On a tree without links a lookup along names ends at the location the names
give. -/
theorem walkComps_loc (fs : FS) (follow : Bool) (cur : List Str) (p : Perm) (l : Listing)
    (comps : List Str) (hl : (Node.dir p l).plainAlong comps = true)
    (hc : ∀ c ∈ comps, nameElem c) :
    (∀ loc q c0, walkComps fs follow cur p l comps = .found (.file loc q c0)
        → loc = cur ++ comps)
      ∧ (∀ par pp nm, walkComps fs follow cur p l comps = .found (.missing par pp nm)
        → par ++ [nm] = cur ++ comps) := by
  induction comps generalizing cur p l with
  | nil => simp [walkComps]
  | cons c rest ih =>
    obtain ⟨h1, h2, h3⟩ := hc c (List.mem_cons_self _ _)
    have hrest : ∀ c ∈ rest, nameElem c := fun c h => hc c (List.mem_cons_of_mem _ h)
    have hsp : ¬ (c = [] ∨ c = ['.']) := by simp [h1, h2]
    simp only [walkComps, hsp, if_false, h3]
    by_cases hx : p.x = true
    · simp only [hx, if_true]
      cases hf : l.find c with
      | none =>
        cases rest with
        | nil =>
          refine ⟨by simp, ?_⟩
          intro par pp nm h
          simp only [Step.found.injEq, Found.missing.injEq] at h
          obtain ⟨e1, _, e3⟩ := h
          rw [← e1, ← e3]
        | cons a b => simp
      | some n =>
        have hn : n.plainAlong rest = true := by simpa [Node.plainAlong, hf] using hl
        cases n with
        | file q c0 =>
          cases rest with
          | nil =>
            refine ⟨?_, by simp⟩
            intro loc q' c0' h
            simp only [Step.found.injEq, Found.file.injEq] at h
            exact h.1.symm
          | cons a b => simp
        | dir q ch =>
          have := ih (cur ++ [c]) q ch hn hrest
          simpa [List.append_assoc] using this
        | hardlink t => simp [Node.plainAlong] at hn
        | symlink t => simp [Node.plainAlong] at hn
    · simp [hx]

/-- On a tree without links the plain write does what the lookup of the location
followed by the change of the file does. -/
theorem walkComps_write (fs : FS) (cur : List Str) (p : Perm) (l : Listing)
    (comps : List Str) (mode : Perm) (c : Bytes)
    (hl : (Node.dir p l).plainAlong comps = true) (hc : ∀ c ∈ comps, nameElem c) :
    Node.write (.dir p l) comps mode c
      = writeOf p l comps mode c (walkComps fs true cur p l comps) := by
  induction comps generalizing cur p l with
  | nil => simp [walkComps, writeOf, Node.write]
  | cons s rest ih =>
    obtain ⟨h1, h2, h3⟩ := hc s (List.mem_cons_self _ _)
    have hrest : ∀ c ∈ rest, nameElem c := fun c h => hc c (List.mem_cons_of_mem _ h)
    have hsp : ¬ (s = [] ∨ s = ['.']) := by simp [h1, h2]
    simp only [walkComps, hsp, if_false, h3]
    by_cases hx : p.x = true
    · simp only [hx, if_true, Node.write]
      cases hf : l.find s with
      | none =>
        cases rest <;> simp [writeOf, Listing.putFile, hf]
      | some n =>
        have hn : n.plainAlong rest = true := by simpa [Node.plainAlong, hf] using hl
        cases n with
        | file q c0 =>
          cases rest with
          | nil =>
            by_cases hq : q.w = true <;> simp [writeOf, Listing.putFile, hf, Node.write, hq]
          | cons a b => simp [writeOf, Node.write]
        | dir q ch =>
          simp only
          rw [ih (cur ++ [s]) q ch hn hrest]
          cases rest with
          | nil => simp [walkComps, writeOf]
          | cons a b =>
            cases hst : walkComps fs true (cur ++ [s]) q ch (a :: b) with
            | fail e => simp [writeOf]
            | hop x y => simp [writeOf]
            | found f =>
              cases f with
              | dir loc q' ch' => simp [writeOf]
              | symlink loc t => simp [writeOf]
              | file loc q' c0 =>
                by_cases hq : q'.w = true <;> simp [writeOf, Listing.putFile, hf, hq]
              | missing par pp nm =>
                by_cases hq : pp.w = true <;> simp [writeOf, Listing.putFile, hf, hq]
        | hardlink t => simp [Node.plainAlong] at hn
        | symlink t => simp [Node.plainAlong] at hn
    · simp [hx, writeOf, Node.write]

theorem cleanStep_nameElem (stack : List Str) (e : Str) (h : ∀ c ∈ stack, nameElem c) :
    ∀ c ∈ cleanStep true stack e, nameElem c := by
  unfold cleanStep
  split
  · exact h
  · rename_i h1
    split
    · cases stack with
      | nil => simp
      | cons top below =>
        have ht := (h top (List.mem_cons_self _ _)).2.2
        simp only [ht, if_false]
        exact fun c hc => h c (List.mem_cons_of_mem _ hc)
    · rename_i h2
      intro c hc
      rcases List.mem_cons.1 hc with rfl | hc
      · exact ⟨fun e => h1 (Or.inl e), fun e => h1 (Or.inr e), h2⟩
      · exact h c hc

theorem foldl_cleanStep_nameElem (xs stack : List Str) (h : ∀ c ∈ stack, nameElem c) :
    ∀ c ∈ xs.foldl (cleanStep true) stack, nameElem c := by
  induction xs generalizing stack with
  | nil => exact h
  | cons x xs ih => exact ih _ (cleanStep_nameElem stack x h)

/-- The names a path gives against the working directory are names. -/
theorem locate_nameElem (cwd : List Str) (path : Str) : ∀ c ∈ locate cwd path, nameElem c := by
  intro c hc
  unfold locate cleanElems at hc
  rw [List.mem_reverse] at hc
  exact foldl_cleanStep_nameElem _ [] (by simp) c hc

theorem FS.dirAt_nil (fs : FS) : fs.dirAt [] = some (fs.rootPerm, fs.root) := rfl

/-- On a filesystem without links the lookup of a path is one lookup along the
names the path gives. -/
theorem FS.lookup_plain (fs : FS) (follow : Bool) (path : Str) (hlf : fs.rootNode.plainAlong (locate fs.cwd path) = true)
    (hp : path ≠ []) :
    fs.lookup follow path
        = (walkComps fs follow [] fs.rootPerm fs.root (locate fs.cwd path)).result
      ∧ (walkComps fs follow [] fs.rootPerm fs.root (locate fs.cwd path)).plain = true := by
  have h := walkComps_lookup fs follow [] fs.rootPerm fs.root (locate fs.cwd path) hlf
    (locate_nameElem fs.cwd path)
  refine ⟨?_, h.1⟩
  unfold FS.lookup
  rw [if_neg hp]
  simp only [maxSymlinks, resolve, FS.dirAt_nil]
  cases hst : walkComps fs follow [] fs.rootPerm fs.root (locate fs.cwd path) with
  | found f => rfl
  | fail e => rfl
  | hop a b => rw [hst] at h; simp [Step.plain] at h

theorem Stat_plain (fs : FS) (path : Str) (hlf : fs.rootNode.plainAlong (locate fs.cwd path) = true) :
    Stat fs path = plainStat fs path := by
  unfold Stat plainStat
  by_cases hp : path = []
  · simp [hp, FS.lookup]
  · rw [if_neg hp]
    obtain ⟨h1, h2⟩ := FS.lookup_plain fs true path hlf hp
    have h3 := (walkComps_lookup fs true [] fs.rootPerm fs.root (locate fs.cwd path) hlf
      (locate_nameElem fs.cwd path)).2
    rw [h1]
    unfold FS.rootNode
    rw [← h3]
    cases hst : walkComps fs true [] fs.rootPerm fs.root (locate fs.cwd path) with
    | fail e => rfl
    | hop a b => rw [hst] at h2; simp [Step.plain] at h2
    | found f =>
      cases f with
      | dir loc q ch => rfl
      | file loc q c0 => rfl
      | missing par pp nm => rfl
      | symlink loc t => rw [hst] at h2; simp [Step.plain] at h2

theorem Lstat_plain (fs : FS) (path : Str) (hlf : fs.rootNode.plainAlong (locate fs.cwd path) = true) :
    Lstat fs path = plainStat fs path := by
  unfold Lstat plainStat
  by_cases hp : path = []
  · simp [hp, FS.lookup]
  · rw [if_neg hp]
    obtain ⟨h1, h2⟩ := FS.lookup_plain fs false path hlf hp
    have h3 := (walkComps_lookup fs false [] fs.rootPerm fs.root (locate fs.cwd path) hlf
      (locate_nameElem fs.cwd path)).2
    rw [h1]
    unfold FS.rootNode
    rw [← h3]
    cases hst : walkComps fs false [] fs.rootPerm fs.root (locate fs.cwd path) with
    | fail e => rfl
    | hop a b => rw [hst] at h2; simp [Step.plain] at h2
    | found f =>
      cases f with
      | dir loc q ch => rfl
      | file loc q c0 => rfl
      | missing par pp nm => rfl
      | symlink loc t => rw [hst] at h2; simp [Step.plain] at h2

theorem ReadFile_plain (fs : FS) (path : Str) (hlf : fs.rootNode.plainAlong (locate fs.cwd path) = true) :
    ReadFile fs path = plainReadFile fs path := by
  unfold plainReadFile
  rw [← Stat_plain fs path hlf]
  unfold ReadFile Stat
  cases hst : fs.lookup true path with
  | error e => rfl
  | ok f =>
    cases f with
    | dir loc q ch => rfl
    | file loc q c0 => rfl
    | missing par pp nm => rfl
    | symlink loc t => rfl

theorem WriteFile_plain (fs : FS) (path : Str) (c : Bytes) (hlf : fs.rootNode.plainAlong (locate fs.cwd path) = true) :
    WriteFile fs path c = plainWriteFile fs path c := by
  unfold WriteFile plainWriteFile
  by_cases hp : path = []
  · simp [hp, FS.lookup]
  · rw [if_neg hp]
    obtain ⟨h1, h2⟩ := FS.lookup_plain fs true path hlf hp
    have h3 := walkComps_write fs [] fs.rootPerm fs.root (locate fs.cwd path)
      (mode0644 fs.umask) c hlf (locate_nameElem fs.cwd path)
    have h4 := walkComps_loc fs true [] fs.rootPerm fs.root (locate fs.cwd path) hlf
      (locate_nameElem fs.cwd path)
    rw [h1]
    unfold FS.rootNode
    rw [h3]
    cases hst : walkComps fs true [] fs.rootPerm fs.root (locate fs.cwd path) with
    | fail e => rfl
    | hop a b => rw [hst] at h2; simp [Step.plain] at h2
    | found f =>
      cases f with
      | dir loc q ch => rfl
      | symlink loc t => rw [hst] at h2; simp [Step.plain] at h2
      | file loc q c0 =>
        have hloc := h4.1 loc q c0 hst
        simp only [List.nil_append] at hloc
        subst hloc
        by_cases hq : q.w = true <;> simp [Step.result, writeOf, hq]
      | missing par pp nm =>
        have hloc := h4.2 par pp nm hst
        simp only [List.nil_append] at hloc
        by_cases hq : pp.w = true <;> simp [Step.result, writeOf, hq, hloc]

theorem Node.plainAlong_of_linkFree (n : Node) (Q : List Str) (h : n.linkFree = true) :
    n.plainAlong Q = true := by
  induction Q generalizing n with
  | nil => cases n <;> simp_all [Node.plainAlong, Node.linkFree]
  | cons s more ih =>
    cases n with
    | file p c => rfl
    | hardlink t => simp [Node.linkFree] at h
    | symlink t => simp [Node.linkFree] at h
    | dir p ch =>
      simp only [Node.linkFree] at h
      simp only [Node.plainAlong]
      cases hf : ch.find s with
      | none => rfl
      | some n0 => exact ih n0 (Listing.find_linkFree ch s n0 h hf)

theorem Node.linkFreeBelow_nil (n : Node) : n.linkFreeBelow [] = n.linkFree := by
  cases n <;> rfl

/-- Below a tree that is free of links every path is. -/
theorem Node.plainAlong_of_below (n : Node) (X Q : List Str) (h : n.linkFreeBelow X = true) :
    n.plainAlong (X ++ Q) = true := by
  induction X generalizing n with
  | nil => exact Node.plainAlong_of_linkFree n Q (by rw [← Node.linkFreeBelow_nil]; exact h)
  | cons s more ih =>
    cases n with
    | file p c => rfl
    | hardlink t => simp [Node.linkFreeBelow] at h
    | symlink t => simp [Node.linkFreeBelow] at h
    | dir p ch =>
      simp only [Node.linkFreeBelow] at h
      simp only [List.cons_append, Node.plainAlong]
      cases hf : ch.find s with
      | none => rfl
      | some n0 =>
        simp only [hf] at h
        exact ih n0 h

theorem Node.linkFreeBelow_file (p : Perm) (c : Bytes) (X : List Str) :
    (Node.file p c).linkFreeBelow X = true := by
  cases X <;> rfl

/-- A plain write keeps a tree free of links. -/
theorem Node.write_linkFreeBelow (n n' : Node) (L X : List Str) (mode : Perm) (c : Bytes)
    (h : n.write L mode c = .ok n') (hX : n.linkFreeBelow X = true) :
    n'.linkFreeBelow X = true := by
  induction L generalizing n n' X with
  | nil =>
    cases n with
    | file p c0 =>
      simp only [Node.write] at h
      split at h
      · simp only [Except.ok.injEq] at h
        subst h
        exact Node.linkFreeBelow_file _ _ _
      · simp at h
    | dir p ch => simp [Node.write] at h
    | hardlink t => simp [Node.write] at h
    | symlink t => simp [Node.write] at h
  | cons s more ih =>
    cases X with
    | nil =>
      rw [Node.linkFreeBelow_nil] at hX ⊢
      exact Node.write_linkFree n n' _ mode c hX h
    | cons t X' =>
      cases n with
      | file p c0 => simp [Node.write] at h
      | hardlink t0 => simp [Node.write] at h
      | symlink t0 => simp [Node.write] at h
      | dir p ch =>
        simp only [Node.linkFreeBelow] at hX
        simp only [Node.write] at h
        split at h
        · cases hf : ch.find s with
          | some n0 =>
            simp only [hf] at h
            cases hw : n0.write more mode c with
            | error e => simp [hw] at h
            | ok n0' =>
              simp only [hw, Except.ok.injEq] at h
              subst h
              simp only [Node.linkFreeBelow]
              by_cases hts : t = s
              · subst hts
                rw [Listing.find_replace_same ch t n0 n0' hf]
                simp only [hf] at hX
                exact ih n0 n0' X' hw hX
              · rw [Listing.find_replace_other ch s t n0' hts]
                exact hX
          | none =>
            simp only [hf] at h
            cases more with
            | nil =>
              simp only at h
              split at h
              · simp only [Except.ok.injEq] at h
                subst h
                simp only [Node.linkFreeBelow]
                by_cases hts : t = s
                · subst hts
                  rw [Listing.find_insertFile_same ch t _ _ hf]
                  exact Node.linkFreeBelow_file _ _ _
                · rw [Listing.find_insertFile_other ch s t _ _ hts]
                  exact hX
              · simp at h
            | cons a b => simp at h
        · simp at h

/-- A write changes neither the working directory nor the mode of the root nor
the umask. -/
theorem WriteFile_fields (fs fs' : FS) (path : Str) (c : Bytes)
    (h : WriteFile fs path c = .ok fs') :
    fs'.cwd = fs.cwd ∧ fs'.rootPerm = fs.rootPerm ∧ fs'.umask = fs.umask := by
  unfold WriteFile at h
  cases hst : fs.lookup true path with
  | error e => simp [hst] at h
  | ok f =>
    cases f with
    | dir loc q ch => simp [hst] at h
    | symlink loc t => simp [hst] at h
    | file loc q c0 =>
      simp only [hst] at h
      split at h
      · simp only [Except.ok.injEq] at h
        subst h
        exact ⟨rfl, rfl, rfl⟩
      · simp at h
    | missing par pp nm =>
      simp only [hst] at h
      split at h
      · simp only [Except.ok.injEq] at h
        subst h
        exact ⟨rfl, rfl, rfl⟩
      · simp at h

/-! #### The system calls on a filesystem without links -/

theorem Stat_ok (fs : FS) (path : Str) (n : Node) (hlf : fs.rootNode.plainAlong (locate fs.cwd path) = true)
    (h : Stat fs path = .ok n) :
    path ≠ [] ∧ fs.rootNode.lookup (locate fs.cwd path) = .ok n := by
  rw [Stat_plain fs path hlf] at h
  exact plainStat_ok fs path n h

theorem Stat_of_ne_nil (fs : FS) (path : Str) (hlf : fs.rootNode.plainAlong (locate fs.cwd path) = true) (h : path ≠ []) :
    Stat fs path = fs.rootNode.lookup (locate fs.cwd path) := by
  rw [Stat_plain fs path hlf]
  exact plainStat_of_ne_nil fs path h

theorem Lstat_eq_Stat (fs : FS) (path : Str) (hlf : fs.rootNode.plainAlong (locate fs.cwd path) = true) :
    Lstat fs path = Stat fs path := by
  rw [Stat_plain fs path hlf, Lstat_plain fs path hlf]

theorem WriteFile_ok (fs fs' : FS) (path : Str) (c : Bytes) (hlf : fs.rootNode.plainAlong (locate fs.cwd path) = true)
    (h : WriteFile fs path c = .ok fs') :
    path ≠ [] ∧ fs.rootNode.write (locate fs.cwd path) (mode0644 fs.umask) c = .ok fs'.rootNode
      ∧ fs'.cwd = fs.cwd ∧ fs'.rootPerm = fs.rootPerm ∧ fs'.umask = fs.umask := by
  rw [WriteFile_plain fs path c hlf] at h
  exact plainWriteFile_ok fs fs' path c h

/-- A write keeps a tree free of links. -/
theorem WriteFile_linkFreeBelow (fs fs' : FS) (path : Str) (c : Bytes) (X : List Str)
    (hlf : fs.rootNode.plainAlong (locate fs.cwd path) = true)
    (h : WriteFile fs path c = .ok fs') (hX : fs.rootNode.linkFreeBelow X = true) :
    fs'.rootNode.linkFreeBelow X = true := by
  obtain ⟨_, hw, _, _, _⟩ := WriteFile_ok fs fs' path c hlf h
  exact Node.write_linkFreeBelow fs.rootNode fs'.rootNode _ X _ c hw hX

/-- A write keeps the tree at a root path free of links. -/
theorem WriteFile_plainTree (fs fs' : FS) (path root : Str) (c : Bytes)
    (hlf : fs.rootNode.plainAlong (locate fs.cwd path) = true)
    (h : WriteFile fs path c = .ok fs') (hX : fs.plainTree root = true) :
    fs'.plainTree root = true := by
  unfold FS.plainTree at hX ⊢
  rw [(WriteFile_fields fs fs' path c h).1]
  exact WriteFile_linkFreeBelow fs fs' path c _ hlf h hX

theorem WriteFile_of_write (fs : FS) (path : Str) (c : Bytes) (ch' : Listing)
    (hlf : fs.rootNode.plainAlong (locate fs.cwd path) = true) (hp : path ≠ [])
    (h : fs.rootNode.write (locate fs.cwd path) (mode0644 fs.umask) c
      = .ok (.dir fs.rootPerm ch')) :
    WriteFile fs path c = .ok { fs with root := ch' } := by
  rw [WriteFile_plain fs path c hlf]
  exact plainWriteFile_of_write fs path c ch' hp h

theorem ReadFile_eq_of_lookup (fs1 fs2 : FS) (path : Str)
    (h1 : fs1.rootNode.plainAlong (locate fs1.cwd path) = true)
    (h2 : fs2.rootNode.plainAlong (locate fs2.cwd path) = true) (hcwd : fs1.cwd = fs2.cwd)
    (h : fs1.rootNode.lookup (locate fs2.cwd path) = fs2.rootNode.lookup (locate fs2.cwd path)) :
    ReadFile fs1 path = ReadFile fs2 path := by
  rw [ReadFile_plain fs1 path h1, ReadFile_plain fs2 path h2]
  exact plainReadFile_eq_of_lookup fs1 fs2 path hcwd h

theorem WriteFile_same (fs : FS) (path : Str) (c : Bytes) (q : Perm) (hlf : fs.rootNode.plainAlong (locate fs.cwd path) = true)
    (hp : path ≠ [])
    (hl : fs.rootNode.lookup (locate fs.cwd path) = .ok (.file q c)) (hw : q.w = true) :
    WriteFile fs path c = .ok fs := by
  rw [WriteFile_plain fs path c hlf]
  exact plainWriteFile_same fs path c q hp hl hw

/-- What `ReadFile` returns is the content the path leads to. -/
theorem contentAt_of_ReadFile (fs : FS) (path : Str) (c : Bytes)
    (h : ReadFile fs path = .ok c) : fs.contentAt path = some c := by
  unfold ReadFile at h
  unfold FS.contentAt
  cases hst : fs.lookup true path with
  | error e => simp [hst] at h
  | ok f =>
    cases f with
    | dir loc q ch => simp [hst] at h
    | missing par pp nm => simp [hst] at h
    | symlink loc t => simp [hst] at h
    | file loc q c0 =>
      simp only [hst] at h
      split at h
      · simp only [Except.ok.injEq] at h
        simp [h]
      · simp at h

/-- On a filesystem without links the content a path leads to is the content of
the file the plain lookup finds. -/
theorem contentAt_of_lookup (fs : FS) (path : Str) (q : Perm) (c : Bytes)
    (hlf : fs.rootNode.plainAlong (locate fs.cwd path) = true) (hp : path ≠ [])
    (h : fs.rootNode.lookup (locate fs.cwd path) = .ok (.file q c)) :
    fs.contentAt path = some c := by
  have hs : Stat fs path = .ok (.file q c) := by rw [Stat_of_ne_nil fs path hlf hp, h]
  unfold Stat at hs
  unfold FS.contentAt
  cases hst : fs.lookup true path with
  | error e => simp [hst] at hs
  | ok f =>
    cases f with
    | dir loc q' ch => simp [hst] at hs
    | missing par pp nm => simp [hst] at hs
    | symlink loc t => simp [hst] at hs
    | file loc q' c0 =>
      simp only [hst, Except.ok.injEq, Node.file.injEq] at hs
      simp [hs.2]


/-- Below a root path whose tree is free of links, every path made of names is
reached without passing a link. -/
theorem FS.plainTree_Join (fs : FS) (root : Str) (Q : List Str) (h : fs.plainTree root = true)
    (hQ : validNames Q) :
    fs.rootNode.plainAlong (locate fs.cwd (Join root (joinSlash Q))) = true := by
  rw [locate_Join fs.cwd root Q hQ]
  exact Node.plainAlong_of_below _ _ _ h

theorem FS.plainTree_plainPath (fs : FS) (root p : Str) (h : fs.plainTree root = true)
    (hp : plainPath p) :
    fs.rootNode.plainAlong (locate fs.cwd (Join root p)) = true := by
  obtain ⟨Q, hQ, rfl⟩ := hp
  exact FS.plainTree_Join fs root Q h hQ

/-! #### What a lookup through links finds is part of the tree -/

theorem FS.dirAt_wellFormed (fs : FS) (loc : List Str) (p : Perm) (l : Listing)
    (hwf : fs.rootNode.wellFormed = true) (h : fs.dirAt loc = some (p, l)) :
    l.wellFormed = true := by
  unfold FS.dirAt at h
  cases hn : fs.nodeAt loc with
  | none => simp [hn] at h
  | some n =>
    cases n with
    | file q c => simp [hn] at h
    | hardlink t => simp [hn] at h
    | symlink t => simp [hn] at h
    | dir q ch =>
      simp only [hn, Option.some.injEq, Prod.mk.injEq] at h
      have := Node.wellFormed_locate _ _ _ hwf hn
      rw [← h.2]
      exact this

theorem walkComps_wellFormed (fs : FS) (follow : Bool) (cur : List Str) (p : Perm)
    (l : Listing) (comps : List Str) (hwf : fs.rootNode.wellFormed = true)
    (hl : l.wellFormed = true) (loc : List Str) (q : Perm) (ch : Listing)
    (h : walkComps fs follow cur p l comps = .found (.dir loc q ch)) :
    ch.wellFormed = true := by
  induction comps generalizing cur p l with
  | nil =>
    simp only [walkComps, Step.found.injEq, Found.dir.injEq] at h
    rw [← h.2.2]
    exact hl
  | cons c rest ih =>
    simp only [walkComps] at h
    split at h
    · exact ih cur p l hl h
    · split at h
      · split at h
        · cases hd : fs.dirAt cur.dropLast with
          | none => simp [hd] at h
          | some pl =>
            obtain ⟨p', l'⟩ := pl
            simp only [hd] at h
            exact ih _ p' l' (FS.dirAt_wellFormed fs _ p' l' hwf hd) h
        · cases hf : l.find c with
          | none =>
            simp only [hf] at h
            cases rest <;> simp at h
          | some n =>
            cases n with
            | dir q' ch' =>
              simp only [hf] at h
              exact ih _ q' ch' (Listing.wellFormed_find l c _ hl hf) h
            | file q' c0 =>
              simp only [hf] at h
              cases rest <;> simp at h
            | hardlink t =>
              simp only [hf] at h
              cases rest with
              | nil =>
                simp only at h
                split at h <;> simp at h
              | cons a b => simp at h
            | symlink t =>
              simp only [hf] at h
              split at h
              · simp at h
              · split at h <;> simp at h
      · simp at h

theorem resolve_wellFormed (fs : FS) (follow : Bool) (fuel : Nat) (cur comps : List Str)
    (hwf : fs.rootNode.wellFormed = true) (loc : List Str) (q : Perm) (ch : Listing)
    (h : resolve fs follow fuel cur comps = .ok (.dir loc q ch)) : ch.wellFormed = true := by
  induction fuel generalizing cur comps with
  | zero => simp [resolve] at h
  | succ fuel ih =>
    simp only [resolve] at h
    cases hd : fs.dirAt cur with
    | none => simp [hd] at h
    | some pl =>
      obtain ⟨p, l⟩ := pl
      simp only [hd] at h
      cases hst : walkComps fs follow cur p l comps with
      | fail e => simp [hst] at h
      | hop a b =>
        simp only [hst] at h
        exact ih a b h
      | found f =>
        simp only [hst, Except.ok.injEq] at h
        subst h
        exact walkComps_wellFormed fs follow cur p l comps hwf
          (FS.dirAt_wellFormed fs _ p l hwf hd) loc q ch hst

/-- The directory `os.Lstat` finds is a directory of the tree: its entries have
names that entries can have. -/
theorem Lstat_wellFormed (fs : FS) (path : Str) (p : Perm) (ch : Listing)
    (hwf : fs.wellFormed = true) (h : Lstat fs path = .ok (.dir p ch)) :
    ch.wellFormed = true := by
  unfold Lstat at h
  cases hl : fs.lookup false path with
  | error e => simp [hl] at h
  | ok f =>
    cases f with
    | file loc q c => simp [hl] at h
    | symlink loc t => simp [hl] at h
    | missing par pp nm => simp [hl] at h
    | dir loc q ch' =>
      simp only [hl, Except.ok.injEq, Node.dir.injEq] at h
      unfold FS.lookup at hl
      split at hl
      · simp at hl
      · rw [← h.2]
        exact resolve_wellFormed fs false _ _ _ (FS.wellFormed_root fs hwf) loc q ch' hl

/-- A plain lookup that finds a file or a directory met no link. -/
theorem Node.plainAlong_of_lookup (n : Node) (L : List Str) (q : Perm) (c : Bytes)
    (h : n.lookup L = .ok (.file q c)) : n.plainAlong L = true := by
  induction L generalizing n with
  | nil =>
    simp only [Node.lookup, Except.ok.injEq] at h
    subst h
    rfl
  | cons s more ih =>
    cases n with
    | file p c0 => rfl
    | hardlink t => simp [Node.lookup] at h
    | symlink t => simp [Node.lookup] at h
    | dir p ch =>
      simp only [Node.lookup] at h
      split at h
      · cases hf : ch.find s with
        | none => simp [hf] at h
        | some n0 =>
          simp only [hf] at h
          simp only [Node.plainAlong, hf]
          exact ih n0 h
      · simp at h

/-- Below a directory reached through directories, a path meets no link when it
meets none from that directory on. -/
theorem Node.plainAlong_below_dir (n : Node) (L Q : List Str) (p : Perm) (l : Listing)
    (h : n.locate L = some (.dir p l)) (hQ : (Node.dir p l).plainAlong Q = true) :
    n.plainAlong (L ++ Q) = true := by
  induction L generalizing n with
  | nil =>
    simp only [Node.locate, Option.some.injEq] at h
    subst h
    exact hQ
  | cons s more ih =>
    cases n with
    | file q c => simp [Node.locate] at h
    | hardlink t => simp [Node.locate] at h
    | symlink t => simp [Node.locate] at h
    | dir q ch =>
      simp only [Node.locate] at h
      cases hf : ch.find s with
      | none => simp [hf] at h
      | some n0 =>
        simp only [hf] at h
        simp only [List.cons_append, Node.plainAlong, hf]
        exact ih n0 h

/-! #### What `os.Lstat` finds to be a directory -/

/-- A lookup that does not end at a symbolic link goes the same way whether the
last element is followed or not. -/
theorem walkComps_follow (fs : FS) (cur : List Str) (p : Perm) (l : Listing)
    (comps : List Str)
    (h : ∀ loc t, walkComps fs false cur p l comps ≠ .found (.symlink loc t)) :
    walkComps fs true cur p l comps = walkComps fs false cur p l comps := by
  induction comps generalizing cur p l with
  | nil => rfl
  | cons c rest ih =>
    simp only [walkComps] at h ⊢
    by_cases h1 : c = [] ∨ c = ['.']
    · simp only [h1, if_true] at h ⊢
      exact ih _ _ _ h
    · simp only [h1, if_false] at h ⊢
      by_cases hx : p.x = true
      · simp only [hx, if_true] at h ⊢
        by_cases h2 : c = ['.', '.']
        · simp only [h2, if_true] at h ⊢
          cases hd : fs.dirAt cur.dropLast with
          | none => rfl
          | some pl =>
            simp only [hd] at h ⊢
            exact ih _ _ _ h
        · simp only [h2, if_false] at h ⊢
          cases hf : l.find c with
          | none => rfl
          | some n =>
            cases n with
            | file q c0 => rfl
            | hardlink t => rfl
            | dir q ch =>
              simp only [hf] at h ⊢
              exact ih _ _ _ h
            | symlink t =>
              simp only [hf] at h ⊢
              by_cases hr : rest = []
              · simp [hr] at h
              · simp [hr]
      · simp [hx]

theorem resolve_follow (fs : FS) (fuel : Nat) (cur comps : List Str) (loc : List Str)
    (q : Perm) (ch : Listing) (h : resolve fs false fuel cur comps = .ok (.dir loc q ch)) :
    resolve fs true fuel cur comps = .ok (.dir loc q ch) := by
  induction fuel generalizing cur comps with
  | zero => simp [resolve] at h
  | succ fuel ih =>
    simp only [resolve] at h ⊢
    cases hd : fs.dirAt cur with
    | none => simp [hd] at h
    | some pl =>
      obtain ⟨p, l⟩ := pl
      simp only [hd] at h ⊢
      have hns : ∀ loc' t, walkComps fs false cur p l comps ≠ .found (.symlink loc' t) := by
        intro loc' t e
        rw [e] at h
        simp at h
      rw [walkComps_follow fs cur p l comps hns]
      cases hst : walkComps fs false cur p l comps with
      | fail e => simp [hst] at h
      | found f =>
        simp only [hst] at h ⊢
        exact h
      | hop a b =>
        simp only [hst] at h ⊢
        exact ih a b h

/-- What `os.Lstat` finds to be a directory, `os.Stat` finds to be the same
directory. -/
theorem Stat_of_Lstat_dir (fs : FS) (path : Str) (p : Perm) (ch : Listing)
    (h : Lstat fs path = .ok (.dir p ch)) : Stat fs path = .ok (.dir p ch) := by
  unfold Lstat at h
  unfold Stat
  cases hl : fs.lookup false path with
  | error e => simp [hl] at h
  | ok f =>
    cases f with
    | file loc q c => simp [hl] at h
    | symlink loc t => simp [hl] at h
    | missing par pp nm => simp [hl] at h
    | dir loc q ch' =>
      simp only [hl, Except.ok.injEq, Node.dir.injEq] at h
      have : fs.lookup true path = .ok (.dir loc q ch') := by
        unfold FS.lookup at hl ⊢
        split at hl
        · simp at hl
        · rename_i hp
          rw [if_neg hp]
          exact resolve_follow fs _ _ _ loc q ch' hl
      rw [this]
      simp [h.1, h.2]

theorem Lstat_ne_nil (fs : FS) (path : Str) (n : Node) (h : Lstat fs path = .ok n) :
    path ≠ [] := by
  intro e
  subst e
  simp [Lstat, FS.lookup] at h

/-! ### What a walk visits -/

theorem Node.locate_dir_cons (p : Perm) (l : Listing) (s : Str) (more : List Str) :
    (Node.dir p l).locate (s :: more)
      = match l.find s with
        | none => none
        | some n => n.locate more := rfl

theorem Node.find_of_locate_ne_none (p : Perm) (l : Listing) (s : Str) (more : List Str)
    (h : (Node.dir p l).locate (s :: more) ≠ none) : l.find s ≠ none := by
  intro e
  rw [Node.locate_dir_cons, e] at h
  exact h rfl

/-- Every path a walk of the entries of a directory visits is the path of the
directory followed by the names that lead to something below it. -/
theorem walkEntries_sound (l : Listing) (r : Bool) (S : List Str) (x : Bool) (p : Perm)
    (hwf : l.wellFormed = true) (hS : cleanPath r S) :
    ∀ v ∈ walkEntries l (renderPath r S) x, ∃ names, validNames names ∧
      v.path = renderPath r (S ++ names) ∧ (Node.dir p l).locate names ≠ none := by
  induction l generalizing S x p with
  | nil => intro v hv; simp [walkEntries] at hv
  | file m q c rest ih =>
    simp only [Listing.wellFormed, Bool.and_eq_true, decide_eq_true_eq] at hwf
    obtain ⟨⟨hm, hnot⟩, hrest⟩ := hwf
    intro v hv
    simp only [walkEntries, List.mem_cons] at hv
    rcases hv with hv | hv
    · refine ⟨[m], validNames_singleton m hm, ?_, ?_⟩
      · rw [hv, Join_renderPath_name r S m hS hm]
      · simp [Node.locate, Listing.find]
    · obtain ⟨names, hn, hp, hl⟩ := ih S x p hrest hS v hv
      refine ⟨names, hn, hp, ?_⟩
      cases names with
      | nil => exact absurd rfl hn.1
      | cons s more =>
        have hs := Listing.mem_names_of_find rest s (Node.find_of_locate_ne_none p rest s more hl)
        have hms : ¬ m = s := fun e => hnot (e ▸ hs)
        rw [Node.locate_dir_cons] at hl ⊢
        simpa [Listing.find, hms] using hl
  | dir m q ch rest ihc ih =>
    simp only [Listing.wellFormed, Bool.and_eq_true, decide_eq_true_eq] at hwf
    obtain ⟨⟨⟨hm, hnot⟩, hch⟩, hrest⟩ := hwf
    have hjoin := Join_renderPath_name r S m hS hm
    have hself : ∃ names, validNames names ∧
        Join (renderPath r S) m = renderPath r (S ++ names)
          ∧ (Node.dir p (Listing.dir m q ch rest)).locate names ≠ none := by
      refine ⟨[m], validNames_singleton m hm, hjoin, ?_⟩
      simp [Node.locate, Listing.find]
    intro v hv
    simp only [walkEntries, List.mem_append] at hv
    rcases hv with hv | hv
    · have hv' : v.path = Join (renderPath r S) m ∨
          v ∈ walkEntries ch (Join (renderPath r S) m) q.x := by
        by_cases hx : x = true
        · by_cases hr : q.r = true
          · simp only [hx, hr, if_true, List.mem_cons] at hv
            rcases hv with hv | hv
            · left; rw [hv]
            · right; exact hv
          · rw [Bool.not_eq_true] at hr
            simp only [hx, hr, if_true, Bool.false_eq_true, if_false, List.mem_singleton] at hv
            left; rw [hv]
        · rw [Bool.not_eq_true] at hx
          simp only [hx, Bool.false_eq_true, if_false, List.mem_singleton] at hv
          left; rw [hv]
      rcases hv' with hv' | hv'
      · obtain ⟨names, hn, hp, hl⟩ := hself
        exact ⟨names, hn, by rw [hv', hp], hl⟩
      · rw [hjoin] at hv'
        have hS' : cleanPath r (S ++ [m]) :=
          cleanPath_append_valid r S [m] hS (validNames_singleton m hm).2
        obtain ⟨names, hn, hp, hl⟩ := ihc (S ++ [m]) q.x q hch hS' v hv'
        refine ⟨m :: names, ⟨by simp, ?_⟩, ?_, ?_⟩
        · intro n hn'
          rcases List.mem_cons.mp hn' with h | h
          · rw [h]; exact hm
          · exact hn.2 n h
        · rw [hp]; simp
        · rw [Node.locate_dir_cons]
          simpa [Listing.find] using hl
    · obtain ⟨names, hn, hp, hl⟩ := ih S x p hrest hS v hv
      refine ⟨names, hn, hp, ?_⟩
      cases names with
      | nil => exact absurd rfl hn.1
      | cons s more =>
        have hs := Listing.mem_names_of_find rest s (Node.find_of_locate_ne_none p rest s more hl)
        have hms : ¬ m = s := fun e => hnot (e ▸ hs)
        rw [Node.locate_dir_cons] at hl ⊢
        simpa [Listing.find, hms] using hl
  | hardlink m tgt rest ih =>
    simp only [Listing.wellFormed, Bool.and_eq_true, decide_eq_true_eq] at hwf
    obtain ⟨⟨hm, hnot⟩, hrest⟩ := hwf
    intro v hv
    simp only [walkEntries, List.mem_cons] at hv
    rcases hv with hv | hv
    · refine ⟨[m], validNames_singleton m hm, ?_, ?_⟩
      · rw [hv, Join_renderPath_name r S m hS hm]
      · simp [Node.locate, Listing.find]
    · obtain ⟨names, hn, hp, hl⟩ := ih S x p hrest hS v hv
      refine ⟨names, hn, hp, ?_⟩
      cases names with
      | nil => exact absurd rfl hn.1
      | cons s more =>
        have hs := Listing.mem_names_of_find rest s (Node.find_of_locate_ne_none p rest s more hl)
        have hms : ¬ m = s := fun e => hnot (e ▸ hs)
        rw [Node.locate_dir_cons] at hl ⊢
        simpa [Listing.find, hms] using hl
  | symlink m tgt rest ih =>
    simp only [Listing.wellFormed, Bool.and_eq_true, decide_eq_true_eq] at hwf
    obtain ⟨⟨hm, hnot⟩, hrest⟩ := hwf
    intro v hv
    simp only [walkEntries, List.mem_cons] at hv
    rcases hv with hv | hv
    · refine ⟨[m], validNames_singleton m hm, ?_, ?_⟩
      · rw [hv, Join_renderPath_name r S m hS hm]
      · simp [Node.locate, Listing.find]
    · obtain ⟨names, hn, hp, hl⟩ := ih S x p hrest hS v hv
      refine ⟨names, hn, hp, ?_⟩
      cases names with
      | nil => exact absurd rfl hn.1
      | cons s more =>
        have hs := Listing.mem_names_of_find rest s (Node.find_of_locate_ne_none p rest s more hl)
        have hms : ¬ m = s := fun e => hnot (e ▸ hs)
        rw [Node.locate_dir_cons] at hl ⊢
        simpa [Listing.find, hms] using hl

theorem Ext_append_slash (a b : Str) : Ext (a ++ '/' :: b) = Ext b := by
  unfold Ext
  rw [List.reverse_append, List.reverse_cons, List.append_assoc]
  by_cases h : ∃ x ∈ b.reverse, x = '/' ∨ x = '.'
  · rw [extScan_stop _ _ _ h]
  · have h' : ∀ x ∈ b.reverse, x ≠ '/' ∧ x ≠ '.' := by
      intro x hx
      constructor
      · intro e; exact h ⟨x, hx, Or.inl e⟩
      · intro e; exact h ⟨x, hx, Or.inr e⟩
    rw [extScan_pass _ _ _ h']
    have h2 := extScan_pass b.reverse [] [] h'
    rw [List.append_nil] at h2
    rw [h2]
    simp [extScan]

/-- The extension of a path made of elements is the extension of its last
element. -/
theorem Ext_joinSlash (Q : List Str) (hne : Q ≠ []) :
    Ext (joinSlash Q) = Ext (Q.getLast hne) := by
  induction Q with
  | nil => exact absurd rfl hne
  | cons e rest ih =>
    cases rest with
    | nil => rfl
    | cons t rest' =>
      have h1 : joinSlash (e :: t :: rest') = e ++ '/' :: joinSlash (t :: rest') := rfl
      rw [h1, Ext_append_slash, ih (by simp)]
      rfl

theorem Listing.validName_of_find (l : Listing) (s : Str) (hwf : l.wellFormed = true)
    (h : l.find s ≠ none) : validName s = true := by
  induction l with
  | nil => simp [Listing.find] at h
  | file m p c rest ih =>
    simp only [Listing.wellFormed, Bool.and_eq_true] at hwf
    by_cases hm : m = s
    · rw [← hm]; exact hwf.1.1
    · simp only [Listing.find, hm, if_false] at h
      exact ih hwf.2 h
  | dir m p ch rest _ ih =>
    simp only [Listing.wellFormed, Bool.and_eq_true] at hwf
    by_cases hm : m = s
    · rw [← hm]; exact hwf.1.1.1
    · simp only [Listing.find, hm, if_false] at h
      exact ih hwf.2 h
  | hardlink m tgt rest ih =>
    simp only [Listing.wellFormed, Bool.and_eq_true] at hwf
    by_cases hm : m = s
    · rw [← hm]; exact hwf.1.1
    · simp only [Listing.find, hm, if_false] at h
      exact ih hwf.2 h
  | symlink m tgt rest ih =>
    simp only [Listing.wellFormed, Bool.and_eq_true] at hwf
    by_cases hm : m = s
    · rw [← hm]; exact hwf.1.1
    · simp only [Listing.find, hm, if_false] at h
      exact ih hwf.2 h

theorem Node.validName_of_locate (n : Node) (names : List Str) (hwf : n.wellFormed = true)
    (h : n.locate names ≠ none) : ∀ k ∈ names, validName k = true := by
  induction names generalizing n with
  | nil => intro k hk; cases hk
  | cons s more ih =>
    cases n with
    | file p c => simp [Node.locate] at h
    | dir p ch =>
      simp only [Node.locate] at h
      cases hf : ch.find s with
      | none => simp [hf] at h
      | some n0 =>
        simp only [hf] at h
        intro k hk
        rcases List.mem_cons.mp hk with hk | hk
        · rw [hk]
          exact Listing.validName_of_find ch s hwf (by simp [hf])
        · exact ih n0 (Listing.wellFormed_find ch s n0 hwf hf) h k hk
    | hardlink t0 => simp [Node.locate] at h
    | symlink t0 => simp [Node.locate] at h

/-- A walk of the entries of a directory that reports no error visits every
entry at any depth below, at the path of the directory followed by the names
that lead to the entry. -/
theorem walkEntries_reaches (l : Listing) (r : Bool) (S : List Str) (x : Bool)
    (hwf : l.wellFormed = true) (hS : cleanPath r S) (s : Str) (more : List Str) (n0 m0 : Node)
    (hf : l.find s = some n0) (hloc : n0.locate more = some m0)
    (hq : ∀ v ∈ walkEntries l (renderPath r S) x, v.err = none) :
    ∃ v ∈ walkEntries l (renderPath r S) x, v.path = renderPath r (S ++ s :: more) := by
  induction l generalizing S x s more n0 with
  | nil => simp [Listing.find] at hf
  | file m q c rest ih =>
    simp only [Listing.wellFormed, Bool.and_eq_true, decide_eq_true_eq] at hwf
    obtain ⟨⟨hm, _⟩, hrest⟩ := hwf
    by_cases hms : m = s
    · simp only [Listing.find, hms, if_true, Option.some.injEq] at hf
      subst hf
      cases more with
      | cons a b => simp [Node.locate] at hloc
      | nil =>
        refine ⟨_, by simp only [walkEntries]; exact List.mem_cons_self _ _, ?_⟩
        simp only []
        rw [Join_renderPath_name r S m hS hm, hms]
    · simp only [Listing.find, hms, if_false] at hf
      have hq' : ∀ v ∈ walkEntries rest (renderPath r S) x, v.err = none := fun v hv =>
        hq v (by simp only [walkEntries]; exact List.mem_cons_of_mem _ hv)
      obtain ⟨v, hv, hp⟩ := ih S x hrest hS s more n0 hf hloc hq'
      exact ⟨v, by simp only [walkEntries]; exact List.mem_cons_of_mem _ hv, hp⟩
  | hardlink m tgt rest ih =>
    simp only [Listing.wellFormed, Bool.and_eq_true, decide_eq_true_eq] at hwf
    obtain ⟨⟨hm, _⟩, hrest⟩ := hwf
    by_cases hms : m = s
    · simp only [Listing.find, hms, if_true, Option.some.injEq] at hf
      subst hf
      cases more with
      | cons a b => simp [Node.locate] at hloc
      | nil =>
        refine ⟨_, by simp only [walkEntries]; exact List.mem_cons_self _ _, ?_⟩
        simp only []
        rw [Join_renderPath_name r S m hS hm, hms]
    · simp only [Listing.find, hms, if_false] at hf
      have hq' : ∀ v ∈ walkEntries rest (renderPath r S) x, v.err = none := fun v hv =>
        hq v (by simp only [walkEntries]; exact List.mem_cons_of_mem _ hv)
      obtain ⟨v, hv, hp⟩ := ih S x hrest hS s more n0 hf hloc hq'
      exact ⟨v, by simp only [walkEntries]; exact List.mem_cons_of_mem _ hv, hp⟩
  | symlink m tgt rest ih =>
    simp only [Listing.wellFormed, Bool.and_eq_true, decide_eq_true_eq] at hwf
    obtain ⟨⟨hm, _⟩, hrest⟩ := hwf
    by_cases hms : m = s
    · simp only [Listing.find, hms, if_true, Option.some.injEq] at hf
      subst hf
      cases more with
      | cons a b => simp [Node.locate] at hloc
      | nil =>
        refine ⟨_, by simp only [walkEntries]; exact List.mem_cons_self _ _, ?_⟩
        simp only []
        rw [Join_renderPath_name r S m hS hm, hms]
    · simp only [Listing.find, hms, if_false] at hf
      have hq' : ∀ v ∈ walkEntries rest (renderPath r S) x, v.err = none := fun v hv =>
        hq v (by simp only [walkEntries]; exact List.mem_cons_of_mem _ hv)
      obtain ⟨v, hv, hp⟩ := ih S x hrest hS s more n0 hf hloc hq'
      exact ⟨v, by simp only [walkEntries]; exact List.mem_cons_of_mem _ hv, hp⟩
  | dir m q ch rest ihc ih =>
    simp only [Listing.wellFormed, Bool.and_eq_true, decide_eq_true_eq] at hwf
    obtain ⟨⟨⟨hm, _⟩, hch⟩, hrest⟩ := hwf
    have hjoin := Join_renderPath_name r S m hS hm
    by_cases hms : m = s
    · simp only [Listing.find, hms, if_true, Option.some.injEq] at hf
      subst hf
      have hx : x = true := by
        by_contra hx
        rw [Bool.not_eq_true] at hx
        have := hq ⟨Join (renderPath r S) m, some .EACCES⟩ (by simp [walkEntries, hx])
        simp at this
      have hr : q.r = true := by
        by_contra hr
        rw [Bool.not_eq_true] at hr
        have := hq ⟨Join (renderPath r S) m, some .EACCES⟩ (by simp [walkEntries, hx, hr])
        simp at this
      cases more with
      | nil =>
        refine ⟨⟨Join (renderPath r S) m, none⟩, ?_, ?_⟩
        · simp [walkEntries, hr, hx]
        · simp only []
          rw [hjoin, hms]
      | cons s' more' =>
        rw [Node.locate_dir_cons] at hloc
        cases hf' : ch.find s' with
        | none => simp [hf'] at hloc
        | some n1 =>
          simp only [hf'] at hloc
          have hS' : cleanPath r (S ++ [m]) :=
            cleanPath_append_valid r S [m] hS (validNames_singleton m hm).2
          have hq' : ∀ v ∈ walkEntries ch (renderPath r (S ++ [m])) q.x, v.err = none := by
            intro v hv
            apply hq v
            simp only [walkEntries, if_true, hr, hx, hjoin]
            exact List.mem_append_left _ (List.mem_cons_of_mem _ hv)
          obtain ⟨v, hv, hp⟩ := ihc (S ++ [m]) q.x hch hS' s' more' n1 hf' hloc hq'
          refine ⟨v, ?_, ?_⟩
          · simp only [walkEntries, if_true, hr, hx, hjoin]
            exact List.mem_append_left _ (List.mem_cons_of_mem _ hv)
          · rw [hp, ← hms]
            simp
    · simp only [Listing.find, hms, if_false] at hf
      have hq' : ∀ v ∈ walkEntries rest (renderPath r S) x, v.err = none := fun v hv =>
        hq v (by simp only [walkEntries]; exact List.mem_append_right _ hv)
      obtain ⟨v, hv, hp⟩ := ih S x hrest hS s more n0 hf hloc hq'
      exact ⟨v, by simp only [walkEntries]; exact List.mem_append_right _ hv, hp⟩

/-! ### The collection step -/

theorem addNewPath_paths (c : Client) (p : Str) :
    c.addNewPath p
      = { c with paths := c.paths ++ (if wantExtentions.contains (Ext p) then [p] else []) } := by
  unfold Client.addNewPath
  split <;> simp

theorem foldl_walkFn (rootPath : Str) (s : State) (vs : List Visit) :
    vs.foldl (walkFn rootPath) s
      = { fs := s.fs,
          c := { s.c with paths := s.c.paths ++ collected rootPath vs },
          trace := s.trace ++ vs.map (fun v => Op.visit v.path v.err) } := by
  induction vs generalizing s with
  | nil => simp [collected]
  | cons v vs ih =>
    rw [List.foldl_cons, ih]
    simp only [walkFn, State.did, addNewPath_paths, collected, List.filterMap_cons, List.map_cons]
    split <;> simp

theorem filepathWalk_eq (fs : FS) (root : Str) :
    filepathWalk fs root = visitsOf (Lstat fs root) root := by
  rfl

theorem walk_eq (s : State) (rootPath subPath : Str) :
    walk s rootPath subPath
      = walkResult (Stat s.fs (Join rootPath subPath)) (Lstat s.fs (Join rootPath subPath))
          s rootPath subPath := by
  unfold walk walkResult
  simp only [filepathWalk_eq, State.did]

/-- On a filesystem without links `filepath.Walk` sees the root as `os.Stat`
does. -/
theorem walk_eq_plain (s : State) (rootPath subPath : Str)
    (hlf : s.fs.rootNode.plainAlong (locate s.fs.cwd (Join rootPath subPath)) = true) :
    walk s rootPath subPath
      = walkResult (Stat s.fs (Join rootPath subPath)) (Stat s.fs (Join rootPath subPath))
          s rootPath subPath := by
  rw [walk_eq, Lstat_eq_Stat _ _ hlf]

theorem Node.IsDir_shape (n : Node) : n.shape.IsDir = n.IsDir := by
  cases n <;> rfl

theorem visitsOf_shape (st : Except Errno Node) (root : Str) :
    visitsOf (shapeOf st) root = visitsOf st root := by
  cases st with
  | error e => rfl
  | ok n =>
    cases n with
    | file p c => rfl
    | dir p ch => simp [shapeOf, Node.shape, visitsOf, walkEntries_shape]
    | hardlink t => rfl
    | symlink t => rfl

theorem walkResult_shape (st lst : Except Errno Node) (s : State) (rootPath subPath : Str) :
    walkResult (shapeOf st) (shapeOf lst) s rootPath subPath
      = walkResult st lst s rootPath subPath := by
  have h := visitsOf_shape lst (Join rootPath subPath)
  cases st with
  | error e => rfl
  | ok n =>
    show walkResult (.ok n.shape) (shapeOf lst) s rootPath subPath = _
    simp only [walkResult, Node.IsDir_shape, h]

theorem walkResult_withFs (st lst : Except Errno Node) (s : State) (fs : FS)
    (rootPath subPath : Str) :
    walkResult st lst (s.withFs fs) rootPath subPath
      = (walkResult st lst s rootPath subPath).withFs fs := by
  cases st with
  | error e => rfl
  | ok n =>
    simp only [walkResult, foldl_walkFn, State.did, State.withFs]
    split <;> rfl

theorem mem_collected (rootPath : Str) (vs : List Visit) (a : Str) :
    a ∈ collected rootPath vs
      ↔ ∃ v ∈ vs, (Rel rootPath v.path).getD [] = a ∧ wantExtentions.contains (Ext a) = true := by
  unfold collected
  rw [List.mem_filterMap]
  constructor
  · rintro ⟨v, hv, h⟩
    refine ⟨v, hv, ?_⟩
    simp only at h
    split at h
    · rename_i hc
      simp only [Option.some.injEq] at h
      rw [← h]
      exact ⟨rfl, hc⟩
    · simp at h
  · rintro ⟨v, hv, h1, h2⟩
    refine ⟨v, hv, ?_⟩
    simp only
    rw [h1, if_pos h2]

/-- The visits of a walk of a directory found at `root/sub`, for a subpath made
of names: each is at the subpath followed by names that lead to something. -/
theorem visitsOf_sound (fs : FS) (root : Str) (P : List Str) (n : Node)
    (hwf : fs.wellFormed = true) (hlf : fs.plainTree root = true) (hP : validNames P)
    (hst : Stat fs (Join root (joinSlash P)) = .ok n) :
    ∀ v ∈ visitsOf (.ok n) (Join root (joinSlash P)),
      ∃ names, (∀ k ∈ names, validName k = true)
        ∧ v.path = renderPath (isRooted root) (rootElems root ++ (P ++ names))
        ∧ fs.nodeAt (locate fs.cwd root ++ P ++ names) ≠ none := by
  have hfull := Join_root root P hP
  have hloc := locate_Join fs.cwd root P hP
  obtain ⟨_, hlk⟩ := Stat_ok fs _ n (FS.plainTree_Join fs root P hlf hP) hst
  rw [hloc] at hlk
  have hat : fs.rootNode.locate (locate fs.cwd root ++ P) = some n :=
    Node.lookup_ok_locate _ _ _ hlk
  have hself : ∃ names, (∀ k ∈ names, validName k = true)
      ∧ Join root (joinSlash P) = renderPath (isRooted root) (rootElems root ++ (P ++ names))
      ∧ fs.nodeAt (locate fs.cwd root ++ P ++ names) ≠ none := by
    refine ⟨[], by simp, by simpa using hfull, ?_⟩
    simp [FS.nodeAt, hat]
  intro v hv
  cases n with
  | file p c =>
    simp only [visitsOf, List.mem_singleton] at hv
    rw [hv]; exact hself
  | hardlink t =>
    simp only [visitsOf, List.mem_singleton] at hv
    rw [hv]; exact hself
  | symlink t =>
    simp only [visitsOf, List.mem_singleton] at hv
    rw [hv]; exact hself
  | dir p ch =>
    simp only [visitsOf] at hv
    split at hv
    · rcases List.mem_cons.mp hv with hv | hv
      · rw [hv]; exact hself
      · rw [hfull] at hv
        have hS := cleanPath_append_valid _ _ P (cleanPath_rootElems root) hP.2
        have hch : ch.wellFormed = true :=
          Node.wellFormed_locate _ _ _ (FS.wellFormed_root fs hwf) hat
        obtain ⟨names, hn, hp, hl⟩ := walkEntries_sound ch _ _ p.x p hch hS v hv
        refine ⟨names, hn.2, by rw [hp, List.append_assoc], ?_⟩
        unfold FS.nodeAt
        rw [Node.locate_append, hat]
        exact hl
    · simp only [List.mem_singleton] at hv
      rw [hv]; exact hself

theorem validNames_append (P names : List Str) (hP : validNames P)
    (hn : ∀ k ∈ names, validName k = true) : validNames (P ++ names) := by
  refine ⟨fun e => hP.1 (List.append_eq_nil.mp e).1, ?_⟩
  intro k hk
  rcases List.mem_append.mp hk with h | h
  · exact hP.2 k h
  · exact hn k h

/-- The paths a walk of `root/sub` appends, for a subpath made of names: the
outcome keeps the filesystem and the roots, and appends paths collected from the
subpath. -/
theorem walk_appends (s : State) (root : Str) (P : List Str)
    (hwf : s.fs.wellFormed = true) (hlf : s.fs.plainTree root = true) (hP : validNames P) :
    (walk s root (joinSlash P)).state.fs = s.fs
      ∧ (walk s root (joinSlash P)).state.c.srcPath = s.c.srcPath
      ∧ (walk s root (joinSlash P)).state.c.dstPath = s.c.dstPath
      ∧ ∃ added, (walk s root (joinSlash P)).state.c.paths = s.c.paths ++ added
          ∧ ∀ a ∈ added, collectedFrom s.fs (locate s.fs.cwd root) P a := by
  rw [walk_eq_plain s root _ (FS.plainTree_Join s.fs root P hlf hP)]
  cases hst : Stat s.fs (Join root (joinSlash P)) with
  | error e =>
    refine ⟨rfl, rfl, rfl, [], by simp [walkResult, Outcome.state, State.did], ?_⟩
    intro a ha; cases ha
  | ok n =>
    have hvis := visitsOf_sound s.fs root P n hwf hlf hP hst
    have hself := hvis ⟨Join root (joinSlash P), none⟩
    by_cases hd : n.IsDir = true
    · have hform : walkResult (.ok n) (.ok n) s root (joinSlash P)
          = .done { fs := s.fs,
                    c := { s.c with paths := (s.c.paths
                      ++ collected root (visitsOf (.ok n) (Join root (joinSlash P)))) },
                    trace := (s.trace ++ [Op.stat (Join root (joinSlash P)) none]
                      ++ (visitsOf (.ok n) (Join root (joinSlash P))).map
                        (fun v => Op.visit v.path v.err)) } := by
        simp only [walkResult, hd, if_true, foldl_walkFn, State.did]
      rw [hform]
      refine ⟨rfl, rfl, rfl, _, rfl, ?_⟩
      intro a ha
      obtain ⟨v, hv, hrel, _⟩ := (mem_collected root _ a).mp ha
      obtain ⟨names, hn, hp, hl⟩ := hvis v hv
      refine ⟨names, hn, ?_, hl⟩
      rw [hp, Rel_below root (P ++ names) (validNames_append P names hP hn)] at hrel
      simpa using hrel.symm
    · have hform : walkResult (.ok n) (.ok n) s root (joinSlash P)
          = .done { fs := s.fs,
                    c := { s.c with paths := (s.c.paths
                      ++ (if wantExtentions.contains (Ext (joinSlash P)) then [joinSlash P]
                          else [])) },
                    trace := s.trace ++ [Op.stat (Join root (joinSlash P)) none] } := by
        simp only [walkResult, hd, State.did, addNewPath_paths]
        rfl
      rw [hform]
      refine ⟨rfl, rfl, rfl, _, rfl, ?_⟩
      intro a ha
      split at ha
      · rw [List.mem_singleton] at ha
        have hvs : visitsOf (.ok n) (Join root (joinSlash P))
            = [⟨Join root (joinSlash P), none⟩] := by
          cases n with
          | dir p ch => simp [Node.IsDir] at hd
          | file p c => rfl
          | hardlink t => rfl
          | symlink t => rfl
        · obtain ⟨names, hn, hp, hl⟩ := hself (by simp [hvs])
          have hnil : names = [] := by
            have h1 := Join_root root P hP
            simp only at hp
            rw [h1] at hp
            have h2 := renderPath_injective _ _ _
              (cleanPath_append_valid _ _ P (cleanPath_rootElems root) hP.2)
              (cleanPath_append_valid _ _ (P ++ names) (cleanPath_rootElems root)
                (validNames_append P names hP hn).2) hp
            simpa using h2
          subst hnil
          exact ⟨[], hn, by simpa using ha, hl⟩
      · cases ha

theorem walk_fs (s : State) (rootPath subPath : Str) :
    (walk s rootPath subPath).state.fs = s.fs
      ∧ (walk s rootPath subPath).state.c.srcPath = s.c.srcPath
      ∧ (walk s rootPath subPath).state.c.dstPath = s.c.dstPath := by
  rw [walk_eq]
  cases hst : Stat s.fs (Join rootPath subPath) with
  | error e => exact ⟨rfl, rfl, rfl⟩
  | ok n =>
    simp only [walkResult, foldl_walkFn, State.did, addNewPath_paths]
    split <;> exact ⟨rfl, rfl, rfl⟩

theorem walkEach_fs (s : State) (rootPath : Str) (subs : List Str) :
    (walkEach s rootPath subs).state.fs = s.fs
      ∧ (walkEach s rootPath subs).state.c.srcPath = s.c.srcPath
      ∧ (walkEach s rootPath subs).state.c.dstPath = s.c.dstPath := by
  induction subs generalizing s with
  | nil => exact ⟨rfl, rfl, rfl⟩
  | cons sub rest ih =>
    have hw := walk_fs s rootPath sub
    unfold walkEach
    cases h : walk s rootPath sub with
    | fatal s' f =>
      rw [h] at hw
      exact hw
    | done s' =>
      rw [h] at hw
      simp only [Outcome.state] at hw
      have := ih s'
      simp only []
      rw [hw.1, hw.2.1, hw.2.2] at this
      exact this

/-- The paths the walks of a list of subpaths append. -/
theorem walkEach_appends (s : State) (root : Str) (Ps : List (List Str))
    (hwf : s.fs.wellFormed = true) (hlf : s.fs.plainTree root = true)
    (hPs : ∀ P ∈ Ps, validNames P) :
    ∃ added, (walkEach s root (Ps.map joinSlash)).state.c.paths = s.c.paths ++ added
      ∧ ∀ a ∈ added, ∃ P ∈ Ps, collectedFrom s.fs (locate s.fs.cwd root) P a := by
  induction Ps generalizing s with
  | nil => exact ⟨[], by simp [walkEach, Outcome.state], by intro a ha; cases ha⟩
  | cons P rest ih =>
    obtain ⟨hfs, _, _, added, hadd, hfrom⟩ :=
      walk_appends s root P hwf hlf (hPs P (List.mem_cons_self _ _))
    simp only [List.map_cons, walkEach]
    cases h : walk s root (joinSlash P) with
    | fatal s' f =>
      rw [h] at hadd
      refine ⟨added, hadd, ?_⟩
      intro a ha
      exact ⟨P, List.mem_cons_self _ _, hfrom a ha⟩
    | done s' =>
      rw [h] at hadd hfs
      simp only [Outcome.state] at hadd hfs
      obtain ⟨added', hadd', hfrom'⟩ :=
        ih s' (by rw [hfs]; exact hwf) (by rw [hfs]; exact hlf)
          (fun Q hQ => hPs Q (List.mem_cons_of_mem _ hQ))
      refine ⟨added ++ added', ?_, ?_⟩
      · simp only []
        rw [hadd', hadd, List.append_assoc]
      · intro a ha
        rcases List.mem_append.mp ha with ha | ha
        · exact ⟨P, List.mem_cons_self _ _, hfrom a ha⟩
        · obtain ⟨Q, hQ, hc⟩ := hfrom' a ha
          rw [hfs] at hc
          exact ⟨Q, List.mem_cons_of_mem _ hQ, hc⟩

theorem optionalConfigPaths_eq : optionalConfigPaths = optionalElems.map joinSlash := by decide

theorem requiredConfigPaths_eq : requiredConfigPaths = requiredElems.map joinSlash := by decide

theorem optionalElems_valid : ∀ P ∈ optionalElems, validNames P := by
  intro P hP
  simp only [optionalElems, List.mem_cons, List.mem_singleton, List.not_mem_nil, or_false] at hP
  rcases hP with h | h <;> subst h <;> exact ⟨by simp, by decide⟩

theorem requiredElems_valid : ∀ P ∈ requiredElems, validNames P := by
  intro P hP
  simp only [requiredElems, List.mem_singleton] at hP
  subst hP
  exact ⟨by simp, by decide⟩

/-- The outcome of the collection step: the filesystem is the one given, the
roots are the flags, and the paths are those collected from the optional
subpaths against the destination root followed by those collected from the
required subpaths against the source root. -/
theorem collect_paths (fs : FS) (o : Options) (hwf : fs.wellFormed = true)
    (hsrc : fs.plainTree o.srcPath = true) (hdst : fs.plainTree o.dstPath = true) :
    (collect fs o).state.fs = fs
      ∧ (collect fs o).state.c.srcPath = o.srcPath
      ∧ (collect fs o).state.c.dstPath = o.dstPath
      ∧ (∀ a ∈ optionalCollected fs o,
          ∃ P ∈ optionalElems, collectedFrom fs (locate fs.cwd o.dstPath) P a)
      ∧ ∃ req, (collect fs o).state.c.paths = optionalCollected fs o ++ req
          ∧ ∀ a ∈ req, ∃ P ∈ requiredElems, collectedFrom fs (locate fs.cwd o.srcPath) P a := by
  have hopt := walkEach_appends
    { fs := fs, c := { srcPath := o.srcPath, dstPath := o.dstPath, paths := [] },
      trace := [.logOptional o.srcPath] } o.dstPath optionalElems hwf hdst optionalElems_valid
  have hoptfs := walkEach_fs
    { fs := fs, c := { srcPath := o.srcPath, dstPath := o.dstPath, paths := [] },
      trace := [.logOptional o.srcPath] } o.dstPath optionalConfigPaths
  rw [← optionalConfigPaths_eq] at hopt
  obtain ⟨added, hadd, hfrom⟩ := hopt
  have hoc : optionalCollected fs o = added := by
    unfold optionalCollected
    rw [hadd]; rfl
  have hfrom' : ∀ a ∈ optionalCollected fs o,
      ∃ P ∈ optionalElems, collectedFrom fs (locate fs.cwd o.dstPath) P a := by
    rw [hoc]; exact hfrom
  unfold collect
  simp only []
  cases h : walkEach
      { fs := fs, c := { srcPath := o.srcPath, dstPath := o.dstPath, paths := [] },
        trace := [.logOptional o.srcPath] } o.dstPath optionalConfigPaths with
  | fatal s f =>
    rw [h] at hoptfs hadd
    simp only [Outcome.state] at hoptfs hadd ⊢
    refine ⟨hoptfs.1, hoptfs.2.1, hoptfs.2.2, hfrom', [], ?_, ?_⟩
    · rw [hoc, hadd]; simp
    · intro a ha; cases ha
  | done s =>
    rw [h] at hoptfs hadd
    simp only [Outcome.state] at hoptfs hadd
    have hreqfs := walkEach_fs (s.did (.logRequired s.c.dstPath)) s.c.srcPath requiredConfigPaths
    have hreq := walkEach_appends (s.did (.logRequired s.c.dstPath)) s.c.srcPath requiredElems
      (by simp only [State.did]; rw [hoptfs.1]; exact hwf)
      (by simp only [State.did]; rw [hoptfs.1, hoptfs.2.1]; exact hsrc) requiredElems_valid
    rw [← requiredConfigPaths_eq] at hreq
    obtain ⟨req, hreqadd, hreqfrom⟩ := hreq
    simp only [State.did] at hreqfs hreqadd hreqfrom ⊢
    refine ⟨by rw [hreqfs.1, hoptfs.1], by rw [hreqfs.2.1, hoptfs.2.1],
      by rw [hreqfs.2.2, hoptfs.2.2], hfrom', req, ?_, ?_⟩
    · rw [hreqadd, hadd, hoc]; simp
    · intro a ha
      have := hreqfrom a ha
      rw [hoptfs.1, hoptfs.2.1] at this
      exact this


/-! #### The collected paths are made of names -/

/-- The visits of a walk of `root/sub`, for a subpath made of names: each is at
the subpath followed by names. -/
theorem visitsOf_paths (fs : FS) (root : Str) (P : List Str) (hwf : fs.wellFormed = true)
    (hP : validNames P) :
    ∀ v ∈ visitsOf (Lstat fs (Join root (joinSlash P))) (Join root (joinSlash P)),
      ∃ names, (∀ k ∈ names, validName k = true)
        ∧ v.path = renderPath (isRooted root) (rootElems root ++ (P ++ names)) := by
  have hfull := Join_root root P hP
  have hself : ∃ names : List Str, (∀ k ∈ names, validName k = true)
      ∧ Join root (joinSlash P) = renderPath (isRooted root) (rootElems root ++ (P ++ names)) :=
    ⟨[], by simp, by simpa using hfull⟩
  intro v hv
  cases hl : Lstat fs (Join root (joinSlash P)) with
  | error e =>
    simp only [hl, visitsOf, List.mem_singleton] at hv
    rw [hv]; exact hself
  | ok n =>
    rw [hl] at hv
    cases n with
    | file p c =>
      simp only [visitsOf, List.mem_singleton] at hv
      rw [hv]; exact hself
    | hardlink t =>
      simp only [visitsOf, List.mem_singleton] at hv
      rw [hv]; exact hself
    | symlink t =>
      simp only [visitsOf, List.mem_singleton] at hv
      rw [hv]; exact hself
    | dir p ch =>
      simp only [visitsOf] at hv
      split at hv
      · rcases List.mem_cons.mp hv with hv | hv
        · rw [hv]; exact hself
        · rw [hfull] at hv
          have hS := cleanPath_append_valid _ _ P (cleanPath_rootElems root) hP.2
          have hch : ch.wellFormed = true := Lstat_wellFormed fs _ p ch hwf hl
          obtain ⟨names, hn, hp, _⟩ := walkEntries_sound ch _ _ p.x p hch hS v hv
          exact ⟨names, hn.2, by rw [hp, List.append_assoc]⟩
      · simp only [List.mem_singleton] at hv
        rw [hv]; exact hself

/-- Every path a walk appends for a subpath made of names is made of names,
whatever links the filesystem has. -/
theorem walk_plainPaths (s : State) (root : Str) (P : List Str)
    (hwf : s.fs.wellFormed = true) (hP : validNames P)
    (hs : ∀ a ∈ s.c.paths, plainPath a) :
    ∀ a ∈ (walk s root (joinSlash P)).state.c.paths, plainPath a := by
  rw [walk_eq]
  cases hst : Stat s.fs (Join root (joinSlash P)) with
  | error e => exact hs
  | ok n =>
    by_cases hd : n.IsDir = true
    · have hform : walkResult (.ok n) (Lstat s.fs (Join root (joinSlash P))) s root (joinSlash P)
          = .done { fs := s.fs,
                    c := { s.c with paths := (s.c.paths
                      ++ collected root (visitsOf (Lstat s.fs (Join root (joinSlash P)))
                          (Join root (joinSlash P)))) },
                    trace := (s.trace ++ [Op.stat (Join root (joinSlash P)) none]
                      ++ (visitsOf (Lstat s.fs (Join root (joinSlash P)))
                          (Join root (joinSlash P))).map
                        (fun v => Op.visit v.path v.err)) } := by
        simp only [walkResult, hd, if_true, foldl_walkFn, State.did]
      rw [hform]
      intro a ha
      rcases List.mem_append.mp ha with ha | ha
      · exact hs a ha
      · obtain ⟨v, hv, hrel, _⟩ := (mem_collected root _ a).mp ha
        obtain ⟨names, hn, hp⟩ := visitsOf_paths s.fs root P hwf hP v hv
        rw [hp, Rel_below root (P ++ names) (validNames_append P names hP hn)] at hrel
        exact ⟨P ++ names, validNames_append P names hP hn, by simpa using hrel.symm⟩
    · have hform : walkResult (.ok n) (Lstat s.fs (Join root (joinSlash P))) s root (joinSlash P)
          = .done { fs := s.fs,
                    c := { s.c with paths := (s.c.paths
                      ++ (if wantExtentions.contains (Ext (joinSlash P)) then [joinSlash P]
                          else [])) },
                    trace := s.trace ++ [Op.stat (Join root (joinSlash P)) none] } := by
        simp only [walkResult, hd, State.did, addNewPath_paths]
        rfl
      rw [hform]
      intro a ha
      rcases List.mem_append.mp ha with ha | ha
      · exact hs a ha
      · split at ha
        · rw [List.mem_singleton] at ha
          exact ⟨P, hP, ha⟩
        · cases ha

theorem walkEach_plainPaths (s : State) (root : Str) (Ps : List (List Str))
    (hwf : s.fs.wellFormed = true) (hPs : ∀ P ∈ Ps, validNames P)
    (hs : ∀ a ∈ s.c.paths, plainPath a) :
    ∀ a ∈ (walkEach s root (Ps.map joinSlash)).state.c.paths, plainPath a := by
  induction Ps generalizing s with
  | nil => exact hs
  | cons P rest ih =>
    have h1 := walk_plainPaths s root P hwf (hPs P (List.mem_cons_self _ _)) hs
    have hfs := (walk_fs s root (joinSlash P)).1
    simp only [List.map_cons, walkEach]
    cases h : walk s root (joinSlash P) with
    | fatal s' f =>
      rw [h] at h1
      exact h1
    | done s' =>
      rw [h] at h1 hfs
      simp only [Outcome.state] at h1 hfs
      exact ih s' (by rw [hfs]; exact hwf) (fun Q hQ => hPs Q (List.mem_cons_of_mem _ hQ)) h1

/-- The collected paths are relative paths made of names. -/
theorem collectedPaths_plain (fs : FS) (o : Options) (hwf : fs.wellFormed = true) :
    ∀ p ∈ collectedPaths fs o, plainPath p := by
  have h1 := walkEach_plainPaths
    { fs := fs, c := { srcPath := o.srcPath, dstPath := o.dstPath, paths := [] },
      trace := [.logOptional o.srcPath] } o.dstPath optionalElems hwf optionalElems_valid
    (by intro a ha; cases ha)
  have hfs := walkEach_fs
    { fs := fs, c := { srcPath := o.srcPath, dstPath := o.dstPath, paths := [] },
      trace := [.logOptional o.srcPath] } o.dstPath optionalConfigPaths
  rw [← optionalConfigPaths_eq] at h1
  unfold collectedPaths collect
  simp only []
  cases h : walkEach
      { fs := fs, c := { srcPath := o.srcPath, dstPath := o.dstPath, paths := [] },
        trace := [.logOptional o.srcPath] } o.dstPath optionalConfigPaths with
  | fatal s f =>
    rw [h] at h1
    exact h1
  | done s =>
    rw [h] at h1 hfs
    simp only [Outcome.state] at h1 hfs
    have h2 := walkEach_plainPaths (s.did (.logRequired s.c.dstPath))
      (s.did (.logRequired s.c.dstPath)).c.srcPath requiredElems
      (by simp only [State.did]; rw [hfs.1]; exact hwf) requiredElems_valid h1
    rw [← requiredConfigPaths_eq] at h2
    exact h2

/-! ### The copy loop -/

/-- The three ways one round of the copy loop goes. -/
theorem copyEach_cases (s : State) (p : Str) (rest : List Str) :
    (∃ e, ReadFile s.fs (Join s.c.srcPath p) = .error e
        ∧ copyEach s (p :: rest)
          = .fatal (s.did (.read (Join s.c.srcPath p) (.error e)))
              (.read (Join s.c.srcPath p) e))
    ∨ (∃ c e, ReadFile s.fs (Join s.c.srcPath p) = .ok c
        ∧ WriteFile s.fs (Join s.c.dstPath p) c = .error e
        ∧ copyEach s (p :: rest)
          = .fatal ((s.did (.read (Join s.c.srcPath p) (.ok c))).did
                (.write (Join s.c.dstPath p) c (some e)))
              (.write (Join s.c.dstPath p) e))
    ∨ (∃ c fs1, ReadFile s.fs (Join s.c.srcPath p) = .ok c
        ∧ WriteFile s.fs (Join s.c.dstPath p) c = .ok fs1
        ∧ copyEach s (p :: rest) = copyEach (copied s p c fs1) rest) := by
  cases hr : ReadFile s.fs (Join s.c.srcPath p) with
  | error e =>
    left
    exact ⟨e, rfl, by simp [copyEach, hr]⟩
  | ok c =>
    right
    cases hw : WriteFile s.fs (Join s.c.dstPath p) c with
    | error e =>
      left
      exact ⟨c, e, rfl, hw, by simp [copyEach, hr, hw, State.did]⟩
    | ok fs1 =>
      right
      exact ⟨c, fs1, rfl, hw, by simp [copyEach, hr, hw, State.did, copied]⟩

/-- The copy loop keeps the client and the working directory, and only adds to
what was done. -/
theorem copyEach_keeps (s : State) (ps : List Str) :
    (copyEach s ps).state.c = s.c ∧ (copyEach s ps).state.fs.cwd = s.fs.cwd
      ∧ ∃ t, (copyEach s ps).state.trace = s.trace ++ t := by
  induction ps generalizing s with
  | nil => exact ⟨rfl, rfl, [], by simp [copyEach, Outcome.state]⟩
  | cons p rest ih =>
    rcases copyEach_cases s p rest with ⟨e, _, h⟩ | ⟨c, e, _, _, h⟩ | ⟨c, fs1, _, hw, h⟩
    · rw [h]
      exact ⟨rfl, rfl, _, rfl⟩
    · rw [h]
      exact ⟨rfl, rfl, [.read (Join s.c.srcPath p) (.ok c),
        .write (Join s.c.dstPath p) c (some e)], by simp [Outcome.state, State.did]⟩
    · rw [h]
      obtain ⟨h1, h2, t, h3⟩ := ih (copied s p c fs1)
      refine ⟨h1, ?_, [.read (Join s.c.srcPath p) (.ok c),
        .write (Join s.c.dstPath p) c none] ++ t, ?_⟩
      · rw [h2]
        exact (WriteFile_fields _ _ _ _ hw).1
      · rw [h3]
        simp only [copied, List.append_assoc]

theorem copied_plainTree (s : State) (p : Str) (c : Bytes) (fs1 : FS) (root : Str)
    (hdst : s.fs.plainTree s.c.dstPath = true) (hp : plainPath p)
    (hw : WriteFile s.fs (Join s.c.dstPath p) c = .ok fs1) (h : s.fs.plainTree root = true) :
    (copied s p c fs1).fs.plainTree root = true :=
  WriteFile_plainTree s.fs fs1 _ root c (FS.plainTree_plainPath _ _ _ hdst hp) hw h

/-- The copy loop keeps a tree free of links when the destination tree is, and
keeps the umask. -/
theorem copyEach_plainTree (s : State) (ps : List Str) (root : Str)
    (hlf : s.fs.plainTree s.c.dstPath = true) (hps : ∀ p ∈ ps, plainPath p)
    (h : s.fs.plainTree root = true) :
    (copyEach s ps).state.fs.plainTree root = true
      ∧ (copyEach s ps).state.fs.umask = s.fs.umask := by
  induction ps generalizing s with
  | nil => exact ⟨h, rfl⟩
  | cons p rest ih =>
    rcases copyEach_cases s p rest with ⟨e, _, h'⟩ | ⟨c, e, _, _, h'⟩ | ⟨c, fs1, _, hw, h'⟩
    · rw [h']; exact ⟨h, rfl⟩
    · rw [h']; exact ⟨h, rfl⟩
    · rw [h']
      have := ih (copied s p c fs1) (copied_plainTree s p c fs1 _ hlf (hps p (List.mem_cons_self _ _)) hw hlf)
        (fun r hr => hps r (List.mem_cons_of_mem _ hr))
        (copied_plainTree s p c fs1 root hlf (hps p (List.mem_cons_self _ _)) hw h)
      refine ⟨this.1, ?_⟩
      rw [this.2]
      exact (WriteFile_fields _ _ _ _ hw).2.2

/-- The copy loop changes the filesystem at the destinations of the copied
paths only. -/
theorem copyEach_frame (s : State) (ps : List Str) (L : List Str)
    (hlf : s.fs.plainTree s.c.dstPath = true) (hps : ∀ p ∈ ps, plainPath p)
    (hne : ∀ p ∈ ps, locate s.fs.cwd (Join s.c.dstPath p) ≠ L) :
    (copyEach s ps).state.fs.kindAt L = s.fs.kindAt L := by
  induction ps generalizing s with
  | nil => rfl
  | cons p rest ih =>
    rcases copyEach_cases s p rest with ⟨e, _, h⟩ | ⟨c, e, _, _, h⟩ | ⟨c, fs1, _, hw, h⟩
    · rw [h]; rfl
    · rw [h]; rfl
    · rw [h]
      obtain ⟨_, hwr, hcwd, _⟩ := WriteFile_ok _ _ _ _ (FS.plainTree_plainPath _ _ _ hlf (hps p (List.mem_cons_self _ _))) hw
      have h1 := ih (copied s p c fs1) (copied_plainTree s p c fs1 _ hlf (hps p (List.mem_cons_self _ _)) hw hlf)
        (fun r hr => hps r (List.mem_cons_of_mem _ hr)) (by
        intro q hq
        simp only [copied]
        rw [hcwd]
        exact hne q (List.mem_cons_of_mem _ hq))
      rw [h1]
      simp only [copied, FS.kindAt, FS.nodeAt]
      exact Node.kind_write_frame _ _ _ L c _ hwr
        (fun e => hne p (List.mem_cons_self _ _) e.symm)

/-- The copy loop leaves a file as it is unless it writes to it. -/
theorem copyEach_keeps_file (s : State) (ps : List Str) (L : List Str) (q : Perm) (c : Bytes)
    (hlf : s.fs.plainTree s.c.dstPath = true) (hps : ∀ p ∈ ps, plainPath p)
    (hl : s.fs.rootNode.lookup L = .ok (.file q c))
    (hne : ∀ p ∈ ps, locate s.fs.cwd (Join s.c.dstPath p) ≠ L) :
    (copyEach s ps).state.fs.rootNode.lookup L = .ok (.file q c) := by
  induction ps generalizing s with
  | nil => exact hl
  | cons p rest ih =>
    rcases copyEach_cases s p rest with ⟨e, _, h⟩ | ⟨c', e, _, _, h⟩ | ⟨c', fs1, _, hw, h⟩
    · rw [h]; exact hl
    · rw [h]; exact hl
    · rw [h]
      obtain ⟨_, hwr, hcwd, _⟩ := WriteFile_ok _ _ _ _ (FS.plainTree_plainPath _ _ _ hlf (hps p (List.mem_cons_self _ _))) hw
      apply ih (copied s p c' fs1) (copied_plainTree s p c' fs1 _ hlf (hps p (List.mem_cons_self _ _)) hw hlf)
        (fun r hr => hps r (List.mem_cons_of_mem _ hr))
      · simp only [copied]
        exact Node.lookup_write_file_other _ _ L _ c c' q _ hwr hl
          (fun e => hne p (List.mem_cons_self _ _) e.symm)
      · intro r hr
        simp only [copied]
        rw [hcwd]
        exact hne r (List.mem_cons_of_mem _ hr)

/-- The copy loop leaves alone whatever lies where no destination leads. -/
theorem copyEach_keeps_lookup (s : State) (ps : List Str) (L : List Str)
    (hlf : s.fs.plainTree s.c.dstPath = true) (hps : ∀ p ∈ ps, plainPath p)
    (hd : ∀ p ∈ ps, diverge L (locate s.fs.cwd (Join s.c.dstPath p)) = true) :
    (copyEach s ps).state.fs.rootNode.lookup L = s.fs.rootNode.lookup L := by
  induction ps generalizing s with
  | nil => rfl
  | cons p rest ih =>
    rcases copyEach_cases s p rest with ⟨e, _, h⟩ | ⟨c', e, _, _, h⟩ | ⟨c', fs1, _, hw, h⟩
    · rw [h]; rfl
    · rw [h]; rfl
    · rw [h]
      obtain ⟨_, hwr, hcwd, _⟩ := WriteFile_ok _ _ _ _ (FS.plainTree_plainPath _ _ _ hlf (hps p (List.mem_cons_self _ _))) hw
      rw [ih (copied s p c' fs1) (copied_plainTree s p c' fs1 _ hlf (hps p (List.mem_cons_self _ _)) hw hlf)
        (fun r hr => hps r (List.mem_cons_of_mem _ hr)) (by
        intro r hr
        simp only [copied]
        rw [hcwd]
        exact hd r (List.mem_cons_of_mem _ hr))]
      simp only [copied]
      exact (Node.lookup_write_diverge _ _ _ L c' _ hwr (hd p (List.mem_cons_self _ _))).1

theorem locate_dst_injective (cwd : List Str) (root p p' : Str) (hp : plainPath p)
    (hp' : plainPath p') (h : locate cwd (Join root p) = locate cwd (Join root p')) : p = p' := by
  obtain ⟨Q, hQ, rfl⟩ := hp
  obtain ⟨Q', hQ', rfl⟩ := hp'
  rw [locate_Join cwd root Q hQ, locate_Join cwd root Q' hQ'] at h
  rw [List.append_cancel_left h]

theorem copyEach_step (s : State) (p : Str) (rest : List Str) (c : Bytes) (fs1 : FS)
    (hr : ReadFile s.fs (Join s.c.srcPath p) = .ok c)
    (hw : WriteFile s.fs (Join s.c.dstPath p) c = .ok fs1) :
    copyEach s (p :: rest) = copyEach (copied s p c fs1) rest := by
  simp [copyEach, hr, hw, State.did, copied]

/-- After the copy loop has returned, every copied path names a file at the
destination that holds the content read for it from the source: the content the
source path led to in the filesystem as it was when the loop came to one of the
places of the path in the list. -/
theorem copyEach_content (s s' : State) (ps : List Str)
    (hlf : s.fs.plainTree s.c.dstPath = true)
    (hps : ∀ p ∈ ps, plainPath p) (h : copyEach s ps = .done s') :
    ∃ t, s'.trace = s.trace ++ t ∧ ∀ p ∈ ps, ∃ i c q, ps[i]? = some p
        ∧ ReadFile (copyEach s (ps.take i)).state.fs (Join s.c.srcPath p) = .ok c
        ∧ Op.read (Join s.c.srcPath p) (.ok c) ∈ t
        ∧ s'.fs.rootNode.lookup (locate s.fs.cwd (Join s.c.dstPath p)) = .ok (.file q c) := by
  induction ps generalizing s with
  | nil =>
    simp only [copyEach, Outcome.done.injEq] at h
    subst h
    exact ⟨[], by simp, by intro p hp; cases hp⟩
  | cons p rest ih =>
    rcases copyEach_cases s p rest with ⟨e, _, h'⟩ | ⟨c, e, _, _, h'⟩ | ⟨c, fs1, hrd, hw, h'⟩
    · rw [h'] at h; cases h
    · rw [h'] at h; cases h
    · rw [h'] at h
      obtain ⟨_, hwr, hcwd, _⟩ := WriteFile_ok _ _ _ _ (FS.plainTree_plainPath _ _ _ hlf (hps p (List.mem_cons_self _ _))) hw
      have hlf1 := copied_plainTree s p c fs1 _ hlf (hps p (List.mem_cons_self _ _)) hw hlf
      obtain ⟨t1, ht1, hall⟩ := ih (copied s p c fs1) hlf1
        (fun r hr => hps r (List.mem_cons_of_mem _ hr)) h
      refine ⟨[.read (Join s.c.srcPath p) (.ok c), .write (Join s.c.dstPath p) c none] ++ t1,
        ?_, ?_⟩
      · rw [ht1]; simp [copied]
      · intro r hr
        by_cases hrr : r ∈ rest
        · obtain ⟨i, c', q, h0, hrd', h1, h2⟩ := hall r hrr
          simp only [copied] at h1 h2 hrd'
          rw [hcwd] at h2
          refine ⟨i + 1, c', q, by simpa using h0, ?_, List.mem_append_right _ h1, h2⟩
          rw [List.take_succ_cons, copyEach_step s p _ c fs1 hrd hw]
          exact hrd'
        · have hrp : r = p := by
            rcases List.mem_cons.mp hr with h1 | h1
            · exact h1
            · exact absurd h1 hrr
          subst hrp
          obtain ⟨q, hq, _⟩ := Node.lookup_write_same _ _ _ c _ hwr
          refine ⟨0, c, q, by simp, hrd, by simp, ?_⟩
          have hk := copyEach_keeps_file (copied s r c fs1) rest
            (locate s.fs.cwd (Join s.c.dstPath r)) q c hlf1
            (fun r' hr' => hps r' (List.mem_cons_of_mem _ hr')) hq (by
              intro r' hr'
              simp only [copied]
              rw [hcwd]
              intro e
              have := locate_dst_injective _ _ _ _
                (hps r' (List.mem_cons_of_mem _ hr')) (hps r (List.mem_cons_self _ _)) e
              exact hrr (this ▸ hr'))
          rw [h] at hk
          exact hk

theorem copyEach_append (s : State) (a b : List Str) :
    copyEach s (a ++ b)
      = match copyEach s a with
        | .done s1 => copyEach s1 b
        | .fatal s1 f => .fatal s1 f := by
  induction a generalizing s with
  | nil => rfl
  | cons p rest ih =>
    rcases copyEach_cases s p rest with ⟨e, _, h⟩ | ⟨c, e, _, _, h⟩ | ⟨c, fs1, hr, hw, h⟩
    · rw [h]
      have := copyEach_cases s p (rest ++ b)
      rcases this with ⟨e', _, h'⟩ | ⟨c', e', hr', _, _⟩ | ⟨c', fs1', hr', _, _⟩
      · rw [List.cons_append, h']
        simp_all
      · simp_all
      · simp_all
    · rw [h]
      have := copyEach_cases s p (rest ++ b)
      rcases this with ⟨e', hr', _⟩ | ⟨c', e', hr', hw', h'⟩ | ⟨c', fs1', hr', hw', _⟩
      · simp_all
      · rw [List.cons_append, h']
        simp_all
      · simp_all
    · rw [h, ← ih]
      have := copyEach_cases s p (rest ++ b)
      rcases this with ⟨e', hr', _⟩ | ⟨c', e', hr', hw', _⟩ | ⟨c', fs1', hr', hw', h'⟩
      · simp_all
      · simp_all
      · rw [List.cons_append, h']
        simp_all

theorem writtenPaths_append (a b : List Op) :
    writtenPaths (a ++ b) = writtenPaths a ++ writtenPaths b := by
  simp [writtenPaths]

theorem readPaths_append (a b : List Op) :
    readPaths (a ++ b) = readPaths a ++ readPaths b := by
  simp [readPaths]

/-- The writes of a copy loop that returned: one for each path, in order. -/
theorem copyEach_writes (s s' : State) (ps : List Str) (h : copyEach s ps = .done s') :
    writtenPaths s'.trace = writtenPaths s.trace ++ ps.map (Join s.c.dstPath)
      ∧ readPaths s'.trace = readPaths s.trace ++ ps.map (Join s.c.srcPath) := by
  induction ps generalizing s with
  | nil =>
    simp only [copyEach, Outcome.done.injEq] at h
    subst h
    simp
  | cons p rest ih =>
    rcases copyEach_cases s p rest with ⟨e, _, h'⟩ | ⟨c, e, _, _, h'⟩ | ⟨c, fs1, _, hw, h'⟩
    · rw [h'] at h; cases h
    · rw [h'] at h; cases h
    · rw [h'] at h
      obtain ⟨h1, h2⟩ := ih (copied s p c fs1) h
      rw [h1, h2]
      simp [copied, writtenPaths, readPaths]

theorem Outcome.eq_done_of_error (o : Outcome) (h : o.error = none) : o = .done o.state := by
  cases o with
  | done s => rfl
  | fatal s f => simp [Outcome.error] at h

theorem walk_trace_quiet (s : State) (rootPath subPath : Str) :
    writtenPaths (walk s rootPath subPath).state.trace = writtenPaths s.trace
      ∧ readPaths (walk s rootPath subPath).state.trace = readPaths s.trace := by
  have hv : ∀ vs : List Visit, writtenPaths (vs.map (fun v => Op.visit v.path v.err)) = []
      ∧ readPaths (vs.map (fun v => Op.visit v.path v.err)) = [] := by
    intro vs
    induction vs with
    | nil => exact ⟨rfl, rfl⟩
    | cons v vs ih =>
      simp only [List.map_cons, writtenPaths, readPaths, List.filterMap_cons]
      exact ih
  rw [walk_eq]
  cases hst : Stat s.fs (Join rootPath subPath) with
  | error e => simp [walkResult, Outcome.state, State.did, writtenPaths, readPaths]
  | ok n =>
    simp only [walkResult, foldl_walkFn, State.did, addNewPath_paths]
    split
    · simp only [Outcome.state, writtenPaths_append, readPaths_append, (hv _).1, (hv _).2]
      simp [writtenPaths, readPaths]
    · simp [Outcome.state, writtenPaths, readPaths]

theorem walkEach_trace_quiet (s : State) (rootPath : Str) (subs : List Str) :
    writtenPaths (walkEach s rootPath subs).state.trace = writtenPaths s.trace
      ∧ readPaths (walkEach s rootPath subs).state.trace = readPaths s.trace := by
  induction subs generalizing s with
  | nil => exact ⟨rfl, rfl⟩
  | cons sub rest ih =>
    have hw := walk_trace_quiet s rootPath sub
    unfold walkEach
    cases h : walk s rootPath sub with
    | fatal s' f =>
      rw [h] at hw
      exact hw
    | done s' =>
      rw [h] at hw
      simp only [Outcome.state] at hw
      have := ih s'
      simp only []
      rw [hw.1, hw.2] at this
      exact this

theorem collect_trace_quiet (fs : FS) (o : Options) :
    writtenPaths (collect fs o).state.trace = []
      ∧ readPaths (collect fs o).state.trace = [] := by
  unfold collect
  simp only []
  have h1 := walkEach_trace_quiet
    { fs := fs, c := { srcPath := o.srcPath, dstPath := o.dstPath, paths := [] },
      trace := [.logOptional o.srcPath] } o.dstPath optionalConfigPaths
  cases h : walkEach
      { fs := fs, c := { srcPath := o.srcPath, dstPath := o.dstPath, paths := [] },
        trace := [.logOptional o.srcPath] } o.dstPath optionalConfigPaths with
  | fatal s f =>
    rw [h] at h1
    exact h1
  | done s =>
    rw [h] at h1
    simp only [Outcome.state] at h1
    have h2 := walkEach_trace_quiet (s.did (.logRequired s.c.dstPath))
      (s.did (.logRequired s.c.dstPath)).c.srcPath requiredConfigPaths
    simp only []
    rw [h2.1, h2.2]
    simp only [State.did, writtenPaths_append, readPaths_append, h1.1, h1.2]
    exact ⟨rfl, rfl⟩

theorem main_eq_copy (fs : FS) (o : Options) (h : (collect fs o).error = none) :
    main fs o = copyEach (copyStart fs o) (collectedPaths fs o) := by
  have := Outcome.eq_done_of_error _ h
  unfold main
  rw [this]
  rfl

theorem main_of_collect_fatal (fs : FS) (o : Options) (s : State) (f : Fatal)
    (h : collect fs o = .fatal s f) : main fs o = .fatal s f := by
  unfold main
  rw [h]

theorem collect_error_of_main_done (fs : FS) (o : Options) (s : State)
    (h : main fs o = .done s) : (collect fs o).error = none := by
  unfold main at h
  cases hc : collect fs o with
  | done s0 => rfl
  | fatal s0 f => rw [hc] at h; cases h

/-- The collection step keeps the filesystem and the roots. -/
theorem collect_fs (fs : FS) (o : Options) :
    (collect fs o).state.fs = fs ∧ (collect fs o).state.c.srcPath = o.srcPath
      ∧ (collect fs o).state.c.dstPath = o.dstPath := by
  have h1 := walkEach_fs
    { fs := fs, c := { srcPath := o.srcPath, dstPath := o.dstPath, paths := [] },
      trace := [.logOptional o.srcPath] } o.dstPath optionalConfigPaths
  unfold collect
  simp only []
  cases h : walkEach
      { fs := fs, c := { srcPath := o.srcPath, dstPath := o.dstPath, paths := [] },
        trace := [.logOptional o.srcPath] } o.dstPath optionalConfigPaths with
  | fatal s f =>
    rw [h] at h1
    exact h1
  | done s =>
    rw [h] at h1
    simp only [Outcome.state] at h1
    have h2 := walkEach_fs (s.did (.logRequired s.c.dstPath))
      (s.did (.logRequired s.c.dstPath)).c.srcPath requiredConfigPaths
    simp only [State.did] at h2 ⊢
    rw [h2.1, h2.2.1, h2.2.2]
    exact h1

theorem copyStart_fields (fs : FS) (o : Options) :
    (copyStart fs o).fs = fs ∧ (copyStart fs o).c.srcPath = o.srcPath
      ∧ (copyStart fs o).c.dstPath = o.dstPath
      ∧ (copyStart fs o).c.paths = collectedPaths fs o
      ∧ writtenPaths (copyStart fs o).trace = []
      ∧ readPaths (copyStart fs o).trace = [] := by
  obtain ⟨h1, h2, h3⟩ := collect_fs fs o
  obtain ⟨h4, h5⟩ := collect_trace_quiet fs o
  refine ⟨h1, h2, h3, rfl, ?_, ?_⟩
  · simp only [copyStart, State.did, writtenPaths_append, h4]
    rfl
  · simp only [copyStart, State.did, readPaths_append, h5]
    rfl

/-- The copy loop keeps the names, kinds and modes below a location when each
write either goes to something that exists or goes elsewhere. -/
theorem copyEach_keeps_shape (s : State) (ps : List Str) (X : List Str)
    (hlf : s.fs.plainTree s.c.dstPath = true) (hps : ∀ p ∈ ps, plainPath p)
    (h : ∀ p ∈ ps, s.fs.nodeAt (locate s.fs.cwd (Join s.c.dstPath p)) ≠ none
      ∨ diverge X (locate s.fs.cwd (Join s.c.dstPath p)) = true) :
    shapeOf ((copyEach s ps).state.fs.rootNode.lookup X) = shapeOf (s.fs.rootNode.lookup X) := by
  induction ps generalizing s with
  | nil => rfl
  | cons p rest ih =>
    rcases copyEach_cases s p rest with ⟨e, _, h'⟩ | ⟨c', e, _, _, h'⟩ | ⟨c', fs1, _, hw, h'⟩
    · rw [h']; rfl
    · rw [h']; rfl
    · rw [h']
      obtain ⟨_, hwr, hcwd, _⟩ := WriteFile_ok _ _ _ _ (FS.plainTree_plainPath _ _ _ hlf (hps p (List.mem_cons_self _ _))) hw
      rw [ih (copied s p c' fs1) (copied_plainTree s p c' fs1 _ hlf (hps p (List.mem_cons_self _ _)) hw hlf)
        (fun r hr => hps r (List.mem_cons_of_mem _ hr)) (by
        intro r hr
        simp only [copied]
        rw [hcwd]
        rcases h r (List.mem_cons_of_mem _ hr) with h1 | h1
        · left
          exact Node.write_keeps_existing _ _ _ _ c' _ hwr h1
        · right; exact h1)]
      simp only [copied]
      rcases h p (List.mem_cons_self _ _) with h1 | h1
      · have hs := Node.write_shape _ _ _ c' _ hwr h1
        rw [← Node.lookup_shape, ← Node.lookup_shape, hs]
      · rw [(Node.lookup_write_diverge _ _ _ X c' _ hwr h1).1]

/-- With source and destination apart, every copied path names a file at the
destination that holds what the source file held before the loop, and the
source files are as they were. -/
theorem copyEach_content_apart (s s' : State) (ps : List Str)
    (hsrc : s.fs.plainTree s.c.srcPath = true) (hlf : s.fs.plainTree s.c.dstPath = true)
    (hum : s.fs.umask.w = false) (hps : ∀ p ∈ ps, plainPath p)
    (hd : ∀ p ∈ ps, ∀ p' ∈ ps, diverge (locate s.fs.cwd (Join s.c.srcPath p))
      (locate s.fs.cwd (Join s.c.dstPath p')) = true)
    (h : copyEach s ps = .done s') :
    ∀ p ∈ ps, ∃ c q, ReadFile s.fs (Join s.c.srcPath p) = .ok c
        ∧ ReadFile s'.fs (Join s.c.srcPath p) = .ok c
        ∧ Join s.c.dstPath p ≠ []
        ∧ s'.fs.rootNode.lookup (locate s.fs.cwd (Join s.c.dstPath p)) = .ok (.file q c)
        ∧ q.w = true := by
  have hk := copyEach_keeps s ps
  have hsrc' := (copyEach_plainTree s ps s.c.srcPath hlf hps hsrc).1
  rw [h] at hk hsrc'
  simp only [Outcome.state] at hk hsrc'
  have hsame : ∀ p ∈ ps, ReadFile s'.fs (Join s.c.srcPath p) = ReadFile s.fs (Join s.c.srcPath p) := by
    intro p hp
    apply ReadFile_eq_of_lookup _ _ _ (FS.plainTree_plainPath _ _ _ hsrc' (hps p hp))
      (FS.plainTree_plainPath _ _ _ hsrc (hps p hp)) hk.2.1
    have := copyEach_keeps_lookup s ps (locate s.fs.cwd (Join s.c.srcPath p)) hlf hps
      (fun p' hp' => hd p hp p' hp')
    rw [h] at this
    exact this
  clear hk hsrc'
  induction ps generalizing s with
  | nil => intro p hp; cases hp
  | cons p0 rest ih =>
    rcases copyEach_cases s p0 rest with ⟨e, _, h'⟩ | ⟨c, e, _, _, h'⟩ | ⟨c, fs1, hrd, hw, h'⟩
    · rw [h'] at h; cases h
    · rw [h'] at h; cases h
    · rw [h'] at h
      obtain ⟨hne, hwr, hcwd, _, hum1⟩ := WriteFile_ok _ _ _ _ (FS.plainTree_plainPath _ _ _ hlf (hps p0 (List.mem_cons_self _ _))) hw
      have hlf1 := copied_plainTree s p0 c fs1 _ hlf (hps p0 (List.mem_cons_self _ _)) hw hlf
      have hsrc1 := copied_plainTree s p0 c fs1 s.c.srcPath hlf
        (hps p0 (List.mem_cons_self _ _)) hw hsrc
      have hread1 : ∀ p ∈ p0 :: rest,
          ReadFile fs1 (Join s.c.srcPath p) = ReadFile s.fs (Join s.c.srcPath p) := by
        intro p hp
        apply ReadFile_eq_of_lookup _ _ _ (FS.plainTree_plainPath _ _ _ hsrc1 (hps p hp))
          (FS.plainTree_plainPath _ _ _ hsrc (hps p hp)) hcwd
        exact (Node.lookup_write_diverge _ _ _ _ c _ hwr
          (hd p hp p0 (List.mem_cons_self _ _))).1
      have hih := ih (copied s p0 c fs1) hsrc1 hlf1 (by simp only [copied]; rw [hum1]; exact hum)
        (fun r hr => hps r (List.mem_cons_of_mem _ hr))
        (by
          intro p hp p' hp'
          simp only [copied]
          rw [hcwd]
          exact hd p (List.mem_cons_of_mem _ hp) p' (List.mem_cons_of_mem _ hp'))
        h
        (by
          intro p hp
          simp only [copied]
          rw [hsame p (List.mem_cons_of_mem _ hp), hread1 p (List.mem_cons_of_mem _ hp)])
      intro r hr
      by_cases hrr : r ∈ rest
      · obtain ⟨c', q, h1, h2, h3, h4, h5⟩ := hih r hrr
        simp only [copied] at h1 h2 h3 h4
        rw [hcwd] at h4
        rw [hread1 r hr] at h1
        exact ⟨c', q, h1, h2, h3, h4, h5⟩
      · have hrp : r = p0 := by
          rcases List.mem_cons.mp hr with h1 | h1
          · exact h1
          · exact absurd h1 hrr
        subst hrp
        obtain ⟨q, hq, hqw⟩ := Node.lookup_write_same _ _ _ c _ hwr
        refine ⟨c, q, hrd, by rw [hsame r (List.mem_cons_self _ _)]; exact hrd, hne, ?_,
          hqw (by simp [mode0644, hum])⟩
        have hkf := copyEach_keeps_file (copied s r c fs1) rest
          (locate s.fs.cwd (Join s.c.dstPath r)) q c hlf1
          (fun r' hr' => hps r' (List.mem_cons_of_mem _ hr')) hq (by
            intro r' hr'
            simp only [copied]
            rw [hcwd]
            intro e
            have := locate_dst_injective _ _ _ _
              (hps r' (List.mem_cons_of_mem _ hr')) (hps r (List.mem_cons_self _ _)) e
            exact hrr (this ▸ hr'))
        rw [h] at hkf
        exact hkf

/-- A copy loop that finds every destination file writable and already holding
the content of its source file returns and leaves the filesystem as it is. -/
theorem copyEach_again (s : State) (ps : List Str)
    (h : ∀ p ∈ ps, ∃ c q, ReadFile s.fs (Join s.c.srcPath p) = .ok c
        ∧ Join s.c.dstPath p ≠ []
        ∧ s.fs.rootNode.lookup (locate s.fs.cwd (Join s.c.dstPath p)) = .ok (.file q c)
        ∧ q.w = true) :
    ∃ s', copyEach s ps = .done s' ∧ s'.fs = s.fs ∧ s'.c = s.c := by
  induction ps generalizing s with
  | nil => exact ⟨s, rfl, rfl, rfl⟩
  | cons p rest ih =>
    obtain ⟨c, q, hr, hne, hl, hw⟩ := h p (List.mem_cons_self _ _)
    have hwf := WriteFile_same s.fs _ c q
      (Node.plainAlong_of_lookup _ _ _ _ hl) hne hl hw
    rcases copyEach_cases s p rest with ⟨e, hr', _⟩ | ⟨c', e, hr', hw', _⟩ | ⟨c', fs1, hr', hw', h'⟩
    · rw [hr] at hr'; cases hr'
    · rw [hr] at hr'; cases hr'
      rw [hwf] at hw'; cases hw'
    · rw [hr] at hr'; cases hr'
      rw [hwf] at hw'; cases hw'
      rw [h']
      obtain ⟨s', h1, h2, h3⟩ := ih (copied s p c s.fs)
        (fun r hr => h r (List.mem_cons_of_mem _ hr))
      exact ⟨s', h1, h2, h3⟩

theorem plainTree_optional (fs : FS) (root sub : Str) (h : fs.plainTree root = true)
    (hsub : sub ∈ optionalConfigPaths) :
    fs.rootNode.plainAlong (locate fs.cwd (Join root sub)) = true := by
  rw [optionalConfigPaths_eq] at hsub
  obtain ⟨P, hP, rfl⟩ := List.mem_map.mp hsub
  exact FS.plainTree_Join fs root P h (optionalElems_valid P hP)

theorem plainTree_required (fs : FS) (root sub : Str) (h : fs.plainTree root = true)
    (hsub : sub ∈ requiredConfigPaths) :
    fs.rootNode.plainAlong (locate fs.cwd (Join root sub)) = true := by
  rw [requiredConfigPaths_eq] at hsub
  obtain ⟨P, hP, rfl⟩ := List.mem_map.mp hsub
  exact FS.plainTree_Join fs root P h (requiredElems_valid P hP)

theorem walk_withFs (s : State) (fs' : FS) (rootPath subPath : Str)
    (hlf : s.fs.rootNode.plainAlong (locate s.fs.cwd (Join rootPath subPath)) = true)
    (hlf' : fs'.rootNode.plainAlong (locate fs'.cwd (Join rootPath subPath)) = true)
    (h : shapeOf (Stat fs' (Join rootPath subPath))
      = shapeOf (Stat s.fs (Join rootPath subPath))) :
    walk (s.withFs fs') rootPath subPath = (walk s rootPath subPath).withFs fs' := by
  rw [walk_eq_plain s _ _ hlf, walk_eq_plain (s.withFs fs') _ _ hlf']
  show walkResult (Stat fs' (Join rootPath subPath)) (Stat fs' (Join rootPath subPath))
    (s.withFs fs') rootPath subPath = _
  rw [← walkResult_shape, h, walkResult_shape, walkResult_withFs]

theorem walkEach_withFs (s : State) (fs' : FS) (rootPath : Str) (subs : List Str)
    (hlf : ∀ sub ∈ subs, s.fs.rootNode.plainAlong (locate s.fs.cwd (Join rootPath sub)) = true)
    (hlf' : ∀ sub ∈ subs, fs'.rootNode.plainAlong (locate fs'.cwd (Join rootPath sub)) = true)
    (h : ∀ sub ∈ subs, shapeOf (Stat fs' (Join rootPath sub))
      = shapeOf (Stat s.fs (Join rootPath sub))) :
    walkEach (s.withFs fs') rootPath subs = (walkEach s rootPath subs).withFs fs' := by
  induction subs generalizing s with
  | nil => rfl
  | cons sub rest ih =>
    have hw := walk_withFs s fs' rootPath sub (hlf sub (List.mem_cons_self _ _))
      (hlf' sub (List.mem_cons_self _ _)) (h sub (List.mem_cons_self _ _))
    have hfs := (walk_fs s rootPath sub).1
    unfold walkEach
    rw [hw]
    cases hwalk : walk s rootPath sub with
    | fatal s1 f => rfl
    | done s1 =>
      rw [hwalk] at hfs
      simp only [Outcome.state] at hfs
      simp only [Outcome.withFs]
      exact ih s1 (by rw [hfs]; exact fun sub' hs' => hlf sub' (List.mem_cons_of_mem _ hs'))
        (fun sub' hs' => hlf' sub' (List.mem_cons_of_mem _ hs')) (by
        intro sub' hsub'
        rw [hfs]
        exact h sub' (List.mem_cons_of_mem _ hsub'))

/-- The collection step gives the same result on two filesystems in which the
walked paths lead to the same names, kinds and modes. -/
theorem collect_withFs (fs fs' : FS) (o : Options)
    (hsrc : fs.plainTree o.srcPath = true) (hdst : fs.plainTree o.dstPath = true)
    (hsrc' : fs'.plainTree o.srcPath = true) (hdst' : fs'.plainTree o.dstPath = true)
    (hopt : ∀ sub ∈ optionalConfigPaths, shapeOf (Stat fs' (Join o.dstPath sub))
      = shapeOf (Stat fs (Join o.dstPath sub)))
    (hreq : ∀ sub ∈ requiredConfigPaths, shapeOf (Stat fs' (Join o.srcPath sub))
      = shapeOf (Stat fs (Join o.srcPath sub))) :
    collect fs' o = (collect fs o).withFs fs' := by
  have h1 := walkEach_withFs
    { fs := fs, c := { srcPath := o.srcPath, dstPath := o.dstPath, paths := [] },
      trace := [.logOptional o.srcPath] } fs' o.dstPath optionalConfigPaths
    (fun sub hsub => plainTree_optional fs o.dstPath sub hdst hsub)
    (fun sub hsub => plainTree_optional fs' o.dstPath sub hdst' hsub) hopt
  have hfs := walkEach_fs
    { fs := fs, c := { srcPath := o.srcPath, dstPath := o.dstPath, paths := [] },
      trace := [.logOptional o.srcPath] } o.dstPath optionalConfigPaths
  unfold collect
  simp only [State.withFs] at h1
  simp only []
  rw [h1]
  cases hw : walkEach
      { fs := fs, c := { srcPath := o.srcPath, dstPath := o.dstPath, paths := [] },
        trace := [.logOptional o.srcPath] } o.dstPath optionalConfigPaths with
  | fatal s f => rfl
  | done s =>
    rw [hw] at hfs
    simp only [Outcome.state] at hfs
    simp only [Outcome.withFs]
    have h2 := walkEach_withFs (s.did (.logRequired s.c.dstPath)) fs'
      (s.did (.logRequired s.c.dstPath)).c.srcPath requiredConfigPaths
      (by
        intro sub hsub
        simp only [State.did]
        rw [hfs.1, hfs.2.1]
        exact plainTree_required fs o.srcPath sub hsrc hsub)
      (by
        intro sub hsub
        simp only [State.did]
        rw [hfs.2.1]
        exact plainTree_required fs' o.srcPath sub hsrc' hsub) (by
        intro sub hsub
        simp only [State.did]
        rw [hfs.1, hfs.2.1]
        exact hreq sub hsub)
    exact h2

theorem diverge_optional_required :
    ∀ P ∈ optionalElems, ∀ R ∈ requiredElems, ∀ names : List Str,
      diverge P (R ++ names) = true := by
  intro P hP R hR names
  simp only [optionalElems, List.mem_cons, List.mem_singleton, List.not_mem_nil, or_false] at hP
  simp only [requiredElems, List.mem_singleton] at hR
  subst hR
  rcases hP with h | h <;> subst h <;> simp [diverge]

theorem Outcome.withFs_error (o : Outcome) (fs : FS) : (o.withFs fs).error = o.error := by
  cases o <;> rfl

theorem Outcome.withFs_state (o : Outcome) (fs : FS) :
    (o.withFs fs).state = o.state.withFs fs := by
  cases o <;> rfl

/-! ### Errors of stat, read and write end the run -/

theorem quiet_append (a b : List Op) (ha : quiet a) (hb : quiet b) : quiet (a ++ b) := by
  intro op hop
  rcases List.mem_append.mp hop with h | h
  · exact ha op h
  · exact hb op h

theorem quiet_visits (vs : List Visit) : quiet (vs.map (fun v => Op.visit v.path v.err)) := by
  intro op hop
  obtain ⟨v, _, rfl⟩ := List.mem_map.mp hop
  rfl

theorem walk_failFast (s : State) (rootPath subPath : Str) (h : quiet s.trace) :
    (walk s rootPath subPath).failFast := by
  rw [walk_eq]
  cases hst : Stat s.fs (Join rootPath subPath) with
  | error e => exact ⟨s.trace, _, rfl, rfl, h⟩
  | ok n =>
    have hq : quiet (s.trace ++ [Op.stat (Join rootPath subPath) none]) :=
      quiet_append _ _ h (by intro op hop; rw [List.mem_singleton.mp hop]; rfl)
    simp only [walkResult, foldl_walkFn, State.did]
    split
    · exact quiet_append _ _ hq (quiet_visits _)
    · exact hq

theorem walkEach_failFast (s : State) (rootPath : Str) (subs : List Str) (h : quiet s.trace) :
    (walkEach s rootPath subs).failFast := by
  induction subs generalizing s with
  | nil => exact h
  | cons sub rest ih =>
    have hw := walk_failFast s rootPath sub h
    unfold walkEach
    cases hwalk : walk s rootPath sub with
    | fatal s1 f => rw [hwalk] at hw; exact hw
    | done s1 => rw [hwalk] at hw; exact ih s1 hw

theorem collect_failFast (fs : FS) (o : Options) : (collect fs o).failFast := by
  have h1 := walkEach_failFast
    { fs := fs, c := { srcPath := o.srcPath, dstPath := o.dstPath, paths := [] },
      trace := [.logOptional o.srcPath] } o.dstPath optionalConfigPaths
    (by intro op hop; rw [List.mem_singleton.mp hop]; rfl)
  unfold collect
  simp only []
  cases hw : walkEach
      { fs := fs, c := { srcPath := o.srcPath, dstPath := o.dstPath, paths := [] },
        trace := [.logOptional o.srcPath] } o.dstPath optionalConfigPaths with
  | fatal s f => rw [hw] at h1; exact h1
  | done s =>
    rw [hw] at h1
    exact walkEach_failFast _ _ _
      (quiet_append _ _ h1 (by intro op hop; rw [List.mem_singleton.mp hop]; rfl))

theorem copyEach_failFast (s : State) (ps : List Str) (h : quiet s.trace) :
    (copyEach s ps).failFast := by
  induction ps generalizing s with
  | nil => exact h
  | cons p rest ih =>
    rcases copyEach_cases s p rest with ⟨e, _, h'⟩ | ⟨c, e, _, _, h'⟩ | ⟨c, fs1, _, _, h'⟩
    · rw [h']
      exact ⟨s.trace, _, rfl, rfl, h⟩
    · rw [h']
      refine ⟨s.trace ++ [Op.read (Join s.c.srcPath p) (Except.ok c)],
        Op.write (Join s.c.dstPath p) c (some e), rfl, rfl, ?_⟩
      exact quiet_append _ _ h (by intro op hop; rw [List.mem_singleton.mp hop]; rfl)
    · rw [h']
      apply ih
      apply quiet_append _ _ h
      intro op hop
      simp only [List.mem_cons, List.mem_singleton, List.not_mem_nil, or_false] at hop
      rcases hop with h1 | h1 <;> rw [h1] <;> rfl

/-- The failure of the stat of a configured subpath, of a read or of a write
ends the run at that operation.  A run that completes did no such
operation that failed, and a run that ends in a fatal error ends with the first
one that failed, which is the last operation it did. -/
theorem main_failFast (fs : FS) (o : Options) : (main fs o).failFast := by
  have hc := collect_failFast fs o
  unfold main
  cases hcol : collect fs o with
  | fatal s f => rw [hcol] at hc; exact hc
  | done s =>
    rw [hcol] at hc
    exact copyEach_failFast _ _
      (quiet_append _ _ hc (by intro op hop; rw [List.mem_singleton.mp hop]; rfl))

/-! ## The claims -/

set_option maxRecDepth 100000 in
/-- C2, as stated, fails where two collected destination paths are names of one
file.  In `fsHardlink` the destination files `a.jsonnet` and `b.jsonnet` are hard
links to the same file; the run completes, `a.jsonnet` is collected, the one read
of `/src/mixins/prometheus/a.jsonnet` returns the bytes `[65]`, and afterwards
`/dst/mixins/prometheus/a.jsonnet` holds `[66]`, the bytes copied later for
`b.jsonnet`. -/
theorem main_copies_over_hard_link :
    (main fsHardlink flags).error = none
      ∧ "mixins/prometheus/a.jsonnet".toList ∈ (main fsHardlink flags).state.c.paths
      ∧ Op.read "/src/mixins/prometheus/a.jsonnet".toList (.ok [65])
          ∈ (main fsHardlink flags).state.trace
      ∧ (readPaths (main fsHardlink flags).state.trace).count
          "/src/mixins/prometheus/a.jsonnet".toList = 1
      ∧ (main fsHardlink flags).state.fs.contentAt "/dst/mixins/prometheus/a.jsonnet".toList
          = some [66] := by
  refine ⟨by decide, by decide, by decide, by decide, by decide⟩

/-- C2, amended: when the destination tree has no hard link and no symbolic link
and the run (the collect-then-copy sequence of `main`) completes without a fatal
error, then for every relative path `p` in the collected paths the file
`destinationRoot/p` exists afterwards and its content is the content that was
read from `sourceRoot/p` during the run: the bytes `sourceRoot/p` led to in the
filesystem as it was when the copy loop came to `p`, after the copies before
it. -/
theorem main_copies_content (fs : FS) (o : Options) (s : State)
    (hwf : fs.wellFormed = true) (hdst : fs.plainTree o.dstPath = true)
    (h : main fs o = .done s) :
    s.c.paths = collectedPaths fs o
      ∧ ∀ p ∈ s.c.paths, ∃ i c, (collectedPaths fs o)[i]? = some p
          ∧ (afterCopies fs o i).state.fs.contentAt (Join o.srcPath p) = some c
          ∧ Op.read (Join o.srcPath p) (.ok c) ∈ s.trace
          ∧ s.fs.contentAt (Join o.dstPath p) = some c := by
  have hc := collect_error_of_main_done fs o s h
  rw [main_eq_copy fs o hc] at h
  obtain ⟨hfs, hsrc, hdstp, hpaths, _, _⟩ := copyStart_fields fs o
  have hk := copyEach_keeps (copyStart fs o) (collectedPaths fs o)
  rw [h] at hk
  simp only [Outcome.state] at hk
  have hplain := collectedPaths_plain fs o hwf
  obtain ⟨t, ht, hall⟩ := copyEach_content _ s _ (by rw [hfs, hdstp]; exact hdst) hplain h
  have hsp : s.c.paths = collectedPaths fs o := by rw [hk.1, hpaths]
  refine ⟨hsp, ?_⟩
  intro p hp
  rw [hsp] at hp
  obtain ⟨i, c, q, h0, hrd, h1, h2⟩ := hall p hp
  rw [hsrc] at h1 hrd
  rw [hdstp, ← hk.2.1] at h2
  obtain ⟨Q, hQ, rfl⟩ := hplain p hp
  refine ⟨i, c, h0, contentAt_of_ReadFile _ _ c hrd, ?_,
    contentAt_of_lookup s.fs _ q c (Node.plainAlong_of_lookup _ _ _ _ h2)
      (Join_root_ne_nil o.dstPath Q hQ) h2⟩
  rw [ht]
  exact List.mem_append_right _ h1

set_option maxRecDepth 100000 in
/-- C2, amended, at a concrete input: the run on `fsGood` succeeds and the two
collected files hold at the destination what was read from the source. -/
theorem main_copies_content_witness :
    fsGood.wellFormed = true ∧ fsGood.plainTree flags.dstPath = true
      ∧ main fsGood flags = .done (main fsGood flags).state
      ∧ (main fsGood flags).state.c.paths = collectedPaths fsGood flags
      ∧ ∀ p ∈ (main fsGood flags).state.c.paths, ∃ i c,
          (collectedPaths fsGood flags)[i]? = some p
            ∧ (afterCopies fsGood flags i).state.fs.contentAt (Join flags.srcPath p) = some c
            ∧ Op.read (Join flags.srcPath p) (.ok c) ∈ (main fsGood flags).state.trace
            ∧ (main fsGood flags).state.fs.contentAt (Join flags.dstPath p) = some c :=
  ⟨by decide, by decide, by decide,
    main_copies_content fsGood flags (main fsGood flags).state (by decide) (by decide)
      (by decide)⟩

set_option maxRecDepth 100000 in
/-- C3, as stated, fails in its last part where two collected destination paths
are names of one file.  In `fsHardlinkMissing` the third collected path,
`mixins/prometheus/c.jsonnet`, does not exist under the source root, so the run
ends with the fatal read error after two writes; the first of them copied the
bytes `[65]` to `/dst/mixins/prometheus/a.jsonnet`, which no longer holds them:
it holds `[66]`, written afterwards through the hard link `b.jsonnet`. -/
theorem abort_leaves_later_content :
    (collectedPaths fsHardlinkMissing flags)[2]? = some "mixins/prometheus/c.jsonnet".toList
      ∧ (afterCopies fsHardlinkMissing flags 2).error = none
      ∧ ReadFile (afterCopies fsHardlinkMissing flags 2).state.fs
          (Join flags.srcPath "mixins/prometheus/c.jsonnet".toList) = .error .ENOENT
      ∧ (main fsHardlinkMissing flags).error
          = some (.read "/src/mixins/prometheus/c.jsonnet".toList .ENOENT)
      ∧ (collectedPaths fsHardlinkMissing flags)[0]? = some "mixins/prometheus/a.jsonnet".toList
      ∧ Op.write "/dst/mixins/prometheus/a.jsonnet".toList [65] none
          ∈ (main fsHardlinkMissing flags).state.trace
      ∧ (writtenPaths (main fsHardlinkMissing flags).state.trace).count
          "/dst/mixins/prometheus/a.jsonnet".toList = 1
      ∧ (main fsHardlinkMissing flags).state.fs.contentAt
          "/dst/mixins/prometheus/a.jsonnet".toList = some [66] := by
  refine ⟨by decide, by decide, by decide, by decide, by decide, by decide, by decide,
    by decide⟩

/-- C3, amended: when the file `sourceRoot/paths[i]` of a collected path cannot
be read while all earlier collected paths could be read and written, the run ends
in a fatal error for that read instead of skipping the file, the reads made are
those for the indices up to `i` and the writes made are exactly those for the
indices below `i` (none for `paths[i]` or any later path), and what was written
for the indices below `i` stays in place: the filesystem is the one the `i`
copies left, and when the destination tree has no hard link and no symbolic
link every file written for an index below `i` holds the content copied to
it. -/
theorem main_aborts_at_unreadable (fs : FS) (o : Options) (i : Nat) (p : Str) (e : Errno)
    (hwf : fs.wellFormed = true)
    (hc : (collect fs o).error = none)
    (hp : (collectedPaths fs o)[i]? = some p)
    (hpre : (afterCopies fs o i).error = none)
    (hread : ReadFile (afterCopies fs o i).state.fs (Join o.srcPath p) = .error e) :
    (main fs o).error = some (.read (Join o.srcPath p) e)
      ∧ (main fs o).state.fs = (afterCopies fs o i).state.fs
      ∧ (main fs o).state.c.paths = collectedPaths fs o
      ∧ readPaths (main fs o).state.trace
          = ((collectedPaths fs o).take (i + 1)).map (Join o.srcPath)
      ∧ writtenPaths (main fs o).state.trace
          = ((collectedPaths fs o).take i).map (Join o.dstPath)
      ∧ (fs.plainTree o.dstPath = true →
          ∀ q ∈ (collectedPaths fs o).take i,
            ∃ c, Op.read (Join o.srcPath q) (.ok c) ∈ (main fs o).state.trace
              ∧ (main fs o).state.fs.contentAt (Join o.dstPath q) = some c) := by
  obtain ⟨hfs, hsrc, hdst, hpaths, hnw, hnr⟩ := copyStart_fields fs o
  have hi : i < (collectedPaths fs o).length := by
    rcases Nat.lt_or_ge i (collectedPaths fs o).length with h | h
    · exact h
    · rw [List.getElem?_eq_none h] at hp; cases hp
  have hsplit : collectedPaths fs o
      = (collectedPaths fs o).take i ++ p :: (collectedPaths fs o).drop (i + 1) := by
    have h1 : (collectedPaths fs o)[i] = p := by
      rw [List.getElem?_eq_getElem hi] at hp
      exact Option.some.inj hp
    rw [← h1, ← List.drop_eq_getElem_cons hi, List.take_append_drop]
  have hdone := Outcome.eq_done_of_error _ hpre
  have hk := copyEach_keeps (copyStart fs o) ((collectedPaths fs o).take i)
  have hsi : (afterCopies fs o i).state.c = (copyStart fs o).c := hk.1
  have hmain : main fs o
      = .fatal ((afterCopies fs o i).state.did (.read (Join o.srcPath p) (.error e)))
          (.read (Join o.srcPath p) e) := by
    rw [main_eq_copy fs o hc]
    conv => lhs; rw [hsplit]
    rw [copyEach_append]
    unfold afterCopies at hdone
    rw [hdone]
    simp only []
    rcases copyEach_cases (afterCopies fs o i).state p ((collectedPaths fs o).drop (i + 1))
      with ⟨e', hr, h⟩ | ⟨c, e', hr, _, _⟩ | ⟨c, fs1, hr, _, _⟩
    · rw [hsi, hsrc] at hr h
      rw [hread] at hr
      cases hr
      exact h
    · rw [hsi, hsrc, hread] at hr; cases hr
    · rw [hsi, hsrc, hread] at hr; cases hr
  have hpl : ∀ q ∈ (collectedPaths fs o).take i, plainPath q :=
    fun q hq => collectedPaths_plain fs o hwf q (List.mem_of_mem_take hq)
  obtain ⟨hw1, hw2⟩ := copyEach_writes (copyStart fs o) (afterCopies fs o i).state
    ((collectedPaths fs o).take i) hdone
  rw [hmain]
  refine ⟨rfl, rfl, ?_, ?_, ?_, ?_⟩
  · show (afterCopies fs o i).state.c.paths = collectedPaths fs o
    rw [hsi, hpaths]
  · show readPaths ((afterCopies fs o i).state.trace ++ [_]) = _
    rw [readPaths_append, hw2, hnr, hsrc, List.take_succ, hp]
    simp [readPaths]
  · show writtenPaths ((afterCopies fs o i).state.trace ++ [_]) = _
    rw [writtenPaths_append, hw1, hnw, hdst]
    simp [writtenPaths]
  · intro hplain q hq
    obtain ⟨t, ht, hall⟩ := copyEach_content (copyStart fs o) (afterCopies fs o i).state
      ((collectedPaths fs o).take i) (by rw [hfs, hdst]; exact hplain) hpl hdone
    obtain ⟨_, c, r, _, _, h1, h2⟩ := hall q hq
    rw [hsrc] at h1
    rw [hdst, ← hk.2.1] at h2
    obtain ⟨Q, hQ, rfl⟩ := hpl q hq
    refine ⟨c, ?_, contentAt_of_lookup _ _ r c (Node.plainAlong_of_lookup _ _ _ _ h2)
      (Join_root_ne_nil o.dstPath Q hQ) h2⟩
    show _ ∈ (afterCopies fs o i).state.trace ++ [_]
    rw [ht]
    exact List.mem_append_left _ (List.mem_append_right _ h1)

set_option maxRecDepth 100000 in
/-- C3, amended, at a concrete input: on `fsMissing` the second collected path,
`mixins/prometheus/c.jsonnet`, does not exist under the source root; the run ends
with the fatal read error after one write, and the file written holds the
content copied to it. -/
theorem main_aborts_at_unreadable_witness :
    fsMissing.wellFormed = true
      ∧ (collect fsMissing flags).error = none
      ∧ (collectedPaths fsMissing flags)[1]? = some "mixins/prometheus/c.jsonnet".toList
      ∧ (afterCopies fsMissing flags 1).error = none
      ∧ ReadFile (afterCopies fsMissing flags 1).state.fs
          (Join flags.srcPath "mixins/prometheus/c.jsonnet".toList) = .error .ENOENT
      ∧ (main fsMissing flags).error
          = some (.read (Join flags.srcPath "mixins/prometheus/c.jsonnet".toList) .ENOENT)
      ∧ writtenPaths (main fsMissing flags).state.trace
          = ((collectedPaths fsMissing flags).take 1).map (Join flags.dstPath)
      ∧ ∀ q ∈ (collectedPaths fsMissing flags).take 1,
          ∃ c, Op.read (Join flags.srcPath q) (.ok c) ∈ (main fsMissing flags).state.trace
            ∧ (main fsMissing flags).state.fs.contentAt (Join flags.dstPath q) = some c :=
  have h := main_aborts_at_unreadable fsMissing flags 1 "mixins/prometheus/c.jsonnet".toList
    .ENOENT (by decide) (by decide) (by decide) (by decide) (by decide)
  ⟨by decide, by decide, by decide, by decide, by decide, h.1, h.2.2.2.2.1,
    h.2.2.2.2.2 (by decide)⟩

/-- C4, as stated, fails: with the source root and the destination root both
empty directories, the fatal stat error is the one for the first optional
subpath under the destination root, raised before the required-config phase is
entered; the required file is never looked at. -/
theorem empty_roots_fail_before_required_phase :
    fsEmpty.nodeAt (locate fsEmpty.cwd flags.srcPath) = some (.dir permAll .nil)
      ∧ fsEmpty.nodeAt (locate fsEmpty.cwd flags.dstPath) = some (.dir permAll .nil)
      ∧ (main fsEmpty flags).error
          = some (.stat "/dst/mixins/grafana_dashboards".toList .ENOENT)
      ∧ (main fsEmpty flags).state.trace
          = [.logOptional "/src".toList,
             .stat "/dst/mixins/grafana_dashboards".toList (some .ENOENT)]
      ∧ Op.logRequired flags.dstPath ∉ (main fsEmpty flags).state.trace
      ∧ ∀ e, Op.stat (Join flags.srcPath "mixins/lib/config_util.libsonnet".toList) e
          ∉ (main fsEmpty flags).state.trace := by
  have ht : (main fsEmpty flags).state.trace
      = [.logOptional "/src".toList,
         .stat "/dst/mixins/grafana_dashboards".toList (some .ENOENT)] := by decide
  refine ⟨by decide, by decide, by decide, ht, ?_, ?_⟩
  · rw [ht]; decide
  · intro e
    rw [ht]
    simp only [List.mem_cons, List.mem_singleton, List.not_mem_nil, or_false, not_or]
    refine ⟨by simp, ?_⟩
    intro h
    have h2 := congrArg (fun op => match op with | Op.stat p _ => p | _ => []) h
    simp only at h2
    revert h2
    decide

/-- C4, amended: when the destination root is an empty directory (and so is the
source root), the run terminates fatally with a stat error raised during the
optional-config collection phase, by the walk of the first optional subpath
against the destination root; nothing was collected and no file read or write of
the copy phase is attempted. -/
theorem empty_roots_fail_in_optional_phase (fs : FS) (o : Options) (pS pD : Perm)
    (_hsrc : fs.nodeAt (locate fs.cwd o.srcPath) = some (.dir pS .nil))
    (hdst : fs.nodeAt (locate fs.cwd o.dstPath) = some (.dir pD .nil)) :
    ∃ e, main fs o
      = .fatal
          { fs := fs,
            c := { srcPath := o.srcPath, dstPath := o.dstPath, paths := [] },
            trace := [.logOptional o.srcPath,
              .stat (Join o.dstPath "mixins/grafana_dashboards".toList) (some e)] }
          (.stat (Join o.dstPath "mixins/grafana_dashboards".toList) e) := by
  have hP : validNames ["mixins".toList, "grafana_dashboards".toList] :=
    optionalElems_valid _ (by simp [optionalElems])
  have hsub : "mixins/grafana_dashboards".toList
      = joinSlash ["mixins".toList, "grafana_dashboards".toList] := by decide
  have hloc := locate_Join fs.cwd o.dstPath _ hP
  obtain ⟨e, he⟩ := Node.lookup_below_empty fs.rootNode _ pD "mixins".toList
    ["grafana_dashboards".toList] hdst
  have hpl : fs.rootNode.plainAlong
      (locate fs.cwd (Join o.dstPath (joinSlash ["mixins".toList, "grafana_dashboards".toList])))
      = true := by
    rw [hloc]
    exact Node.plainAlong_below_dir _ _ _ pD .nil hdst rfl
  have hst : Stat fs (Join o.dstPath "mixins/grafana_dashboards".toList) = .error e := by
    rw [hsub, Stat_of_ne_nil fs _ hpl (Join_root_ne_nil o.dstPath _ hP), hloc]
    exact he
  refine ⟨e, ?_⟩
  apply main_of_collect_fatal
  unfold collect
  simp only [optionalConfigPaths, walkEach, walk, hst, State.did]
  rfl

/-- C4, amended, at a concrete input: both roots of `fsEmpty` are empty
directories. -/
theorem empty_roots_fail_in_optional_phase_witness :
    fsEmpty.nodeAt (locate fsEmpty.cwd flags.srcPath) = some (.dir permAll .nil)
      ∧ fsEmpty.nodeAt (locate fsEmpty.cwd flags.dstPath) = some (.dir permAll .nil)
      ∧ ∃ e, main fsEmpty flags
        = .fatal
            { fs := fsEmpty,
              c := { srcPath := flags.srcPath, dstPath := flags.dstPath, paths := [] },
              trace := [.logOptional flags.srcPath,
                .stat (Join flags.dstPath "mixins/grafana_dashboards".toList) (some e)] }
            (.stat (Join flags.dstPath "mixins/grafana_dashboards".toList) e) :=
  ⟨by decide, by decide,
    empty_roots_fail_in_optional_phase fsEmpty flags permAll permAll (by decide) (by decide)⟩

/-- C6: when `root/subpath` is a file and not a directory, `walk` performs no
directory traversal (it only stats the full path) and appends exactly one entry,
the subpath itself as given, when the subpath passes the extension filter, and
nothing when it does not; the entries already in the paths are kept in place. -/
theorem walk_of_file (s : State) (rootPath subPath : Str) (p : Perm) (content : Bytes)
    (h : Stat s.fs (Join rootPath subPath) = .ok (.file p content)) :
    walk s rootPath subPath
      = .done
          { fs := s.fs,
            c := { srcPath := s.c.srcPath, dstPath := s.c.dstPath,
                   paths := s.c.paths ++
                     (if specExt subPath = ".jsonnet".toList
                          ∨ specExt subPath = ".libsonnet".toList
                       then [subPath] else []) },
            trace := s.trace ++ [.stat (Join rootPath subPath) none] } := by
  rw [walk_eq, h]
  simp only [walkResult, Node.IsDir, State.did, addNewPath_paths, Ext_eq_specExt]
  by_cases hc : wantExtentions.contains (specExt subPath) = true
  · rw [if_pos hc, if_pos ((wantExtentions_contains _).mp hc)]
    simp
  · rw [if_neg hc, if_neg (fun h2 => hc ((wantExtentions_contains _).mpr h2))]
    simp

set_option maxRecDepth 100000 in
/-- C6 at a concrete input: the required subpath is a file under the source
root of `fsGood`. -/
theorem walk_of_file_witness :
    Stat fsGood (Join "/src".toList "mixins/lib/config_util.libsonnet".toList)
        = .ok (.file permFile [88])
      ∧ walk { fs := fsGood, c := { srcPath := [], dstPath := [], paths := ["kept".toList] },
               trace := [] }
          "/src".toList "mixins/lib/config_util.libsonnet".toList
        = .done
            { fs := fsGood,
              c := { srcPath := [], dstPath := [],
                     paths := ["kept".toList, "mixins/lib/config_util.libsonnet".toList] },
              trace := [.stat "/src/mixins/lib/config_util.libsonnet".toList none] } :=
  ⟨by decide,
    (walk_of_file ⟨fsGood, ⟨[], [], ["kept".toList]⟩, []⟩
      "/src".toList "mixins/lib/config_util.libsonnet".toList permFile [88] (by decide)).trans
      (by decide)⟩

set_option maxRecDepth 100000 in
/-- C5, as stated, fails, in four ways; each time `os.Stat` finds `root/subpath`
to be a directory, a file whose name passes the filter lies beneath it, and
`walk` does not append it.  In `fsUnreadable` the file `secret/x.jsonnet` is below
a subdirectory whose names cannot be read: the traversal reports the error and
goes on without it.  With an empty root and a rooted subpath `filepath.Rel`
fails, its error is discarded, and `b.jsonnet` is filtered out as the empty
path.  In `fsSymlinkDir` the path `root/subpath` is a symbolic link to a
directory, which `filepath.Walk` visits as a single entry without going into it.
And with the root `/dst/mixins/prometheus/b.jsonnet/x` and the subpath `../..`
the file `b.jsonnet` is a leading part of the root, so its path relative to the
root is `..`, which has no extension that passes. -/
theorem walk_of_directory_omits :
    (Stat fsUnreadable (Join "/dst".toList "mixins/prometheus".toList)).toOption.map Node.IsDir
        = some true
      ∧ Stat fsUnreadable "/dst/mixins/prometheus/secret/x.jsonnet".toList
          = .ok (.file permFile [7])
      ∧ wantExtentions.contains (Ext "x.jsonnet".toList) = true
      ∧ (walk { fs := fsUnreadable, c := { srcPath := [], dstPath := [], paths := [] },
                trace := [] }
            "/dst".toList "mixins/prometheus".toList).state.c.paths
          = ["mixins/prometheus/b.jsonnet".toList]
      ∧ (Stat fsGood (Join [] "/dst/mixins/prometheus".toList)).toOption.map Node.IsDir
          = some true
      ∧ Stat fsGood "/dst/mixins/prometheus/b.jsonnet".toList = .ok (.file permFile [89])
      ∧ wantExtentions.contains (Ext "b.jsonnet".toList) = true
      ∧ (walk { fs := fsGood, c := { srcPath := [], dstPath := [], paths := [] },
                trace := [] }
            [] "/dst/mixins/prometheus".toList).state.c.paths = []
      ∧ (Stat fsSymlinkDir (Join "/dst".toList "mixins/prometheus".toList)).toOption.map
          Node.IsDir = some true
      ∧ Stat fsSymlinkDir "/dst/mixins/prometheus/b.jsonnet".toList
          = .ok (.file permFile [89])
      ∧ (walk { fs := fsSymlinkDir, c := { srcPath := [], dstPath := [], paths := [] },
                trace := [] }
            "/dst".toList "mixins/prometheus".toList).state.c.paths = []
      ∧ Join "/dst/mixins/prometheus/b.jsonnet/x".toList "../..".toList
          = "/dst/mixins/prometheus".toList
      ∧ (walk { fs := fsGood, c := { srcPath := [], dstPath := [], paths := [] },
                trace := [] }
            "/dst/mixins/prometheus/b.jsonnet/x".toList "../..".toList).state.c.paths = [] := by
  refine ⟨by decide, by decide, by decide, by decide, by decide, by decide, by decide,
    by decide, by decide, by decide, by decide, by decide, by decide⟩

/-- C5, amended: for every root path and subpath, other than an empty root with
a rooted subpath, such that `root/subpath` is itself a directory (`os.Lstat`
finds a directory, not a symbolic link to one) and the traversal of it reports
no error, `walk` returns and has appended, for every entry `f` at any depth
beneath that directory that is not a directory, whose name passes the extension
filter and whose path is not a leading part of the root path (both cleaned),
the path of `f` relative to the root, as `filepath.Rel` gives it; joining the
root with the appended path gives back the full path of `f`. -/
theorem walk_of_directory (s : State) (root sub : Str) (names : List Str) (p : Perm)
    (ch : Listing) (n : Node) (hne : names ≠ [])
    (hwf : s.fs.wellFormed = true)
    (hmix : ¬ (root = [] ∧ isRooted sub = true))
    (hst : Lstat s.fs (Join root sub) = .ok (.dir p ch))
    (hquiet : ∀ v ∈ filepathWalk s.fs (Join root sub), v.err = none)
    (hfile : (Node.dir p ch).locate names = some n) (_hfn : n.IsDir = false)
    (hext : wantExtentions.contains (Ext (names.getLast hne)) = true)
    (hout : ¬ rootElems (Join (Join root sub) (joinSlash names)) <+: rootElems root) :
    ∃ rel, (walk s root sub).error = none
      ∧ rel ∈ (walk s root sub).state.c.paths
      ∧ Rel root (Join (Join root sub) (joinSlash names)) = some rel
      ∧ Join root rel = Join (Join root sub) (joinSlash names) := by
  have hfullne := Lstat_ne_nil _ _ _ hst
  obtain ⟨hfull, hS⟩ := Join_joinElems root sub hmix hfullne
  have hchwf : (Node.dir p ch).wellFormed = true := Lstat_wellFormed _ _ p ch hwf hst
  have hvalid : ∀ k ∈ names, validName k = true :=
    Node.validName_of_locate _ names hchwf (by rw [hfile]; simp)
  have hT := cleanPath_append_valid _ _ names hS hvalid
  have hleaf : Join (Join root sub) (joinSlash names)
      = renderPath (isRooted root) (joinElems root sub ++ names) := by
    rw [hfull, Join_renderPath _ _ names hS ⟨hne, hvalid⟩]
  rw [hleaf, rootElems_renderPath _ _ hT] at hout
  have hU := dropCommon_snd_ne_nil _ _ hout
  have hB := dropCommon_joinElems root sub names
  have hrel := Rel_general root _ hT hB hU
  obtain ⟨C, hRC, hTC, _⟩ := dropCommon_spec (rootElems root) (joinElems root sub ++ names)
  have hjoin := Join_rel root _ C _ _ hT hRC hTC hU hB
  generalize (dropCommon (rootElems root) (joinElems root sub ++ names)).1 = B at *
  generalize (dropCommon (rootElems root) (joinElems root sub ++ names)).2 = U at *
  have hX : upElems B ++ U ≠ [] := fun e => hU (List.append_eq_nil.mp e).2
  have hlast : (upElems B ++ U).getLast hX = names.getLast hne := by
    rw [List.getLast_append_of_ne_nil hU]
    have h1 : (joinElems root sub ++ names).getLast (by simp [hne]) = names.getLast hne :=
      List.getLast_append_of_ne_nil hne
    have h2 : (C ++ U).getLast (by simp [hU]) = U.getLast hU :=
      List.getLast_append_of_ne_nil hU
    rw [← h1, ← h2]
    exact List.getLast_congr _ _ hTC.symm
  have hr : p.r = true := by
    by_contra hr
    rw [Bool.not_eq_true] at hr
    have := hquiet ⟨Join root sub, some .EACCES⟩ (by
      rw [filepathWalk_eq, hst]
      simp [visitsOf, hr])
    simp at this
  have hvis : visitsOf (.ok (.dir p ch)) (Join root sub)
      = ⟨Join root sub, none⟩ :: walkEntries ch (Join root sub) p.x := by
    simp [visitsOf, hr]
  have hform : walk s root sub
      = .done { fs := s.fs,
                c := { s.c with paths := (s.c.paths
                  ++ collected root (visitsOf (.ok (.dir p ch)) (Join root sub))) },
                trace := (s.trace ++ [Op.stat (Join root sub) none]
                  ++ (visitsOf (.ok (.dir p ch)) (Join root sub)).map
                    (fun v => Op.visit v.path v.err)) } := by
    rw [walk_eq, Stat_of_Lstat_dir _ _ p ch hst, hst]
    simp only [walkResult, Node.IsDir, if_true, foldl_walkFn, State.did]
  refine ⟨joinSlash (upElems B ++ U), by rw [hform]; rfl, ?_, by rw [hleaf]; exact hrel,
    by rw [hleaf]; exact hjoin⟩
  rw [hform]
  apply List.mem_append_right
  rw [mem_collected]
  cases hn : names with
  | nil => exact absurd hn hne
  | cons a more =>
    rw [hn, Node.locate_dir_cons] at hfile
    cases hf : ch.find a with
    | none => simp [hf] at hfile
    | some n0 =>
      simp only [hf] at hfile
      have hq' : ∀ v ∈ walkEntries ch (renderPath (isRooted root) (joinElems root sub)) p.x,
          v.err = none := by
        intro v hv
        apply hquiet v
        rw [filepathWalk_eq, hst, hvis, hfull]
        exact List.mem_cons_of_mem _ hv
      obtain ⟨v, hv, hp⟩ := walkEntries_reaches ch _ _ p.x hchwf hS a more n0 n hf hfile hq'
      refine ⟨v, ?_, ?_, ?_⟩
      · rw [hvis, hfull]
        exact List.mem_cons_of_mem _ hv
      · rw [hp, ← hn, hrel]
        rfl
      · rw [Ext_joinSlash _ hX, hlast]
        exact hext

set_option maxRecDepth 100000 in
/-- C5, amended, at concrete inputs: `b.jsonnet` beneath `/dst/mixins/prometheus`
in `fsGood`, for the root `/dst` with a subpath that is not written in cleaned
form, and for the root `/dst/mixins/lib` with a subpath that goes up. -/
theorem walk_of_directory_witness :
    fsGood.wellFormed = true
      ∧ Lstat fsGood (Join "/dst".toList "./mixins//prometheus/".toList)
          = .ok (.dir permAll (.file "b.jsonnet".toList permFile [89] .nil))
      ∧ (∃ rel, (walk ⟨fsGood, ⟨[], [], []⟩, []⟩ "/dst".toList
              "./mixins//prometheus/".toList).error = none
          ∧ rel ∈ (walk ⟨fsGood, ⟨[], [], []⟩, []⟩ "/dst".toList
              "./mixins//prometheus/".toList).state.c.paths
          ∧ Rel "/dst".toList
              (Join (Join "/dst".toList "./mixins//prometheus/".toList)
                (joinSlash ["b.jsonnet".toList])) = some rel
          ∧ Join "/dst".toList rel
              = Join (Join "/dst".toList "./mixins//prometheus/".toList)
                  (joinSlash ["b.jsonnet".toList]))
      ∧ (walk ⟨fsGood, ⟨[], [], []⟩, []⟩ "/dst/mixins/lib".toList
            "../prometheus".toList).state.c.paths = ["../prometheus/b.jsonnet".toList]
      ∧ (∃ rel, (walk ⟨fsGood, ⟨[], [], []⟩, []⟩ "/dst/mixins/lib".toList
              "../prometheus".toList).error = none
          ∧ rel ∈ (walk ⟨fsGood, ⟨[], [], []⟩, []⟩ "/dst/mixins/lib".toList
              "../prometheus".toList).state.c.paths
          ∧ Rel "/dst/mixins/lib".toList
              (Join (Join "/dst/mixins/lib".toList "../prometheus".toList)
                (joinSlash ["b.jsonnet".toList])) = some rel
          ∧ Join "/dst/mixins/lib".toList rel
              = Join (Join "/dst/mixins/lib".toList "../prometheus".toList)
                  (joinSlash ["b.jsonnet".toList])) :=
  ⟨by decide, by decide,
    walk_of_directory ⟨fsGood, ⟨[], [], []⟩, []⟩ "/dst".toList "./mixins//prometheus/".toList
      ["b.jsonnet".toList] permAll (.file "b.jsonnet".toList permFile [89] .nil)
      (.file permFile [89]) (by simp) (by decide) (by decide) (by decide) (by decide)
      (by decide) (by decide) (by decide) (by decide),
    by decide,
    walk_of_directory ⟨fsGood, ⟨[], [], []⟩, []⟩ "/dst/mixins/lib".toList
      "../prometheus".toList
      ["b.jsonnet".toList] permAll (.file "b.jsonnet".toList permFile [89] .nil)
      (.file permFile [89]) (by simp) (by decide) (by decide) (by decide) (by decide)
      (by decide) (by decide) (by decide) (by decide)⟩

set_option maxRecDepth 100000 in
/-- C7 on the code: in `fsDirNamed` the walked directory `/dst/mixins/prometheus`
holds a directory named `d.jsonnet`; `walk` appends its path, so the collected
paths of the run contain a path that denotes a directory, and the run then ends
in a fatal read error for it. -/
theorem walk_appends_directory :
    (walk { fs := fsDirNamed, c := { srcPath := [], dstPath := [], paths := [] },
            trace := [] }
        "/dst".toList "mixins/prometheus".toList).state.c.paths
        = ["mixins/prometheus/d.jsonnet".toList]
      ∧ (Stat fsDirNamed (Join "/dst".toList "mixins/prometheus/d.jsonnet".toList)).toOption.map
          Node.IsDir = some true
      ∧ collectedPaths fsDirNamed flags
          = ["mixins/prometheus/d.jsonnet".toList, "mixins/lib/config_util.libsonnet".toList]
      ∧ (main fsDirNamed flags).error
          = some (.read "/src/mixins/prometheus/d.jsonnet".toList .ENOENT) := by
  refine ⟨by decide, by decide, by decide, by decide⟩

set_option maxRecDepth 100000 in
/-- C8 on the code: in `fsUnreadable` the walk of `/dst/mixins/prometheus` is
told that the names of the subdirectory `secret` cannot be read; the function
given to `filepath.Walk` ignores the error and the run completes without a fatal
error, having copied the two collected files and skipped `secret/x.jsonnet`. -/
theorem traversal_error_is_ignored :
    Op.visit "/dst/mixins/prometheus/secret".toList (some .EACCES)
        ∈ (main fsUnreadable flags).state.trace
      ∧ (main fsUnreadable flags).error = none
      ∧ (main fsUnreadable flags).state.c.paths
          = ["mixins/prometheus/b.jsonnet".toList, "mixins/lib/config_util.libsonnet".toList]
      ∧ writtenPaths (main fsUnreadable flags).state.trace
          = ["/dst/mixins/prometheus/b.jsonnet".toList,
             "/dst/mixins/lib/config_util.libsonnet".toList] := by
  refine ⟨by decide, by decide, by decide, by decide⟩

set_option maxRecDepth 100000 in
/-- C9, as stated, fails on filesystems with links, in two ways.  In `fsHardlink`
the source and the destination tree are disjoint and the destination file
`/dst/mixins/README` is not at `destinationRoot/p` for any collected `p`, yet the
run changes its content from `[1]` to `[66]`: the collected `b.jsonnet` is a hard
link to it.  In `fsDangling` the path `mixins/prometheus/a.jsonnet`, collected
from an optional subpath, is a symbolic link to a file that does not exist; the
write to it creates `/dst/mixins/prometheus/zz.jsonnet`, a new file in the
destination that is at `destinationRoot/p` for no collected `p`. -/
theorem main_changes_linked_files :
    diverge (locate fsHardlink.cwd flags.srcPath) (locate fsHardlink.cwd flags.dstPath) = true
      ∧ (main fsHardlink flags).error = none
      ∧ (∀ p ∈ collectedPaths fsHardlink flags,
          ["dst".toList, "mixins".toList, "README".toList]
            ≠ locate fsHardlink.cwd (Join flags.dstPath p))
      ∧ fsHardlink.kindAt ["dst".toList, "mixins".toList, "README".toList]
          = some (.file permFile [1])
      ∧ (main fsHardlink flags).state.fs.kindAt ["dst".toList, "mixins".toList, "README".toList]
          = some (.file permFile [66])
      ∧ diverge (locate fsDangling.cwd flags.srcPath) (locate fsDangling.cwd flags.dstPath) = true
      ∧ (main fsDangling flags).error = none
      ∧ "mixins/prometheus/a.jsonnet".toList ∈ optionalCollected fsDangling flags
      ∧ collectedPaths fsDangling flags
          = ["mixins/prometheus/a.jsonnet".toList, "mixins/lib/config_util.libsonnet".toList]
      ∧ fsDangling.kindAt
          ["dst".toList, "mixins".toList, "prometheus".toList, "zz.jsonnet".toList] = none
      ∧ (main fsDangling flags).state.fs.kindAt
          ["dst".toList, "mixins".toList, "prometheus".toList, "zz.jsonnet".toList]
          = some (.file permFile [65]) := by
  refine ⟨by decide, by decide, by decide, by decide, by decide, by decide, by decide,
    by decide, by decide, by decide, by decide⟩

/-- C9, amended: when the source and the destination tree are disjoint and have
no hard link and no symbolic link, a run, whether it succeeds or aborts, changes
the filesystem only at the locations `destinationRoot/p` for `p` in the collected
paths: what is at any other location is as it was, in particular everything
under the source root; every path collected from an optional subpath already
existed in the destination, so whatever is newly created belongs to a path
collected from a required subpath. -/
theorem main_changes_only_collected (fs : FS) (o : Options) (hwf : fs.wellFormed = true)
    (hsrcT : fs.plainTree o.srcPath = true) (hdstT : fs.plainTree o.dstPath = true)
    (hdis : diverge (locate fs.cwd o.srcPath) (locate fs.cwd o.dstPath) = true) :
    (main fs o).state.c.paths = collectedPaths fs o
      ∧ (∀ L, (∀ p ∈ collectedPaths fs o, L ≠ locate fs.cwd (Join o.dstPath p))
          → (main fs o).state.fs.kindAt L = fs.kindAt L)
      ∧ (∀ L, locate fs.cwd o.srcPath <+: L → (main fs o).state.fs.kindAt L = fs.kindAt L)
      ∧ (∀ p ∈ optionalCollected fs o, fs.kindAt (locate fs.cwd (Join o.dstPath p)) ≠ none)
      ∧ (∀ L, fs.kindAt L = none → (main fs o).state.fs.kindAt L ≠ none
          → ∃ p ∈ collectedPaths fs o, p ∉ optionalCollected fs o
              ∧ L = locate fs.cwd (Join o.dstPath p)) := by
  obtain ⟨hfs, hsrc, hdst, hpaths, _, _⟩ := copyStart_fields fs o
  obtain ⟨hcfs, _, _, hopt, _, _, _⟩ := collect_paths fs o hwf hsrcT hdstT
  have hplain := collectedPaths_plain fs o hwf
  have hframe : ∀ L, (∀ p ∈ collectedPaths fs o, L ≠ locate fs.cwd (Join o.dstPath p))
      → (main fs o).state.fs.kindAt L = fs.kindAt L := by
    intro L hL
    cases hc : (collect fs o).error with
    | some f =>
      cases hcol : collect fs o with
      | done s0 => rw [hcol] at hc; cases hc
      | fatal s0 f0 =>
        rw [main_of_collect_fatal fs o s0 f0 hcol]
        rw [hcol] at hcfs
        simp only [Outcome.state] at hcfs ⊢
        rw [hcfs]
    | none =>
      rw [main_eq_copy fs o hc]
      have := copyEach_frame (copyStart fs o) (collectedPaths fs o) L
        (by rw [hfs, hdst]; exact hdstT) hplain (by
        intro p hp
        rw [hfs, hdst]
        exact fun e => hL p hp e.symm)
      rw [this, hfs]
  have hexist : ∀ p ∈ optionalCollected fs o,
      fs.kindAt (locate fs.cwd (Join o.dstPath p)) ≠ none := by
    intro p hp
    obtain ⟨P, hP, names, hn, ha, hat⟩ := hopt p hp
    have hv := validNames_append P names (optionalElems_valid P hP) hn
    rw [ha, locate_Join fs.cwd o.dstPath _ hv, ← List.append_assoc]
    unfold FS.kindAt
    cases hnode : fs.nodeAt (locate fs.cwd o.dstPath ++ P ++ names) with
    | none => exact absurd hnode hat
    | some n => simp
  refine ⟨?_, hframe, ?_, hexist, ?_⟩
  · cases hc : (collect fs o).error with
    | some f =>
      cases hcol : collect fs o with
      | done s0 => rw [hcol] at hc; cases hc
      | fatal s0 f0 =>
        rw [main_of_collect_fatal fs o s0 f0 hcol]
        unfold collectedPaths
        rw [hcol]
    | none =>
      rw [main_eq_copy fs o hc, (copyEach_keeps _ _).1, hpaths]
  · intro L hL
    apply hframe
    intro p hp e
    obtain ⟨Q, hQ, rfl⟩ := hplain p hp
    rw [locate_Join fs.cwd o.dstPath Q hQ] at e
    obtain ⟨X, rfl⟩ := hL
    exact diverge_ne _ _ (diverge_append_right _ _ X Q hdis) e
  · intro L hnone hsome
    by_contra hno
    have hall : ∀ p ∈ collectedPaths fs o, L ≠ locate fs.cwd (Join o.dstPath p) := by
      intro p hp e
      by_cases hpo : p ∈ optionalCollected fs o
      · exact hexist p hpo (e ▸ hnone)
      · exact hno ⟨p, hp, hpo, e⟩
    rw [hframe L hall] at hsome
    exact hsome hnone

set_option maxRecDepth 100000 in
/-- C9, amended, at a concrete input: the trees `/src` and `/dst` of `fsGood` are
disjoint and have no links. -/
theorem main_changes_only_collected_witness :
    fsGood.wellFormed = true
      ∧ fsGood.plainTree flags.srcPath = true
      ∧ fsGood.plainTree flags.dstPath = true
      ∧ diverge (locate fsGood.cwd flags.srcPath) (locate fsGood.cwd flags.dstPath) = true
      ∧ (∀ L, locate fsGood.cwd flags.srcPath <+: L
          → (main fsGood flags).state.fs.kindAt L = fsGood.kindAt L)
      ∧ (∀ p ∈ optionalCollected fsGood flags,
          fsGood.kindAt (locate fsGood.cwd (Join flags.dstPath p)) ≠ none) :=
  have h := main_changes_only_collected fsGood flags (by decide) (by decide) (by decide)
    (by decide)
  ⟨by decide, by decide, by decide, by decide, h.2.2.1, h.2.2.2.1⟩

set_option maxRecDepth 100000 in
/-- C10, as stated, fails, in two ways.  In `fsUmask` the umask of the process
clears the owner's write bit: the first run completes and creates
`/dst/mixins/lib/config_util.libsonnet` without write permission, so the second
run ends with a fatal error when it writes that file again.  In `fsDangling` the
destination has a symbolic link `a.jsonnet` to a file `zz.jsonnet` that does not
exist: the first run completes and creates `zz.jsonnet` through the link, the
second run collects it as well and ends with a fatal error when it reads it from
the source, which has no such file. -/
theorem second_run_fails :
    diverge (locate fsUmask.cwd flags.srcPath) (locate fsUmask.cwd flags.dstPath) = true
      ∧ (main fsUmask flags).error = none
      ∧ (main (main fsUmask flags).state.fs flags).error
          = some (.write "/dst/mixins/lib/config_util.libsonnet".toList .EACCES)
      ∧ diverge (locate fsDangling.cwd flags.srcPath) (locate fsDangling.cwd flags.dstPath) = true
      ∧ (main fsDangling flags).error = none
      ∧ (main (main fsDangling flags).state.fs flags).error
          = some (.read "/src/mixins/prometheus/zz.jsonnet".toList .ENOENT)
      ∧ (main (main fsDangling flags).state.fs flags).state.c.paths
          ≠ (main fsDangling flags).state.c.paths := by
  refine ⟨by decide, by decide, by decide, by decide, by decide, by decide, by decide⟩

/-- C10, amended: a successful run is idempotent when the source and the
destination tree are disjoint and have no hard link and no symbolic link and the
umask of the process leaves the owner's write bit alone.  When the run then
completes without error, a second run with the same roots on the filesystem the
first one left also completes without error, collects the same sequence of
paths, and leaves the filesystem as the first run left it. -/
theorem main_idempotent (fs : FS) (o : Options) (s : State) (hwf : fs.wellFormed = true)
    (hsrcT : fs.plainTree o.srcPath = true) (hdstT : fs.plainTree o.dstPath = true)
    (hum : fs.umask.w = false)
    (hdis : diverge (locate fs.cwd o.srcPath) (locate fs.cwd o.dstPath) = true)
    (h : main fs o = .done s) :
    ∃ s2, main s.fs o = .done s2 ∧ s2.c.paths = s.c.paths ∧ s2.fs = s.fs := by
  have hc := collect_error_of_main_done fs o s h
  rw [main_eq_copy fs o hc] at h
  obtain ⟨hfs, hsrc, hdst, hpaths, _, _⟩ := copyStart_fields fs o
  obtain ⟨_, _, _, hopt, req, hsplit, hreq⟩ := collect_paths fs o hwf hsrcT hdstT
  have hplain := collectedPaths_plain fs o hwf
  have hk := copyEach_keeps (copyStart fs o) (collectedPaths fs o)
  rw [h] at hk
  simp only [Outcome.state] at hk
  obtain ⟨hkc, hkcwd, _⟩ := hk
  rw [hfs] at hkcwd
  have hS0 : (copyStart fs o).fs.plainTree (copyStart fs o).c.srcPath = true := by
    rw [hfs, hsrc]; exact hsrcT
  have hD0 : (copyStart fs o).fs.plainTree (copyStart fs o).c.dstPath = true := by
    rw [hfs, hdst]; exact hdstT
  -- the trees are still free of links after the first run
  have hsrcT' : s.fs.plainTree o.srcPath = true := by
    have := (copyEach_plainTree (copyStart fs o) (collectedPaths fs o) o.srcPath hD0 hplain
      (by rw [hfs]; exact hsrcT)).1
    rw [h] at this
    exact this
  have hdstT' : s.fs.plainTree o.dstPath = true := by
    have := (copyEach_plainTree (copyStart fs o) (collectedPaths fs o) o.dstPath hD0 hplain
      (by rw [hfs]; exact hdstT)).1
    rw [h] at this
    exact this
  -- what the first run left at the destinations, and the source as it was
  have hA := copyEach_content_apart (copyStart fs o) s (collectedPaths fs o) hS0 hD0
    (by rw [hfs]; exact hum) hplain (by
    intro p hp p' hp'
    obtain ⟨Q, hQ, rfl⟩ := hplain p hp
    obtain ⟨Q', hQ', rfl⟩ := hplain p' hp'
    rw [hfs, hsrc, hdst, locate_Join _ _ Q hQ, locate_Join _ _ Q' hQ']
    exact diverge_append_right _ _ Q Q' hdis) h
  -- the walked directories look the same after the first run
  have hoptShape : ∀ sub ∈ optionalConfigPaths, shapeOf (Stat s.fs (Join o.dstPath sub))
      = shapeOf (Stat fs (Join o.dstPath sub)) := by
    intro sub hsub
    have hp1 := plainTree_optional fs o.dstPath sub hdstT hsub
    have hp2 := plainTree_optional s.fs o.dstPath sub hdstT' hsub
    rw [optionalConfigPaths_eq] at hsub
    obtain ⟨P, hP, rfl⟩ := List.mem_map.mp hsub
    have hPv := optionalElems_valid P hP
    have hne := Join_root_ne_nil o.dstPath P hPv
    rw [Stat_of_ne_nil _ _ hp2 hne, Stat_of_ne_nil _ _ hp1 hne, hkcwd]
    have := copyEach_keeps_shape (copyStart fs o) (collectedPaths fs o)
      (locate fs.cwd (Join o.dstPath (joinSlash P))) hD0 hplain (by
        intro p hp
        rw [hfs, hdst]
        unfold collectedPaths at hp
        rw [hsplit] at hp
        rcases List.mem_append.mp hp with hp | hp
        · left
          obtain ⟨P', hP', names, hn, ha, hat⟩ := hopt p hp
          have hv := validNames_append P' names (optionalElems_valid P' hP') hn
          rw [ha, locate_Join fs.cwd o.dstPath _ hv, ← List.append_assoc]
          exact hat
        · right
          obtain ⟨R, hR, names, hn, ha, _⟩ := hreq p hp
          have hv := validNames_append R names (requiredElems_valid R hR) hn
          rw [ha, locate_Join fs.cwd o.dstPath _ hv, locate_Join fs.cwd o.dstPath P hPv,
            diverge_append_left]
          exact diverge_optional_required P hP R hR names)
    rw [h, hfs] at this
    exact this
  have hreqShape : ∀ sub ∈ requiredConfigPaths, shapeOf (Stat s.fs (Join o.srcPath sub))
      = shapeOf (Stat fs (Join o.srcPath sub)) := by
    intro sub hsub
    have hp1 := plainTree_required fs o.srcPath sub hsrcT hsub
    have hp2 := plainTree_required s.fs o.srcPath sub hsrcT' hsub
    rw [requiredConfigPaths_eq] at hsub
    obtain ⟨R, hR, rfl⟩ := List.mem_map.mp hsub
    have hRv := requiredElems_valid R hR
    have hne := Join_root_ne_nil o.srcPath R hRv
    rw [Stat_of_ne_nil _ _ hp2 hne, Stat_of_ne_nil _ _ hp1 hne, hkcwd]
    have := copyEach_keeps_lookup (copyStart fs o) (collectedPaths fs o)
      (locate fs.cwd (Join o.srcPath (joinSlash R))) hD0 hplain (by
        intro p hp
        obtain ⟨Q, hQ, rfl⟩ := hplain p hp
        rw [hfs, hdst, locate_Join _ _ Q hQ, locate_Join _ _ R hRv]
        exact diverge_append_right _ _ R Q hdis)
    rw [h, hfs] at this
    simp only [Outcome.state] at this
    rw [this]
  have hcol := collect_withFs fs s.fs o hsrcT hdstT hsrcT' hdstT' hoptShape hreqShape
  have hc2 : (collect s.fs o).error = none := by
    rw [hcol, Outcome.withFs_error]; exact hc
  have hstart : copyStart s.fs o = (copyStart fs o).withFs s.fs := by
    unfold copyStart
    rw [hcol, Outcome.withFs_state]
    rfl
  have hpaths2 : collectedPaths s.fs o = collectedPaths fs o := by
    unfold collectedPaths
    rw [hcol, Outcome.withFs_state]
    rfl
  rw [main_eq_copy s.fs o hc2, hstart, hpaths2]
  obtain ⟨s2, h1, h2, h3⟩ := copyEach_again ((copyStart fs o).withFs s.fs)
    (collectedPaths fs o) (by
      intro p hp
      obtain ⟨c, q, _, hr2, hne, hl, hw⟩ := hA p hp
      refine ⟨c, q, hr2, hne, ?_, hw⟩
      show s.fs.rootNode.lookup (locate s.fs.cwd (Join (copyStart fs o).c.dstPath p)) = _
      rw [hkcwd]
      rw [hfs] at hl
      exact hl)
  refine ⟨s2, h1, ?_, h2⟩
  rw [h3, hkc]
  rfl

set_option maxRecDepth 100000 in
/-- C10, amended, at a concrete input: the run on `fsGood` succeeds, and so does
a second run on what it left, with the same paths and the same filesystem. -/
theorem main_idempotent_witness :
    fsGood.wellFormed = true
      ∧ fsGood.plainTree flags.srcPath = true
      ∧ fsGood.plainTree flags.dstPath = true
      ∧ fsGood.umask.w = false
      ∧ diverge (locate fsGood.cwd flags.srcPath) (locate fsGood.cwd flags.dstPath) = true
      ∧ main fsGood flags = .done (main fsGood flags).state
      ∧ ∃ s2, main (main fsGood flags).state.fs flags = .done s2
          ∧ s2.c.paths = (main fsGood flags).state.c.paths
          ∧ s2.fs = (main fsGood flags).state.fs :=
  ⟨by decide, by decide, by decide, by decide, by decide, by decide,
    main_idempotent fsGood flags (main fsGood flags).state (by decide) (by decide) (by decide)
      (by decide) (by decide) (by decide)⟩

end Bump
